import Mathlib

/-! ASCON-128 authenticated encryption: a verification development of `ascon.go`.

The Go package is embedded function by function.

* A byte is `Fin 256`.  A Go byte slice is modelled twice.  First by its contents, a
  `List Byte`, with the `nil` slice the empty list: this is what the code computes when
  the buffers passed to it are separate.  Then `New`, `Seal` and `Open` are embedded once
  more over a heap of bytes, a slice being the address of its first byte, its length and
  its capacity, so that slices may share a backing array, `append` stores in place while
  the capacity lasts, and the instance holds the key slice it was given.
* A `uint64` is a `Nat`; every operation that can leave the 64-bit range is followed
  by an explicit `% 2 ^ 64`.
* A run-time panic (the explicit `panic` calls, an out-of-range slice expression or
  index, a negative shift count) is `Except.error`; a normal return is `Except.ok`.
* `Open` returns the Go pair `(plaintext, err)` as `List Byte × Option String`.
-/

set_option maxRecDepth 100000

namespace Ascon

/-- One octet. -/
abbrev Byte := Fin 256

/-- `KeySize` is the size of an ASCON key, in bytes. -/
def KeySize : Nat := 16

/-- `NonceSize` is the size of an ASCON nonce, in bytes. -/
def NonceSize : Nat := 16

/-- `TagSize` is the size of an ASCON tag, in bytes. -/
def TagSize : Nat := 16

/-- Bytes absorbed per call of the permutation. -/
def rate : Nat := 8

/-- Rounds of the outer permutation. -/
def paRounds : Nat := 12

/-- Rounds of the inner permutation. -/
def pbRounds : Nat := 6

/-- The constant
`initX0 = uint64((KeySize*8)<<24|(rate*8)<<16|paRounds<<8|pbRounds<<0) << 32`. -/
def initX0 : Nat :=
  (((((KeySize * 8) <<< 24) ||| ((rate * 8) <<< 16) ||| (paRounds <<< 8) ||| (pbRounds <<< 0))
      % 2 ^ 64) <<< 32) % 2 ^ 64

/-- Conversion `byte(u)` of a word: the low eight bits. -/
def toByte (u : Nat) : Byte := ⟨u % 256, Nat.mod_lt u (by decide)⟩

/-- Go `^x` on a `uint64`: exclusive or with the all-ones word. -/
def not64 (x : Nat) : Nat := (x ^^^ (2 ^ 64 - 1)) % 2 ^ 64

/-- Go `x &^ y` on `uint64`: the bits of `x` that are clear in `y`. -/
def andNot (x y : Nat) : Nat := x &&& not64 y

/-- `insertByte(b, n) = uint64(b) << (8 * (7 - n))`; a negative shift count panics. -/
def insertByte (b : Byte) (n : Nat) : Except String Nat :=
  if n ≤ 7 then pure ((b.val <<< (8 * (7 - n))) % 2 ^ 64)
  else throw "negative shift amount"

/-- `extractByte(u, n) = byte(u >> (8 * (7 - n)))`; a negative shift count panics. -/
def extractByte (u : Nat) (n : Nat) : Except String Byte :=
  if n ≤ 7 then pure (toByte (u >>> (8 * (7 - n))))
  else throw "negative shift amount"

/-- `insert64(b, u)`: `binary.BigEndian.PutUint64`, which writes the eight bytes of `u`,
most significant first, over the first eight bytes of `b` and panics on a shorter `b`. -/
def insert64 (b : List Byte) (u : Nat) : Except String (List Byte) :=
  if b.length < 8 then throw "index out of range"
  else pure ([toByte (u >>> 56), toByte (u >>> 48), toByte (u >>> 40), toByte (u >>> 32),
              toByte (u >>> 24), toByte (u >>> 16), toByte (u >>> 8), toByte u] ++ b.drop 8)

/-- `extract64(b)`: `binary.BigEndian.Uint64`, which reads the first eight bytes of `b`,
most significant first, and panics on a shorter `b`. -/
def extract64 : List Byte → Except String Nat
  | b0 :: b1 :: b2 :: b3 :: b4 :: b5 :: b6 :: b7 :: _ =>
      pure (b7.val ||| (b6.val <<< 8) ||| (b5.val <<< 16) ||| (b4.val <<< 24) |||
            (b3.val <<< 32) ||| (b2.val <<< 40) ||| (b1.val <<< 48) ||| (b0.val <<< 56))
  | _ => throw "index out of range"

/-- `append64(dst, u)`: a fresh buffer of eight bytes is filled by `insert64` and
appended to `dst`. -/
def append64 (dst : List Byte) (u : Nat) : Except String (List Byte) := do
  let buf ← insert64 (List.replicate 8 0) u
  pure (dst ++ buf)

/-- `bits.RotateLeft64(x, k)` for `k = -n`: with `s = uint(k) & 63`,
the result is `x<<s | x>>(64-s)`. -/
def rotr (u : Nat) (n : Nat) : Nat :=
  let s := (64 - n % 64) % 64
  ((u <<< s) % 2 ^ 64) ||| (u >>> (64 - s))

/-- The five 64-bit words `x0 .. x4` that `Seal` and `Open` hold in local variables
and pass to and from the permutation. -/
structure State where
  x0 : Nat
  x1 : Nat
  x2 : Nat
  x3 : Nat
  x4 : Nat
  deriving DecidableEq, Repr

/-- The round function `round(c, x0, x1, x2, x3, x4)`, statement by statement. -/
def round (c : Nat) (s : State) : State :=
  let x0 := s.x0
  let x1 := s.x1
  let x2 := s.x2
  let x3 := s.x3
  let x4 := s.x4
  let t0 := x0 ^^^ x4
  let t1 := x1
  let t2 := x2 ^^^ x1 ^^^ c
  let t3 := x3
  let t4 := x4 ^^^ x3
  let x0 := t0 ^^^ andNot t2 t1
  let x2 := t2 ^^^ andNot t4 t3
  let x4 := t4 ^^^ andNot t1 t0
  let x1 := t1 ^^^ andNot t3 t2
  let x3 := t3 ^^^ andNot t0 t4
  let x1 := x1 ^^^ x0
  let t1 := x1
  let x1 := rotr x1 39
  let x3 := x3 ^^^ x2
  let t2 := x2
  let x2 := rotr x2 1
  let t4 := x4
  let t2 := t2 ^^^ x2
  let x2 := rotr x2 5
  let t3 := x3
  let t1 := t1 ^^^ x1
  let x3 := rotr x3 10
  let x0 := x0 ^^^ x4
  let x4 := rotr x4 7
  let t3 := t3 ^^^ x3
  let x2 := x2 ^^^ t2
  let x1 := rotr x1 22
  let t0 := x0
  let x2 := not64 x2
  let x3 := rotr x3 7
  let t4 := t4 ^^^ x4
  let x4 := rotr x4 34
  let x3 := x3 ^^^ t3
  let x1 := x1 ^^^ t1
  let x0 := rotr x0 19
  let x4 := x4 ^^^ t4
  let t0 := t0 ^^^ x0
  let x0 := rotr x0 9
  let x0 := x0 ^^^ t0
  ⟨x0, x1, x2, x3, x4⟩

/-- The twelve-round permutation `p12`. -/
def p12 (s : State) : State :=
  let s := round 0xF0 s
  let s := round 0xE1 s
  let s := round 0xD2 s
  let s := round 0xC3 s
  let s := round 0xB4 s
  let s := round 0xA5 s
  let s := round 0x96 s
  let s := round 0x87 s
  let s := round 0x78 s
  let s := round 0x69 s
  let s := round 0x5A s
  let s := round 0x4B s
  s

/-- The six-round permutation `p6`. -/
def p6 (s : State) : State :=
  let s := round 0x96 s
  let s := round 0x87 s
  let s := round 0x78 s
  let s := round 0x69 s
  let s := round 0x5A s
  let s := round 0x4B s
  s

/-- An instance of the ASCON AEAD cipher: `type AEAD struct { key []byte }`. -/
structure AEAD where
  key : List Byte
  deriving DecidableEq, Repr

/-- Slice expression `b[:n]`; panics when `n` exceeds the length. -/
def sliceTo (b : List Byte) (n : Nat) : Except String (List Byte) :=
  if n ≤ b.length then pure (b.take n) else throw "slice bounds out of range"

/-- Slice expression `b[n:]`; panics when `n` exceeds the length. -/
def sliceFrom (b : List Byte) (n : Nat) : Except String (List Byte) :=
  if n ≤ b.length then pure (b.drop n) else throw "slice bounds out of range"

/-- The error value of `Open`: `errors.New("message authentication failed")`. -/
def authError : String := "message authentication failed"

/-- Initialization, shared text of `Seal` and `Open`: the key words `k0`, `k1`, and the
state after `p12` and the first key addition. -/
def initState (c : AEAD) (nonce : List Byte) : Except String (Nat × Nat × State) := do
  let k0 ← (sliceTo c.key 8) >>= extract64
  let k1 ← (sliceFrom c.key 8) >>= extract64
  let x0 := initX0
  let x1 := k0
  let x2 := k1
  let x3 ← (sliceTo nonce 8) >>= extract64
  let x4 ← (sliceFrom nonce 8) >>= extract64
  let s := p12 ⟨x0, x1, x2, x3, x4⟩
  pure (k0, k1, ⟨s.x0, s.x1, s.x2, s.x3 ^^^ k0, s.x4 ^^^ k1⟩)

/-- `Seal`, associated data: the loop `for len(data) >= 8`, which reads `data[:8]`.
Returns the state and what is left of `data`. -/
def sealDataBlocks : State → List Byte → Except String (State × List Byte)
  | s, b0 :: b1 :: b2 :: b3 :: b4 :: b5 :: b6 :: b7 :: rest => do
      let w ← extract64 [b0, b1, b2, b3, b4, b5, b6, b7]
      sealDataBlocks (p6 ⟨s.x0 ^^^ w, s.x1, s.x2, s.x3, s.x4⟩) rest
  | s, data => pure (s, data)

/-- `Open`, associated data: the loop `for len(data) >= rate`, which reads from `data`
itself. -/
def openDataBlocks : State → List Byte → Except String (State × List Byte)
  | s, b0 :: b1 :: b2 :: b3 :: b4 :: b5 :: b6 :: b7 :: rest => do
      let w ← extract64 (b0 :: b1 :: b2 :: b3 :: b4 :: b5 :: b6 :: b7 :: rest)
      openDataBlocks (p6 ⟨s.x0 ^^^ w, s.x1, s.x2, s.x3, s.x4⟩) rest
  | s, data => pure (s, data)

/-- The loop `for i, b := range data { x0 ^= insertByte(b, i) }`, from index `i`. -/
def dataBytes : Nat → Nat → List Byte → Except String Nat
  | x0, _, [] => pure x0
  | x0, i, b :: rest => do
      let v ← insertByte b i
      dataBytes (x0 ^^^ v) (i + 1) rest

/-- `Seal`, the block `if len(data) > 0 { ... }` followed by `x4 ^= 1`. -/
def sealData (s : State) (data : List Byte) : Except String State := do
  let s ← (if data.length > 0 then do
      let (s, data) ← sealDataBlocks s data
      let x0 ← dataBytes s.x0 0 data
      let m ← insertByte 0x80 data.length
      pure (p6 ⟨x0 ^^^ m, s.x1, s.x2, s.x3, s.x4⟩)
    else pure s)
  pure ⟨s.x0, s.x1, s.x2, s.x3, s.x4 ^^^ 1⟩

/-- `Open`, the block `if len(data) > 0 { ... }` followed by `x4 ^= 1`. -/
def openData (s : State) (data : List Byte) : Except String State := do
  let s ← (if data.length > 0 then do
      let (s, data) ← openDataBlocks s data
      let x0 ← dataBytes s.x0 0 data
      let m ← insertByte 0x80 data.length
      pure (p6 ⟨x0 ^^^ m, s.x1, s.x2, s.x3, s.x4⟩)
    else pure s)
  pure ⟨s.x0, s.x1, s.x2, s.x3, s.x4 ^^^ 1⟩

/-- `Seal`, plaintext: the loop `for len(plaintext) >= 8`.  Returns the state, `dst`
and what is left of `plaintext`. -/
def sealBlocks : State → List Byte → List Byte → Except String (State × List Byte × List Byte)
  | s, dst, b0 :: b1 :: b2 :: b3 :: b4 :: b5 :: b6 :: b7 :: rest => do
      let w ← extract64 [b0, b1, b2, b3, b4, b5, b6, b7]
      let x0 := s.x0 ^^^ w
      let dst ← append64 dst x0
      sealBlocks (p6 ⟨x0, s.x1, s.x2, s.x3, s.x4⟩) dst rest
  | s, dst, plaintext => pure (s, dst, plaintext)

/-- `Seal`, plaintext: the loop `for i, b := range plaintext`, from index `i`. -/
def sealBytes : Nat → List Byte → Nat → List Byte → Except String (Nat × List Byte)
  | x0, dst, _, [] => pure (x0, dst)
  | x0, dst, i, b :: rest => do
      let v ← insertByte b i
      let x0 := x0 ^^^ v
      let e ← extractByte x0 i
      sealBytes x0 (dst ++ [e]) (i + 1) rest

/-- `Open`, ciphertext: the loop `for len(ciphertext) >= rate`. -/
def openBlocks : State → List Byte → List Byte → Except String (State × List Byte × List Byte)
  | s, dst, b0 :: b1 :: b2 :: b3 :: b4 :: b5 :: b6 :: b7 :: rest => do
      let c ← extract64 [b0, b1, b2, b3, b4, b5, b6, b7]
      let dst ← append64 dst (s.x0 ^^^ c)
      let x0 := c
      openBlocks (p6 ⟨x0, s.x1, s.x2, s.x3, s.x4⟩) dst rest
  | s, dst, ciphertext => pure (s, dst, ciphertext)

/-- `Open`, ciphertext: the loop `for i, b := range ciphertext`, from index `i`. -/
def openBytes : Nat → List Byte → Nat → List Byte → Except String (Nat × List Byte)
  | x0, dst, _, [] => pure (x0, dst)
  | x0, dst, i, b :: rest => do
      let e ← extractByte x0 i
      let dst := dst ++ [toByte (e.val ^^^ b.val)]
      let m ← insertByte 0xFF i
      let x0 := andNot x0 m
      let v ← insertByte b i
      let x0 := x0 ||| v
      openBytes x0 dst (i + 1) rest

/-- Finalization, shared text of `Seal` and `Open`. -/
def finalize (k0 k1 : Nat) (s : State) : State :=
  let s := p12 ⟨s.x0, s.x1 ^^^ k0, s.x2 ^^^ k1, s.x3, s.x4⟩
  ⟨s.x0, s.x1, s.x2, s.x3 ^^^ k0, s.x4 ^^^ k1⟩

/-- `Seal` implements `cipher.AEAD`.  The branch on `cap(dst)` moves `dst` to a larger
backing array and leaves its contents as they are. -/
def Seal (c : AEAD) (dst nonce plaintext data : List Byte) : Except String (List Byte) :=
  if nonce.length ≠ NonceSize then throw "ascon: bad nonce length"
  else do
    let (k0, k1, s) ← initState c nonce
    let s ← sealData s data
    let (s, dst, plaintext) ← sealBlocks s dst plaintext
    let (x0, dst) ← sealBytes s.x0 dst 0 plaintext
    let m ← insertByte 0x80 plaintext.length
    let s := finalize k0 k1 ⟨x0 ^^^ m, s.x1, s.x2, s.x3, s.x4⟩
    let dst ← append64 dst s.x3
    let dst ← append64 dst s.x4
    pure dst

/-- `subtle.ConstantTimeCompare(x, y)`: 1 if the two slices have equal contents and
0 otherwise (standard library, modelled by its documented result). -/
def ConstantTimeCompare (x y : List Byte) : Nat := if x = y then 1 else 0

/-- `Open`, from the split of the ciphertext to the recomputed tag: returns `dst`
with the recovered plaintext appended, and the buffer `check`. -/
def openCore (c : AEAD) (dst nonce ciphertext data : List Byte) :
    Except String (List Byte × List Byte) := do
  let (k0, k1, s) ← initState c nonce
  let s ← openData s data
  let (s, dst, ciphertext) ← openBlocks s dst ciphertext
  let (x0, dst) ← openBytes s.x0 dst 0 ciphertext
  let m ← insertByte 0x80 ciphertext.length
  let s := finalize k0 k1 ⟨x0 ^^^ m, s.x1, s.x2, s.x3, s.x4⟩
  let check := List.replicate TagSize (0 : Byte)
  let lo ← (sliceTo check 8) >>= (fun b => insert64 b s.x3)
  let hi ← (sliceFrom check 8) >>= (fun b => insert64 b s.x4)
  pure (dst, lo ++ hi)

/-- `Open` implements `cipher.AEAD`. -/
def Open (c : AEAD) (dst nonce ciphertext data : List Byte) :
    Except String (List Byte × Option String) :=
  if nonce.length ≠ NonceSize then throw "wrong nonce size"
  else if ciphertext.length < TagSize then pure ([], some authError)
  else do
    let body ← sliceTo ciphertext (ciphertext.length - TagSize)
    let tag ← sliceFrom ciphertext (ciphertext.length - TagSize)
    let (dst, check) ← openCore c dst nonce body data
    if ConstantTimeCompare tag check = 0 then pure ([], some authError)
    else pure (dst, none)

/-- `New` returns an AEAD instance for the given key: the Go pair `(*AEAD, error)`. -/
def New (key : List Byte) : Option AEAD × Option String :=
  if key.length ≠ KeySize then (none, some "bad key length")
  else (some ⟨key⟩, none)


/-! ## The same code over backing arrays

The definitions above take a slice for its contents.  The ones below keep what Go keeps:
a heap of bytes, and for each slice the address of its first byte, its length and its
capacity, so that two slices may share memory and `append` writes in place while the
capacity lasts.  Addresses grow: a new array is placed after everything allocated so far.
-/

/-- The heap: the byte at each address, and the first address not yet allocated. -/
structure Mem where
  data : Nat → Byte
  size : Nat

/-- A slice header: address of the first byte, length, capacity. -/
structure Slice where
  ptr : Nat
  len : Nat
  cap : Nat
  deriving DecidableEq, Repr

/-- The `nil` slice. -/
def nilSlice : Slice := ⟨0, 0, 0⟩

/-- The `n` bytes of the heap from address `a` on. -/
def memRead (m : Mem) (a n : Nat) : List Byte := (List.range' a n).map m.data

/-- The contents of a slice: its `len` bytes. -/
def memBytes (m : Mem) (s : Slice) : List Byte := memRead m s.ptr s.len

/-- The heap after the bytes `bs` are stored from address `a` on. -/
def memWrite (m : Mem) (a : Nat) (bs : List Byte) : Mem :=
  ⟨fun i => if a ≤ i ∧ i < a + bs.length then bs.getD (i - a) 0 else m.data i, m.size⟩

/-- `make([]byte, 0, n)`: a new zeroed array of `n` bytes after everything allocated so
far, and the empty slice of capacity `n` on it. -/
def memMake (m : Mem) (n : Nat) : Mem × Slice :=
  (⟨fun i => if m.size ≤ i then 0 else m.data i, m.size + n⟩, ⟨m.size, 0, n⟩)

/-- `append(dst, bs...)`: when the capacity suffices the bytes are stored in place behind
the length of `dst`; otherwise a new array is made, of the capacity the runtime chooses
from the old capacity and the length needed (`grow`, and never less than needed), and
receives the contents of `dst` and then `bs`. -/
def memAppend (grow : Nat → Nat → Nat) (m : Mem) (dst : Slice) (bs : List Byte) : Mem × Slice :=
  if dst.len + bs.length ≤ dst.cap then
    (memWrite m (dst.ptr + dst.len) bs, ⟨dst.ptr, dst.len + bs.length, dst.cap⟩)
  else
    let n := max (dst.len + bs.length) (grow dst.cap (dst.len + bs.length))
    (memWrite (memMake m n).1 m.size (memBytes m dst ++ bs), ⟨m.size, dst.len + bs.length, n⟩)

/-- `append64(dst, u)` on the heap: the eight bytes of `u` are appended to `dst`.  The
buffer `buf` is new and no other slice reaches it, so it is kept as a value. -/
def memAppend64 (grow : Nat → Nat → Nat) (m : Mem) (dst : Slice) (u : Nat) :
    Except String (Mem × Slice) := do
  let buf ← insert64 (List.replicate 8 0) u
  pure (memAppend grow m dst buf)

/-- An instance of the cipher on the heap: the struct holds the slice header it was given,
not a copy of the key bytes. -/
structure MemAEAD where
  key : Slice
  deriving DecidableEq, Repr

/-- `New` on the heap: `return &AEAD{key}, nil` keeps the caller's slice. -/
def memNew (key : Slice) : Option MemAEAD × Option String :=
  if key.len ≠ KeySize then (none, some "bad key length")
  else (some ⟨key⟩, none)

/-- `Seal`, plaintext, on the heap: the loop `for len(plaintext) >= 8`, reading
`plaintext[:8]` from the heap as it stands and appending to `dst`.  The first argument
bounds the number of iterations and is given as `len(plaintext)`. -/
def memSealBlocks (grow : Nat → Nat → Nat) :
    Nat → Mem → State → Slice → Slice → Except String (Mem × State × Slice × Slice)
  | 0, m, s, dst, plaintext =>
      if plaintext.len ≥ 8 then throw "loop bound exceeded" else pure (m, s, dst, plaintext)
  | fuel + 1, m, s, dst, plaintext =>
      if plaintext.len ≥ 8 then do
        let w ← extract64 (memRead m plaintext.ptr 8)
        let x0 := s.x0 ^^^ w
        let (m, dst) ← memAppend64 grow m dst x0
        memSealBlocks grow fuel m (p6 ⟨x0, s.x1, s.x2, s.x3, s.x4⟩) dst
          ⟨plaintext.ptr + 8, plaintext.len - 8, plaintext.cap - 8⟩
      else pure (m, s, dst, plaintext)

/-- `Seal`, plaintext, on the heap: the loop `for i, b := range plaintext`; `n` iterations
remain, `i` is the index, and `b` is read from the heap as it stands at that iteration. -/
def memSealBytes (grow : Nat → Nat → Nat) :
    Nat → Mem → Nat → Slice → Nat → Slice → Except String (Mem × Nat × Slice)
  | 0, m, x0, dst, _, _ => pure (m, x0, dst)
  | n + 1, m, x0, dst, i, plaintext => do
      let b := m.data (plaintext.ptr + i)
      let v ← insertByte b i
      let x0 := x0 ^^^ v
      let e ← extractByte x0 i
      let (m, dst) := memAppend grow m dst [e]
      memSealBytes grow n m x0 dst (i + 1) plaintext

/-- `Seal` on the heap.  The key, the nonce and the associated data are read before
anything is stored into memory that existed at the call. -/
def memSeal (grow : Nat → Nat → Nat) (m : Mem) (c : MemAEAD) (dst nonce plaintext data : Slice) :
    Except String (Mem × Slice) :=
  if nonce.len ≠ NonceSize then throw "ascon: bad nonce length"
  else do
    let total := dst.len + plaintext.len + TagSize
    let (m, dst) :=
      if dst.cap < total then memAppend grow (memMake m total).1 (memMake m total).2 (memBytes m dst)
      else (m, dst)
    let (k0, k1, s) ← initState ⟨memBytes m c.key⟩ (memBytes m nonce)
    let s ← sealData s (memBytes m data)
    let (m, s, dst, plaintext) ← memSealBlocks grow plaintext.len m s dst plaintext
    let (m, x0, dst) ← memSealBytes grow plaintext.len m s.x0 dst 0 plaintext
    let mk ← insertByte 0x80 plaintext.len
    let s := finalize k0 k1 ⟨x0 ^^^ mk, s.x1, s.x2, s.x3, s.x4⟩
    let (m, dst) ← memAppend64 grow m dst s.x3
    let (m, dst) ← memAppend64 grow m dst s.x4
    pure (m, dst)

/-- `Open`, ciphertext, on the heap: the loop `for len(ciphertext) >= rate`. -/
def memOpenBlocks (grow : Nat → Nat → Nat) :
    Nat → Mem → State → Slice → Slice → Except String (Mem × State × Slice × Slice)
  | 0, m, s, dst, ciphertext =>
      if ciphertext.len ≥ rate then throw "loop bound exceeded"
      else pure (m, s, dst, ciphertext)
  | fuel + 1, m, s, dst, ciphertext =>
      if ciphertext.len ≥ rate then do
        let c ← extract64 (memRead m ciphertext.ptr 8)
        let ciphertext : Slice := ⟨ciphertext.ptr + 8, ciphertext.len - 8, ciphertext.cap - 8⟩
        let (m, dst) ← memAppend64 grow m dst (s.x0 ^^^ c)
        let x0 := c
        memOpenBlocks grow fuel m (p6 ⟨x0, s.x1, s.x2, s.x3, s.x4⟩) dst ciphertext
      else pure (m, s, dst, ciphertext)

/-- `Open`, ciphertext, on the heap: the loop `for i, b := range ciphertext`. -/
def memOpenBytes (grow : Nat → Nat → Nat) :
    Nat → Mem → Nat → Slice → Nat → Slice → Except String (Mem × Nat × Slice)
  | 0, m, x0, dst, _, _ => pure (m, x0, dst)
  | n + 1, m, x0, dst, i, ciphertext => do
      let b := m.data (ciphertext.ptr + i)
      let e ← extractByte x0 i
      let (m, dst) := memAppend grow m dst [toByte (e.val ^^^ b.val)]
      let mk ← insertByte 0xFF i
      let x0 := andNot x0 mk
      let v ← insertByte b i
      let x0 := x0 ||| v
      memOpenBytes grow n m x0 dst (i + 1) ciphertext

/-- `Open` on the heap: returns the heap, the returned slice and the error.  The tag is
compared at the end, as the heap stands then. -/
def memOpen (grow : Nat → Nat → Nat) (m : Mem) (c : MemAEAD) (dst nonce ciphertext data : Slice) :
    Except String (Mem × Slice × Option String) :=
  if nonce.len ≠ NonceSize then throw "wrong nonce size"
  else if ciphertext.len < TagSize then pure (m, nilSlice, some authError)
  else do
    let tag : Slice := ⟨ciphertext.ptr + (ciphertext.len - TagSize), TagSize,
      ciphertext.cap - (ciphertext.len - TagSize)⟩
    let ciphertext : Slice := ⟨ciphertext.ptr, ciphertext.len - TagSize, ciphertext.cap⟩
    let (k0, k1, s) ← initState ⟨memBytes m c.key⟩ (memBytes m nonce)
    let s ← openData s (memBytes m data)
    let (m, s, dst, ciphertext) ← memOpenBlocks grow ciphertext.len m s dst ciphertext
    let (m, x0, dst) ← memOpenBytes grow ciphertext.len m s.x0 dst 0 ciphertext
    let mk ← insertByte 0x80 ciphertext.len
    let s := finalize k0 k1 ⟨x0 ^^^ mk, s.x1, s.x2, s.x3, s.x4⟩
    let check := List.replicate TagSize (0 : Byte)
    let lo ← (sliceTo check 8) >>= (fun b => insert64 b s.x3)
    let hi ← (sliceFrom check 8) >>= (fun b => insert64 b s.x4)
    if ConstantTimeCompare (memBytes m tag) (lo ++ hi) = 0 then
      pure (m, nilSlice, some authError)
    else pure (m, dst, none)

/-- A heap holding the given bytes from address 0 on, and zeros behind them. -/
def memOf (bs : List Byte) (size : Nat) : Mem := ⟨fun i => bs.getD i 0, size⟩

/-- What the caller sees of a call of `Seal` on the heap: the contents of the returned
slice. -/
def sealResult (r : Except String (Mem × Slice)) : Except String (List Byte) :=
  r.map (fun p => memBytes p.1 p.2)

/-- What the caller sees of a call of `Open` on the heap: the contents of the returned
slice, and the error. -/
def openResult (r : Except String (Mem × Slice × Option String)) :
    Except String (List Byte × Option String) :=
  r.map (fun p => (memBytes p.1 p.2.1, p.2.2))

/-! ## Definitions used to state the properties -/

deriving instance DecidableEq for Except

/-- The eight bytes written by `insert64`. -/
def be64 (u : Nat) : List Byte :=
  [toByte (u >>> 56), toByte (u >>> 48), toByte (u >>> 40), toByte (u >>> 32),
   toByte (u >>> 24), toByte (u >>> 16), toByte (u >>> 8), toByte u]

/-- All five words of the state are below `2 ^ 64`. -/
def State.Bounded (s : State) : Prop :=
  s.x0 < 2 ^ 64 ∧ s.x1 < 2 ^ 64 ∧ s.x2 < 2 ^ 64 ∧ s.x3 < 2 ^ 64 ∧ s.x4 < 2 ^ 64

/-- The 16 bytes of the tag: `x3` then `x4` of the finalized state, big-endian. -/
def tagBytes (s : State) : List Byte := be64 s.x3 ++ be64 s.x4

/-- The byte string `l` with bit `k` (0 is the least significant) of the byte at
position `pos` inverted. -/
def flipBit (l : List Byte) (pos k : Nat) : List Byte :=
  l.set pos (toByte ((l.getD pos 0).val ^^^ (1 <<< k)))

/-! ## The vectors of `TestASCON` -/

/-- Test vector 1 of `TestASCON`: key and nonce, 16 zero bytes. -/
def vec_key1 : List Byte :=
  [0x00, 0x00, 0x00, 0x00, 0x00, 0x00, 0x00, 0x00, 0x00, 0x00, 0x00, 0x00, 0x00, 0x00, 0x00, 0x00]

/-- Test vector 1 of `TestASCON`: expected output. -/
def vec_ct1 : List Byte :=
  [0x42, 0x21, 0x3f, 0x50, 0xa8, 0x11, 0xd2, 0xd1, 0xd7, 0xe4, 0x09, 0x2a, 0xa2, 0xa4, 0x2b, 0xa4]

/-- Test vector 2 of `TestASCON`: key and nonce. -/
def vec_key2 : List Byte :=
  [0x00, 0x01, 0x02, 0x03, 0x04, 0x05, 0x06, 0x07, 0x08, 0x09, 0x0a, 0x0b, 0x0c, 0x0d, 0x0e, 0x0f]

/-- Test vector 2 of `TestASCON`: plaintext, the ASCII bytes of `hello world`. -/
def vec_pt2 : List Byte :=
  [0x68, 0x65, 0x6c, 0x6c, 0x6f, 0x20, 0x77, 0x6f, 0x72, 0x6c, 0x64]

/-- Test vector 2 of `TestASCON`: associated data, the ASCII bytes of `data`. -/
def vec_ad2 : List Byte :=
  [0x64, 0x61, 0x74, 0x61]

/-- Test vector 2 of `TestASCON`: expected output. -/
def vec_ct2 : List Byte :=
  [0x01, 0x8e, 0xcd, 0xf5, 0xe7, 0x42, 0xee, 0xfa, 0x7e, 0x39, 0x54, 0x91, 0xbc, 0x2a, 0x13, 0x9b,
   0xc1, 0x1c, 0x8d, 0xd2, 0xf9, 0x16, 0x5b, 0xf9, 0xdf, 0x26, 0x31]

/-- Test vector 3 of `TestASCON`: key. -/
def vec_key3 : List Byte :=
  [0x98, 0x5f, 0x42, 0xf4, 0xdb, 0xc6, 0x75, 0x5e, 0x6a, 0x32, 0xac, 0xbf, 0xa2, 0xf2, 0x50, 0x38]

/-- Test vector 3 of `TestASCON`: nonce. -/
def vec_nonce3 : List Byte :=
  [0xbc, 0xf9, 0x51, 0xb8, 0xa2, 0x1b, 0x46, 0xd0, 0x2c, 0x5a, 0xff, 0xd1, 0xb0, 0xe8, 0x12, 0xa9]

/-- Test vector 3 of `TestASCON`: plaintext. -/
def vec_pt3 : List Byte :=
  [0xc4, 0x89, 0x54, 0x44, 0x13, 0x74, 0xfb, 0x33, 0x91, 0x26, 0xa2, 0x56, 0xf1, 0x3e, 0x6a, 0x14,
   0x56, 0xba, 0xab, 0x00, 0xa7, 0x13, 0x1a, 0x44, 0xd6, 0xbc, 0xb6, 0x92, 0x9b, 0xb6, 0x13, 0x51] ++
  [0x65, 0x38, 0x62, 0xd0, 0x00, 0xc2, 0x22, 0x00, 0x3e, 0x92, 0x90, 0xb3, 0x9e, 0xdb, 0xbf, 0x3b,
   0x19, 0x80, 0x15, 0x05, 0x97, 0x5c, 0xfd, 0xe0, 0xc8, 0x52, 0x77, 0x48, 0xac, 0xae, 0x03, 0x46] ++
  [0x0a]

/-- Test vector 3 of `TestASCON`: associated data. -/
def vec_ad3 : List Byte :=
  [0xca, 0x4f, 0xc2, 0xcb, 0x57, 0xcb, 0x4b, 0x1b, 0xd9, 0xda, 0xd4, 0x79, 0x38, 0xb3, 0x32, 0xa0,
   0x6a, 0xa1, 0x54, 0xdc, 0x1d, 0x0a, 0xac, 0x66, 0x17, 0x9c, 0xd8, 0xe1, 0x68, 0xea, 0x72, 0x80] ++
  [0xe6, 0xa1, 0x52, 0xad, 0xb7, 0xf5, 0xe1, 0x7d, 0xfa, 0x9b, 0x3e, 0x63, 0xcf, 0x87, 0xdd, 0x6c,
   0xfe, 0xa3, 0x55, 0x8f, 0xd9, 0xa3, 0x8b, 0xf2, 0xc0, 0x56, 0xb2, 0x9c, 0xc2, 0x11, 0x35, 0xca] ++
  [0xff]

/-- Test vector 3 of `TestASCON`: expected output. -/
def vec_ct3 : List Byte :=
  [0x18, 0xc8, 0x49, 0xbb, 0x18, 0x3d, 0x12, 0x68, 0x2f, 0x74, 0xd0, 0x6b, 0x75, 0xe4, 0x18, 0xdc,
   0x74, 0x06, 0xa2, 0x47, 0xde, 0xa5, 0x29, 0x37, 0x2d, 0x09, 0xc5, 0xda, 0x39, 0xad, 0xb6, 0xc3] ++
  [0x9d, 0x20, 0x57, 0x16, 0xf3, 0x13, 0x12, 0xa4, 0x4a, 0x36, 0x2a, 0xab, 0x6b, 0xbe, 0x0e, 0x8d,
   0xef, 0x01, 0xb5, 0xf7, 0x0e, 0x32, 0x2b, 0x3b, 0xeb, 0x52, 0x95, 0x44, 0x3a, 0x89, 0xc9, 0xde] ++
  [0x1a, 0xb5, 0x52, 0x6a, 0x52, 0xc5, 0x11, 0xa1, 0xe0, 0x10, 0x91, 0x6c, 0x43, 0x12, 0xb8, 0xb2,
   0x8c]

/-! ## The permutation as the specification describes it -/

/-- The `i`-th round constant of the twelve-round permutation, `((15 - i) << 4) | i`. -/
def roundConstant (i : Nat) : Nat := ((15 - i) <<< 4) ||| i

/-- The twelve round constants, in the order of application. -/
def roundConstants : List Nat := (List.range 12).map roundConstant

/-- The rounds with the given constants, applied one after the other. -/
def applyRounds (cs : List Nat) (s : State) : State := cs.foldl (fun t c => round c t) s

/-- Rotation of a 64-bit word to the right by `n` bit positions. -/
def rotateRight64 (x n : Nat) : Nat := ((x >>> n) ||| (x <<< (64 - n))) % 2 ^ 64

/-- Bitwise NOT of a 64-bit word. -/
def complement64 (x : Nat) : Nat := 2 ^ 64 - 1 - x

/-- Reference round, step (C): the round constant is XORed into `x2` only. -/
def refConstant (c : Nat) (x : State) : State := ⟨x.x0, x.x1, x.x2 ^^^ c, x.x3, x.x4⟩

/-- Reference round, step (S): `t0 = x0^x4`, `t1 = x1`, `t2 = x2^x1`, `t3 = x3`,
`t4 = x4^x3`; `s_i = t_i XOR (t_{(i+2) mod 5} AND NOT t_{(i+1) mod 5})`; then
`y0 = s0^s4`, `y1 = s1^s0`, `y2 = NOT s2`, `y3 = s3^s2`, `y4 = s4`. -/
def refSubstitution (x : State) : State :=
  let t : Nat → Nat := fun i =>
    match i % 5 with
    | 0 => x.x0 ^^^ x.x4
    | 1 => x.x1
    | 2 => x.x2 ^^^ x.x1
    | 3 => x.x3
    | _ => x.x4 ^^^ x.x3
  let s : Nat → Nat := fun i => t i ^^^ (t ((i + 2) % 5) &&& complement64 (t ((i + 1) % 5)))
  ⟨s 0 ^^^ s 4, s 1 ^^^ s 0, complement64 (s 2), s 3 ^^^ s 2, s 4⟩

/-- Reference round, step (L): each word `y_i` becomes
`y_i XOR rotr(y_i, a_i) XOR rotr(y_i, b_i)` with `(a_i, b_i)` equal to `(19, 28)`,
`(61, 39)`, `(1, 6)`, `(10, 17)`, `(7, 41)`. -/
def refDiffusion (y : State) : State :=
  ⟨y.x0 ^^^ rotateRight64 y.x0 19 ^^^ rotateRight64 y.x0 28,
   y.x1 ^^^ rotateRight64 y.x1 61 ^^^ rotateRight64 y.x1 39,
   y.x2 ^^^ rotateRight64 y.x2 1 ^^^ rotateRight64 y.x2 6,
   y.x3 ^^^ rotateRight64 y.x3 10 ^^^ rotateRight64 y.x3 17,
   y.x4 ^^^ rotateRight64 y.x4 7 ^^^ rotateRight64 y.x4 41⟩

/-- The three-step reference round `L (S (C x))`. -/
def refRound (c : Nat) (x : State) : State := refDiffusion (refSubstitution (refConstant c x))

/-! ## The mode of operation as a duplex over padded blocks -/

/-- Padding: `m || 0x80 || 0^j`, with `j` minimal such that the length is a multiple
of 8. -/
def refPad (m : List Byte) : List Byte :=
  m ++ [0x80] ++ List.replicate (7 - m.length % 8) 0

/-- The big-endian value of a byte string. -/
def refWord (bs : List Byte) : Nat := bs.foldl (fun acc b => acc * 256 + b.val) 0

/-- The big-endian 64-bit blocks of a byte string whose length is a multiple of 8. -/
def refBlocks : List Byte → List Nat
  | b0 :: b1 :: b2 :: b3 :: b4 :: b5 :: b6 :: b7 :: rest =>
      refWord [b0, b1, b2, b3, b4, b5, b6, b7] :: refBlocks rest
  | _ => []

/-- The eight big-endian bytes of a 64-bit word. -/
def refBytes (w : Nat) : List Byte := (List.range 8).map (fun i => toByte (w / 256 ^ (7 - i)))

/-- The initialization word `IV`. -/
def refIV : Nat := 0x80400C0600000000

/-- Absorption: each block is XORed into `x0` and followed by `P6`. -/
def refAbsorb : State → List Nat → State
  | s, [] => s
  | s, w :: ws => refAbsorb (p6 ⟨s.x0 ^^^ w, s.x1, s.x2, s.x3, s.x4⟩) ws

/-- Encryption: each block is XORed into `x0`, and `x0` is recorded as output; `P6`
follows every block except the last.  Returns the state and the recorded words. -/
def refEncrypt : State → List Nat → State × List Nat
  | s, [] => (s, [])
  | s, w :: ws =>
      match ws with
      | [] => (⟨s.x0 ^^^ w, s.x1, s.x2, s.x3, s.x4⟩, [s.x0 ^^^ w])
      | _ :: _ =>
          ((refEncrypt (p6 ⟨s.x0 ^^^ w, s.x1, s.x2, s.x3, s.x4⟩) ws).1,
            (s.x0 ^^^ w) :: (refEncrypt (p6 ⟨s.x0 ^^^ w, s.x1, s.x2, s.x3, s.x4⟩) ws).2)

/-- The bytes of a list of words, each as eight big-endian bytes. -/
def refWordsBytes (ws : List Nat) : List Byte := ws.foldr (fun w acc => refBytes w ++ acc) []

/-- The reference for `Seal(nil, nonce, P, A)`: initialization, absorption of the padded
associated data (nothing when `A` is empty), the domain separation bit, encryption of the
padded plaintext, finalization, and the tag `x3`, `x4`. -/
def refSeal (key nonce P A : List Byte) : List Byte :=
  let k0 := refWord (key.take 8)
  let k1 := refWord (key.drop 8)
  let n0 := refWord (nonce.take 8)
  let n1 := refWord (nonce.drop 8)
  let s := p12 ⟨refIV, k0, k1, n0, n1⟩
  let s : State := ⟨s.x0, s.x1, s.x2, s.x3 ^^^ k0, s.x4 ^^^ k1⟩
  let s := if A = [] then s else refAbsorb s (refBlocks (refPad A))
  let s : State := ⟨s.x0, s.x1, s.x2, s.x3, s.x4 ^^^ 1⟩
  let r := refEncrypt s (refBlocks (refPad P))
  let ct := (refWordsBytes r.2).take P.length
  let s := p12 ⟨r.1.x0, r.1.x1 ^^^ k0, r.1.x2 ^^^ k1, r.1.x3, r.1.x4⟩
  ct ++ refBytes (s.x3 ^^^ k0) ++ refBytes (s.x4 ^^^ k1)

/-! ## Slices in memory, and the heaps of the examples -/

/-- A slice lies in allocated memory: its length within its capacity, its backing array
within the heap. -/
def Slice.Valid (m : Mem) (s : Slice) : Prop := s.len ≤ s.cap ∧ s.ptr + s.cap ≤ m.size

/-- The position `w` at which `append` stores next is clear of the input bytes still to be
read, which lie from `u` up to `e`: it is at or before the next input byte, or at or
behind the end of the input. -/
def Clear (w u e : Nat) : Prop := w ≤ u ∨ e ≤ w

/-- The append `growslice` performs when it asks for exactly the length needed. -/
def growExact : Nat → Nat → Nat := fun _ n => n

/-- A heap for the examples on `Seal`: the key `000102...0f` at address 0, the same bytes
as nonce at 16, the associated data `data` at 32, and from 36 on an array of 64 bytes
whose first 11 bytes are the plaintext `hello world`. -/
def sealHeap : Mem := memOf (vec_key2 ++ vec_key2 ++ vec_ad2 ++ vec_pt2) 128

/-- A heap for the examples on `Open`: key, nonce, associated data and plaintext as in
`sealHeap`, and at address 64 the 27 bytes that `Seal` returns for them. -/
def openHeap : Mem :=
  memOf (vec_key2 ++ vec_key2 ++ vec_ad2 ++ vec_pt2 ++ List.replicate 17 0 ++ vec_ct2) 128

/-- A heap for the example on the key: an array of 64 bytes at address 0 whose first 16
bytes are the key `000102...0f`, a second array with the same key at 64, and the nonce
at 80. -/
def keyHeap : Mem := memOf (vec_key2 ++ List.replicate 48 0 ++ vec_key2 ++ vec_key2) 96

/-! ## Words and bytes -/

theorem toByte_val (u : Nat) : (toByte u).val = u % 2 ^ 8 := rfl

theorem byte_lt (b : Byte) : b.val < 2 ^ 8 := b.isLt

theorem testBit_high {x k j : Nat} (h : x < 2 ^ k) (hj : k ≤ j) : x.testBit j = false :=
  Nat.testBit_lt_two_pow (lt_of_lt_of_le h (Nat.pow_le_pow_right (by decide) hj))

theorem not64_lt (x : Nat) : not64 x < 2 ^ 64 := Nat.mod_lt _ (by decide)

theorem andNot_lt (x y : Nat) : andNot x y < 2 ^ 64 := Nat.and_lt_two_pow _ (not64_lt y)

theorem rotr_lt {u : Nat} (n : Nat) (h : u < 2 ^ 64) : rotr u n < 2 ^ 64 := by
  unfold rotr
  apply Nat.or_lt_two_pow (Nat.mod_lt _ (by decide))
  rw [Nat.shiftRight_eq_div_pow]
  exact lt_of_le_of_lt (Nat.div_le_self _ _) h

theorem shl_byte_lt (b : Byte) {k : Nat} (hk : k ≤ 56) : b.val <<< k < 2 ^ 64 := by
  rw [Nat.shiftLeft_eq]
  calc b.val * 2 ^ k < 2 ^ 8 * 2 ^ k := Nat.mul_lt_mul_of_pos_right b.isLt (Nat.two_pow_pos k)
    _ = 2 ^ (8 + k) := (Nat.pow_add 2 8 k).symm
    _ ≤ 2 ^ 64 := Nat.pow_le_pow_right (by decide) (by omega)

theorem testBit_byte (b : Byte) {j : Nat} (hj : 8 ≤ j) : b.val.testBit j = false :=
  testBit_high b.isLt hj


theorem extract64_lt {b : List Byte} {w : Nat} (h : extract64 b = Except.ok w) : w < 2 ^ 64 := by
  unfold extract64 at h
  split at h
  · rename_i b0 b1 b2 b3 b4 b5 b6 b7 rest
    cases h
    have h7 := shl_byte_lt b7 (show 0 ≤ 56 by omega)
    rw [Nat.shiftLeft_zero] at h7
    exact Nat.or_lt_two_pow (Nat.or_lt_two_pow (Nat.or_lt_two_pow (Nat.or_lt_two_pow
      (Nat.or_lt_two_pow (Nat.or_lt_two_pow (Nat.or_lt_two_pow h7
      (shl_byte_lt b6 (by omega))) (shl_byte_lt b5 (by omega))) (shl_byte_lt b4 (by omega)))
      (shl_byte_lt b3 (by omega))) (shl_byte_lt b2 (by omega))) (shl_byte_lt b1 (by omega)))
      (shl_byte_lt b0 (by omega))
  · cases h

theorem be64_length (u : Nat) : (be64 u).length = 8 := rfl

theorem extract64_be64 {u : Nat} (h : u < 2 ^ 64) (rest : List Byte) :
    extract64 (be64 u ++ rest) = Except.ok u := by
  show Except.ok _ = Except.ok u
  congr 1
  apply Nat.eq_of_testBit_eq
  intro j
  simp only [toByte_val, Nat.testBit_or, Nat.testBit_shiftLeft, Nat.testBit_mod_two_pow,
    Nat.testBit_shiftRight]
  by_cases h64 : 64 ≤ j
  · rw [testBit_high h h64]
    simp
    omega
  · have hj : j < 64 := by omega
    clear h64 h
    interval_cases j <;> simp


theorem xor_insert_lt {x : Nat} (hx : x < 2 ^ 64) (v : Nat) : x ^^^ (v % 2 ^ 64) < 2 ^ 64 :=
  Nat.xor_lt_two_pow hx (Nat.mod_lt _ (by decide))

/-- Decryption of one byte lane: the keystream byte of the old word, combined with the
ciphertext byte that `Seal` extracted from the new word, is the plaintext byte. -/
theorem lane_plain (x : Nat) (p : Byte) {i : Nat} (hi : i ≤ 7) :
    toByte ((toByte (x >>> (8 * (7 - i)))).val ^^^
      (toByte ((x ^^^ (p.val <<< (8 * (7 - i))) % 2 ^ 64) >>> (8 * (7 - i)))).val) = p := by
  apply Fin.ext
  rw [toByte_val]
  apply Nat.eq_of_testBit_eq
  intro j
  simp only [toByte_val, Nat.testBit_xor, Nat.testBit_shiftLeft, Nat.testBit_mod_two_pow,
    Nat.testBit_shiftRight]
  by_cases h8 : 8 ≤ j
  · rw [testBit_byte p h8]
    simp
    omega
  · have hj : j < 8 := by omega
    have h1 : 8 * (7 - i) + j < 64 := by omega
    have h2 : 8 * (7 - i) + j ≥ 8 * (7 - i) := by omega
    have h3 : 8 * (7 - i) + j - 8 * (7 - i) = j := by omega
    simp [hj, h1, h3]

/-- Overwriting one byte lane of the old word with the ciphertext byte, as `Open` does,
gives the word that `Seal` holds after the exclusive or with the plaintext byte. -/
theorem lane_state {x : Nat} (hx : x < 2 ^ 64) (p : Byte) (i : Nat) :
    andNot x (((0xFF : Byte).val <<< (8 * (7 - i))) % 2 ^ 64) |||
      ((toByte ((x ^^^ (p.val <<< (8 * (7 - i))) % 2 ^ 64) >>> (8 * (7 - i)))).val
        <<< (8 * (7 - i))) % 2 ^ 64
    = x ^^^ (p.val <<< (8 * (7 - i))) % 2 ^ 64 := by
  have hff : (0xFF : Byte).val = 2 ^ 8 - 1 := rfl
  rw [hff]
  apply Nat.eq_of_testBit_eq
  intro j
  simp only [andNot, not64, toByte_val, Nat.testBit_xor, Nat.testBit_shiftLeft,
    Nat.testBit_mod_two_pow, Nat.testBit_shiftRight, Nat.testBit_or, Nat.testBit_and,
    Nat.testBit_two_pow_sub_one]
  by_cases h64 : 64 ≤ j
  · have hj : ¬ j < 64 := by omega
    rw [testBit_high hx h64]
    simp [hj]
  · have hj : j < 64 := by omega
    by_cases hlo : j < 8 * (7 - i)
    · have : ¬ (j ≥ 8 * (7 - i)) := by omega
      simp [hj, this]
    · have h2 : j ≥ 8 * (7 - i) := by omega
      have h3 : 8 * (7 - i) + (j - 8 * (7 - i)) = j := by omega
      by_cases hin : j - 8 * (7 - i) < 8
      · simp [hj, h2, h3, hin]
      · have hp : p.val.testBit (j - 8 * (7 - i)) = false := testBit_byte p (by omega)
        simp [hj, h2, hin, hp]


/-! ## The permutation keeps the five words in the 64-bit range -/

theorem round_bounded {c : Nat} (hc : c < 2 ^ 64) {s : State} (h : s.Bounded) :
    (round c s).Bounded := by
  obtain ⟨h0, h1, h2, h3, h4⟩ := h
  unfold round State.Bounded
  dsimp only
  refine ⟨?_, ?_, ?_, ?_, ?_⟩ <;>
    repeat (first
      | assumption
      | apply not64_lt
      | apply andNot_lt
      | apply rotr_lt
      | apply Nat.xor_lt_two_pow)

theorem p6_bounded {s : State} (h : s.Bounded) : (p6 s).Bounded := by
  unfold p6
  dsimp only
  repeat (first | assumption | apply round_bounded (by decide))

theorem p12_bounded {s : State} (h : s.Bounded) : (p12 s).Bounded := by
  unfold p12
  dsimp only
  repeat (first | assumption | apply round_bounded (by decide))


/-! ## Panics and returns -/

@[simp] theorem ok_bind {ε α β : Type} (a : α) (f : α → Except ε β) :
    (Except.ok a >>= f) = f a := rfl

@[simp] theorem error_bind {ε α β : Type} (e : ε) (f : α → Except ε β) :
    ((Except.error e : Except ε α) >>= f) = Except.error e := rfl

@[simp] theorem pure_eq_ok {ε α : Type} (a : α) : (pure a : Except ε α) = Except.ok a := rfl

@[simp] theorem throw_eq_error {ε α : Type} (e : ε) :
    (throw e : Except ε α) = Except.error e := rfl

theorem insertByte_ok (b : Byte) {n : Nat} (h : n ≤ 7) :
    insertByte b n = Except.ok ((b.val <<< (8 * (7 - n))) % 2 ^ 64) := by
  simp [insertByte, h]

theorem extractByte_ok (u : Nat) {n : Nat} (h : n ≤ 7) :
    extractByte u n = Except.ok (toByte (u >>> (8 * (7 - n)))) := by
  simp [extractByte, h]

theorem insert64_ok {b : List Byte} (u : Nat) (h : 8 ≤ b.length) :
    insert64 b u = Except.ok (be64 u ++ b.drop 8) := by
  have : ¬ b.length < 8 := by omega
  simp [insert64, this, be64]

theorem append64_ok (dst : List Byte) (u : Nat) : append64 dst u = Except.ok (dst ++ be64 u) := by
  unfold append64
  rw [insert64_ok u (by simp)]
  simp

theorem extract64_cons8 (b0 b1 b2 b3 b4 b5 b6 b7 : Byte) (rest : List Byte) :
    extract64 (b0 :: b1 :: b2 :: b3 :: b4 :: b5 :: b6 :: b7 :: rest) =
      extract64 [b0, b1, b2, b3, b4, b5, b6, b7] := rfl

theorem extract64_total (b0 b1 b2 b3 b4 b5 b6 b7 : Byte) (rest : List Byte) :
    ∃ w, extract64 (b0 :: b1 :: b2 :: b3 :: b4 :: b5 :: b6 :: b7 :: rest) = Except.ok w ∧
      w < 2 ^ 64 :=
  ⟨_, rfl, extract64_lt (b := b0 :: b1 :: b2 :: b3 :: b4 :: b5 :: b6 :: b7 :: rest) rfl⟩

/-- Induction over a byte string in blocks of eight. -/
theorem blocks_induction {P : List Byte → Prop}
    (short : ∀ l : List Byte, l.length < 8 → P l)
    (step : ∀ (b0 b1 b2 b3 b4 b5 b6 b7 : Byte) (rest : List Byte), P rest →
      P (b0 :: b1 :: b2 :: b3 :: b4 :: b5 :: b6 :: b7 :: rest)) :
    ∀ l, P l := by
  have key : ∀ n (l : List Byte), l.length ≤ n → P l := by
    intro n
    induction n with
    | zero => intro l hl; exact short l (by omega)
    | succ n ih =>
      intro l hl
      match l, hl with
      | b0 :: b1 :: b2 :: b3 :: b4 :: b5 :: b6 :: b7 :: rest, hl =>
        exact step _ _ _ _ _ _ _ _ _ (ih rest (by simp at hl; omega))
      | [], _ => exact short _ (by simp)
      | [_], _ => exact short _ (by simp)
      | [_, _], _ => exact short _ (by simp)
      | [_, _, _], _ => exact short _ (by simp)
      | [_, _, _, _], _ => exact short _ (by simp)
      | [_, _, _, _, _], _ => exact short _ (by simp)
      | [_, _, _, _, _, _], _ => exact short _ (by simp)
      | [_, _, _, _, _, _, _], _ => exact short _ (by simp)
  exact fun l => key l.length l (le_refl _)

theorem sealDataBlocks_short (s : State) {l : List Byte} (h : l.length < 8) :
    sealDataBlocks s l = Except.ok (s, l) := by
  match l, h with
  | [], _ => rfl
  | [_], _ => rfl
  | [_, _], _ => rfl
  | [_, _, _], _ => rfl
  | [_, _, _, _], _ => rfl
  | [_, _, _, _, _], _ => rfl
  | [_, _, _, _, _, _], _ => rfl
  | [_, _, _, _, _, _, _], _ => rfl
  | _ :: _ :: _ :: _ :: _ :: _ :: _ :: _ :: _, h => simp at h; omega


theorem extract64_of_length {l : List Byte} (h : 8 ≤ l.length) :
    ∃ w, extract64 l = Except.ok w ∧ w < 2 ^ 64 := by
  match l, h with
  | b0 :: b1 :: b2 :: b3 :: b4 :: b5 :: b6 :: b7 :: rest, _ =>
    exact extract64_total b0 b1 b2 b3 b4 b5 b6 b7 rest
  | [], h => simp at h
  | [_], h => simp at h
  | [_, _], h => simp at h
  | [_, _, _], h => simp at h
  | [_, _, _, _], h => simp at h
  | [_, _, _, _, _], h => simp at h
  | [_, _, _, _, _, _], h => simp at h
  | [_, _, _, _, _, _, _], h => simp at h

/-- Writing out the word read from eight bytes gives the eight bytes back. -/
theorem be64_extract64 (b0 b1 b2 b3 b4 b5 b6 b7 : Byte) {w : Nat}
    (h : extract64 [b0, b1, b2, b3, b4, b5, b6, b7] = Except.ok w) :
    be64 w = [b0, b1, b2, b3, b4, b5, b6, b7] := by
  cases h
  have hb : ∀ (b : Byte) (j : Nat), 8 ≤ j → b.val.testBit j = false :=
    fun b j hj => testBit_byte b hj
  have key : ∀ (k : Nat) (b : Byte), k ≤ 56 →
      (∀ j, j < 8 → (b7.val ||| (b6.val <<< 8) ||| (b5.val <<< 16) ||| (b4.val <<< 24) |||
        (b3.val <<< 32) ||| (b2.val <<< 40) ||| (b1.val <<< 48) ||| (b0.val <<< 56)).testBit (k + j)
          = b.val.testBit j) →
      toByte ((b7.val ||| (b6.val <<< 8) ||| (b5.val <<< 16) ||| (b4.val <<< 24) |||
        (b3.val <<< 32) ||| (b2.val <<< 40) ||| (b1.val <<< 48) ||| (b0.val <<< 56)) >>> k) = b := by
    intro k b _ hk
    apply Fin.ext
    rw [toByte_val]
    apply Nat.eq_of_testBit_eq
    intro j
    rw [Nat.testBit_mod_two_pow, Nat.testBit_shiftRight]
    by_cases hj : j < 8
    · simp [hj, hk j hj]
    · simp [hj, hb b j (by omega)]
  have k0 := key 56 b0 (by omega) (by
    intro j hj
    simp only [Nat.testBit_or, Nat.testBit_shiftLeft]
    interval_cases j <;> simp [hb])
  have k1 := key 48 b1 (by omega) (by
    intro j hj
    simp only [Nat.testBit_or, Nat.testBit_shiftLeft]
    interval_cases j <;> simp [hb])
  have k2 := key 40 b2 (by omega) (by
    intro j hj
    simp only [Nat.testBit_or, Nat.testBit_shiftLeft]
    interval_cases j <;> simp [hb])
  have k3 := key 32 b3 (by omega) (by
    intro j hj
    simp only [Nat.testBit_or, Nat.testBit_shiftLeft]
    interval_cases j <;> simp [hb])
  have k4 := key 24 b4 (by omega) (by
    intro j hj
    simp only [Nat.testBit_or, Nat.testBit_shiftLeft]
    interval_cases j <;> simp [hb])
  have k5 := key 16 b5 (by omega) (by
    intro j hj
    simp only [Nat.testBit_or, Nat.testBit_shiftLeft]
    interval_cases j <;> simp [hb])
  have k6 := key 8 b6 (by omega) (by
    intro j hj
    simp only [Nat.testBit_or, Nat.testBit_shiftLeft]
    interval_cases j <;> simp [hb])
  have k7 := key 0 b7 (by omega) (by
    intro j hj
    simp only [Nat.testBit_or, Nat.testBit_shiftLeft]
    interval_cases j <;> simp [hb])
  rw [Nat.shiftRight_zero] at k7
  simp only [be64, k0, k1, k2, k3, k4, k5, k6, k7]


/-! ## Associated data -/

theorem openDataBlocks_eq (l : List Byte) :
    ∀ s : State, openDataBlocks s l = sealDataBlocks s l := by
  induction l using blocks_induction with
  | short l h =>
    intro s
    rw [sealDataBlocks_short s h]
    match l, h with
    | [], _ => rfl
    | [_], _ => rfl
    | [_, _], _ => rfl
    | [_, _, _], _ => rfl
    | [_, _, _, _], _ => rfl
    | [_, _, _, _, _], _ => rfl
    | [_, _, _, _, _, _], _ => rfl
    | [_, _, _, _, _, _, _], _ => rfl
    | _ :: _ :: _ :: _ :: _ :: _ :: _ :: _ :: _, h => simp at h; omega
  | step b0 b1 b2 b3 b4 b5 b6 b7 rest ih =>
    intro s
    show openDataBlocks (p6 _) rest = sealDataBlocks (p6 _) rest
    exact ih _

theorem openData_eq (s : State) (data : List Byte) : openData s data = sealData s data := by
  unfold openData sealData
  rw [openDataBlocks_eq]

theorem sealDataBlocks_total (l : List Byte) :
    ∀ s : State, s.Bounded →
      ∃ s1 rem, sealDataBlocks s l = Except.ok (s1, rem) ∧ s1.Bounded ∧ rem.length < 8 := by
  induction l using blocks_induction with
  | short l h =>
    intro s hs
    exact ⟨s, l, sealDataBlocks_short s h, hs, h⟩
  | step b0 b1 b2 b3 b4 b5 b6 b7 rest ih =>
    intro s hs
    obtain ⟨h0, h1, h2, h3, h4⟩ := hs
    exact ih _ (p6_bounded ⟨Nat.xor_lt_two_pow h0
      (extract64_lt (b := [b0, b1, b2, b3, b4, b5, b6, b7]) rfl), h1, h2, h3, h4⟩)

theorem dataBytes_total (l : List Byte) :
    ∀ (x0 i : Nat), x0 < 2 ^ 64 → i + l.length ≤ 8 →
      ∃ x, dataBytes x0 i l = Except.ok x ∧ x < 2 ^ 64 := by
  induction l with
  | nil => intro x0 i hx _; exact ⟨x0, rfl, hx⟩
  | cons b rest ih =>
    intro x0 i hx hi
    simp only [List.length_cons] at hi
    unfold dataBytes
    rw [insertByte_ok b (by omega)]
    exact ih _ (i + 1) (xor_insert_lt hx _) (by omega)

theorem sealData_total {s : State} (hs : s.Bounded) (data : List Byte) :
    ∃ s1, sealData s data = Except.ok s1 ∧ s1.Bounded := by
  have hone : (1 : Nat) < 2 ^ 64 := by decide
  unfold sealData
  by_cases hd : data.length > 0
  · obtain ⟨s1, rem, e1, b1, hrem⟩ := sealDataBlocks_total data s hs
    obtain ⟨x, e2, hx⟩ := dataBytes_total rem s1.x0 0 b1.1 (by omega)
    obtain ⟨_, h1, h2, h3, h4⟩ := b1
    have hb := p6_bounded (s := ⟨x ^^^ (((0x80 : Byte).val <<< (8 * (7 - rem.length))) % 2 ^ 64),
      s1.x1, s1.x2, s1.x3, s1.x4⟩) ⟨xor_insert_lt hx _, h1, h2, h3, h4⟩
    simp only [hd, if_true, e1, ok_bind, e2, insertByte_ok (0x80 : Byte) (show rem.length ≤ 7 by omega),
      pure_eq_ok]
    exact ⟨_, rfl, hb.1, hb.2.1, hb.2.2.1, hb.2.2.2.1, Nat.xor_lt_two_pow hb.2.2.2.2 hone⟩
  · obtain ⟨h0, h1, h2, h3, h4⟩ := hs
    simp only [hd, if_false, pure_eq_ok, ok_bind]
    exact ⟨_, rfl, h0, h1, h2, h3, Nat.xor_lt_two_pow h4 hone⟩


/-! ## Plaintext and ciphertext -/

theorem sealBlocks_short (s : State) (dst : List Byte) {l : List Byte} (h : l.length < 8) :
    sealBlocks s dst l = Except.ok (s, dst, l) := by
  match l, h with
  | [], _ => rfl
  | [_], _ => rfl
  | [_, _], _ => rfl
  | [_, _, _], _ => rfl
  | [_, _, _, _], _ => rfl
  | [_, _, _, _, _], _ => rfl
  | [_, _, _, _, _, _], _ => rfl
  | [_, _, _, _, _, _, _], _ => rfl
  | _ :: _ :: _ :: _ :: _ :: _ :: _ :: _ :: _, h => simp at h; omega

theorem openBlocks_short (s : State) (dst : List Byte) {l : List Byte} (h : l.length < 8) :
    openBlocks s dst l = Except.ok (s, dst, l) := by
  match l, h with
  | [], _ => rfl
  | [_], _ => rfl
  | [_, _], _ => rfl
  | [_, _, _], _ => rfl
  | [_, _, _, _], _ => rfl
  | [_, _, _, _, _], _ => rfl
  | [_, _, _, _, _, _], _ => rfl
  | [_, _, _, _, _, _, _], _ => rfl
  | _ :: _ :: _ :: _ :: _ :: _ :: _ :: _ :: _, h => simp at h; omega

theorem sealBlocks_step (s : State) (dst : List Byte) (b0 b1 b2 b3 b4 b5 b6 b7 : Byte)
    (rest : List Byte) {w : Nat} (hw : extract64 [b0, b1, b2, b3, b4, b5, b6, b7] = Except.ok w) :
    sealBlocks s dst (b0 :: b1 :: b2 :: b3 :: b4 :: b5 :: b6 :: b7 :: rest) =
      sealBlocks (p6 ⟨s.x0 ^^^ w, s.x1, s.x2, s.x3, s.x4⟩) (dst ++ be64 (s.x0 ^^^ w)) rest := by
  cases hw
  rfl

theorem openBlocks_step (s : State) (dst : List Byte) (b0 b1 b2 b3 b4 b5 b6 b7 : Byte)
    (rest : List Byte) {c : Nat} (hc : extract64 [b0, b1, b2, b3, b4, b5, b6, b7] = Except.ok c) :
    openBlocks s dst (b0 :: b1 :: b2 :: b3 :: b4 :: b5 :: b6 :: b7 :: rest) =
      openBlocks (p6 ⟨c, s.x1, s.x2, s.x3, s.x4⟩) (dst ++ be64 (s.x0 ^^^ c)) rest := by
  cases hc
  rfl

theorem xor_cancel_left (a b : Nat) : a ^^^ (a ^^^ b) = b := by
  rw [← Nat.xor_assoc, Nat.xor_self, Nat.zero_xor]

/-- Full blocks: `Seal` consumes the plaintext in blocks of eight and leaves fewer than
eight bytes; `Open`, started in the same state on the ciphertext blocks (followed by any
short tail), recovers the consumed plaintext and reaches the same state. -/
theorem blocks_duplex (pt : List Byte) :
    ∀ (s : State), s.Bounded →
      ∃ (s1 : State) (ct full rem : List Byte),
        pt = full ++ rem ∧ rem.length < 8 ∧ ct.length = full.length ∧ s1.Bounded ∧
        (∀ dst : List Byte, sealBlocks s dst pt = Except.ok (s1, dst ++ ct, rem)) ∧
        ∀ (dst2 tail : List Byte), tail.length < 8 →
          openBlocks s dst2 (ct ++ tail) = Except.ok (s1, dst2 ++ full, tail) := by
  induction pt using blocks_induction with
  | short l h =>
    intro s hs
    refine ⟨s, [], [], l, rfl, h, rfl, hs, ?_, ?_⟩
    · intro dst
      rw [sealBlocks_short s dst h, List.append_nil]
    · intro dst2 tail ht
      rw [List.nil_append, openBlocks_short s dst2 ht, List.append_nil]
  | step b0 b1 b2 b3 b4 b5 b6 b7 rest ih =>
    intro s hs
    obtain ⟨w, hw, hwlt⟩ := extract64_total b0 b1 b2 b3 b4 b5 b6 b7 []
    have hx : s.x0 ^^^ w < 2 ^ 64 := Nat.xor_lt_two_pow hs.1 hwlt
    have hb : (p6 ⟨s.x0 ^^^ w, s.x1, s.x2, s.x3, s.x4⟩).Bounded :=
      p6_bounded ⟨hx, hs.2.1, hs.2.2.1, hs.2.2.2.1, hs.2.2.2.2⟩
    obtain ⟨s1, ct, full, rem, hsplit, hrem, hlen, hb1, hseal, hopen⟩ := ih _ hb
    refine ⟨s1, be64 (s.x0 ^^^ w) ++ ct, [b0, b1, b2, b3, b4, b5, b6, b7] ++ full, rem,
      ?_, hrem, ?_, hb1, ?_, ?_⟩
    · rw [hsplit]; rfl
    · simp [be64_length, hlen]; omega
    · intro dst
      rw [sealBlocks_step s dst b0 b1 b2 b3 b4 b5 b6 b7 rest hw, hseal, List.append_assoc]
    · intro dst2 tail ht
      have hc : extract64 (be64 (s.x0 ^^^ w)) = Except.ok (s.x0 ^^^ w) := by
        have := extract64_be64 hx []
        rwa [List.append_nil] at this
      have e : be64 (s.x0 ^^^ w) ++ ct ++ tail =
          toByte ((s.x0 ^^^ w) >>> 56) :: toByte ((s.x0 ^^^ w) >>> 48) ::
          toByte ((s.x0 ^^^ w) >>> 40) :: toByte ((s.x0 ^^^ w) >>> 32) ::
          toByte ((s.x0 ^^^ w) >>> 24) :: toByte ((s.x0 ^^^ w) >>> 16) ::
          toByte ((s.x0 ^^^ w) >>> 8) :: toByte (s.x0 ^^^ w) :: (ct ++ tail) := rfl
      rw [e, openBlocks_step s dst2 _ _ _ _ _ _ _ _ (ct ++ tail) hc, xor_cancel_left,
        be64_extract64 b0 b1 b2 b3 b4 b5 b6 b7 hw, hopen _ tail ht, List.append_assoc]

/-- The last, short block: `Seal` emits one ciphertext byte per plaintext byte; `Open`,
started on the same word, recovers the plaintext bytes and ends on the same word. -/
theorem bytes_duplex (l : List Byte) :
    ∀ (x0 : Nat) (i : Nat), x0 < 2 ^ 64 → i + l.length ≤ 8 →
      ∃ (x1 : Nat) (cb : List Byte), cb.length = l.length ∧ x1 < 2 ^ 64 ∧
        (∀ dst : List Byte, sealBytes x0 dst i l = Except.ok (x1, dst ++ cb)) ∧
        ∀ dst2 : List Byte, openBytes x0 dst2 i cb = Except.ok (x1, dst2 ++ l) := by
  induction l with
  | nil =>
    intro x0 i hx _
    exact ⟨x0, [], rfl, hx, fun dst => by rw [List.append_nil]; rfl,
      fun dst2 => by rw [List.append_nil]; rfl⟩
  | cons b rest ih =>
    intro x0 i hx hi
    simp only [List.length_cons] at hi
    have hi7 : i ≤ 7 := by omega
    have hx1 : x0 ^^^ (b.val <<< (8 * (7 - i))) % 2 ^ 64 < 2 ^ 64 := xor_insert_lt hx _
    obtain ⟨x1, cb, hlen, hlt, hseal, hopen⟩ :=
      ih (x0 ^^^ (b.val <<< (8 * (7 - i))) % 2 ^ 64) (i + 1) hx1 (by omega)
    refine ⟨x1, toByte ((x0 ^^^ (b.val <<< (8 * (7 - i))) % 2 ^ 64) >>> (8 * (7 - i))) :: cb,
      by simp [hlen], hlt, ?_, ?_⟩
    · intro dst
      unfold sealBytes
      simp only [insertByte_ok b hi7, ok_bind, extractByte_ok _ hi7, hseal, List.append_assoc,
        List.singleton_append]
    · intro dst2
      unfold openBytes
      simp only [insertByte_ok _ hi7, ok_bind, extractByte_ok _ hi7, lane_plain x0 b hi7,
        lane_state hx b i, hopen, List.append_assoc, List.singleton_append]

/-- On any ciphertext the block loop of `Open` returns: it appends one byte per consumed
byte and leaves fewer than eight bytes. -/
theorem openBlocks_total (ct : List Byte) :
    ∀ (s : State), ∃ (s1 : State) (out rem : List Byte),
      rem.length < 8 ∧ out.length + rem.length = ct.length ∧
      ∀ dst : List Byte, openBlocks s dst ct = Except.ok (s1, dst ++ out, rem) := by
  induction ct using blocks_induction with
  | short l h =>
    intro s
    exact ⟨s, [], l, h, by simp, fun dst => by rw [openBlocks_short s dst h, List.append_nil]⟩
  | step b0 b1 b2 b3 b4 b5 b6 b7 rest ih =>
    intro s
    obtain ⟨c, hc, _⟩ := extract64_total b0 b1 b2 b3 b4 b5 b6 b7 []
    obtain ⟨s1, out, rem, hrem, hlen, hopen⟩ := ih (p6 ⟨c, s.x1, s.x2, s.x3, s.x4⟩)
    refine ⟨s1, be64 (s.x0 ^^^ c) ++ out, rem, hrem, ?_, ?_⟩
    · simp [be64_length]; omega
    · intro dst
      rw [openBlocks_step s dst b0 b1 b2 b3 b4 b5 b6 b7 rest hc, hopen, List.append_assoc]

/-- On at most eight remaining byte lanes the byte loop of `Open` returns and appends one
byte per ciphertext byte. -/
theorem openBytes_total (l : List Byte) :
    ∀ (x0 i : Nat), i + l.length ≤ 8 →
      ∃ (x1 : Nat) (out : List Byte), out.length = l.length ∧
        ∀ dst : List Byte, openBytes x0 dst i l = Except.ok (x1, dst ++ out) := by
  induction l with
  | nil =>
    intro x0 i _
    exact ⟨x0, [], rfl, fun dst => by rw [List.append_nil]; rfl⟩
  | cons b rest ih =>
    intro x0 i hi
    simp only [List.length_cons] at hi
    have hi7 : i ≤ 7 := by omega
    obtain ⟨x1, out, hlen, hopen⟩ :=
      ih (andNot x0 (((0xFF : Byte).val <<< (8 * (7 - i))) % 2 ^ 64) |||
        (b.val <<< (8 * (7 - i))) % 2 ^ 64) (i + 1) (by omega)
    refine ⟨x1, toByte ((toByte (x0 >>> (8 * (7 - i)))).val ^^^ b.val) :: out,
      by simp [hlen], ?_⟩
    intro dst
    unfold openBytes
    simp only [insertByte_ok _ hi7, ok_bind, extractByte_ok _ hi7, hopen, List.append_assoc,
      List.singleton_append]


/-! ## Initialization, finalization and the two entry points -/

theorem initX0_lt : initX0 < 2 ^ 64 := by decide

theorem initState_total {key nonce : List Byte} (hk : key.length = 16) (hn : nonce.length = 16) :
    ∃ (k0 k1 : Nat) (s : State), initState ⟨key⟩ nonce = Except.ok (k0, k1, s) ∧ s.Bounded := by
  obtain ⟨k0, e0, h0⟩ := extract64_of_length (l := key.take 8) (by simp [hk])
  obtain ⟨k1, e1, h1⟩ := extract64_of_length (l := key.drop 8) (by simp [hk])
  obtain ⟨n0, e2, h2⟩ := extract64_of_length (l := nonce.take 8) (by simp [hn])
  obtain ⟨n1, e3, h3⟩ := extract64_of_length (l := nonce.drop 8) (by simp [hn])
  have hb := p12_bounded (s := ⟨initX0, k0, k1, n0, n1⟩) ⟨initX0_lt, h0, h1, h2, h3⟩
  refine ⟨k0, k1, ⟨(p12 ⟨initX0, k0, k1, n0, n1⟩).x0, (p12 ⟨initX0, k0, k1, n0, n1⟩).x1,
    (p12 ⟨initX0, k0, k1, n0, n1⟩).x2, (p12 ⟨initX0, k0, k1, n0, n1⟩).x3 ^^^ k0,
    (p12 ⟨initX0, k0, k1, n0, n1⟩).x4 ^^^ k1⟩, ?_, ?_⟩
  · simp only [initState, sliceTo, sliceFrom, hk, hn, show (8 : Nat) ≤ 16 by decide, if_true,
      pure_eq_ok, ok_bind, e0, e1, e2, e3]
  · exact ⟨hb.1, hb.2.1, hb.2.2.1, Nat.xor_lt_two_pow hb.2.2.2.1 h0,
      Nat.xor_lt_two_pow hb.2.2.2.2 h1⟩

theorem tagBytes_length (s : State) : (tagBytes s).length = 16 := rfl

theorem check_ok (s : State) :
    ((sliceTo (List.replicate TagSize (0 : Byte)) 8) >>= (fun b => insert64 b s.x3)) =
        Except.ok (be64 s.x3) ∧
    ((sliceFrom (List.replicate TagSize (0 : Byte)) 8) >>= (fun b => insert64 b s.x4)) =
        Except.ok (be64 s.x4) := by
  constructor
  · show insert64 (List.replicate 8 (0 : Byte)) s.x3 = _
    rw [insert64_ok _ (by simp)]
    rfl
  · show insert64 (List.replicate 8 (0 : Byte)) s.x4 = _
    rw [insert64_ok _ (by simp)]
    rfl

/-- With a 16-byte key and a 16-byte nonce `Seal` returns `dst`, then one ciphertext byte
per plaintext byte, then 16 tag bytes; neither part depends on `dst`; and the core of
`Open`, run on the ciphertext bytes with the same associated data, recovers the plaintext
and recomputes the same tag. -/
theorem seal_open_core {key nonce : List Byte} (hk : key.length = 16) (hn : nonce.length = 16)
    (pt ad : List Byte) :
    ∃ (body tag : List Byte), body.length = pt.length ∧ tag.length = 16 ∧
      (∀ dst : List Byte, Seal ⟨key⟩ dst nonce pt ad = Except.ok (dst ++ body ++ tag)) ∧
      ∀ dst2 : List Byte, openCore ⟨key⟩ dst2 nonce body ad = Except.ok (dst2 ++ pt, tag) := by
  obtain ⟨k0, k1, s0, einit, hb0⟩ := initState_total hk hn
  obtain ⟨sa, edata, hba⟩ := sealData_total hb0 ad
  obtain ⟨s1, ct, full, rem, hsplit, hrem, hlen, hb1, hseal, hopen⟩ := blocks_duplex pt sa hba
  obtain ⟨x1, cb, hcb, _, hsb, hob⟩ := bytes_duplex rem s1.x0 0 hb1.1 (by omega)
  have hm : insertByte (0x80 : Byte) rem.length =
      Except.ok (((0x80 : Byte).val <<< (8 * (7 - rem.length))) % 2 ^ 64) :=
    insertByte_ok _ (by omega)
  have hm2 : insertByte (0x80 : Byte) cb.length =
      Except.ok (((0x80 : Byte).val <<< (8 * (7 - rem.length))) % 2 ^ 64) := by
    rw [hcb]; exact hm
  have hnn : ¬ nonce.length ≠ NonceSize := by simp [hn, NonceSize]
  refine ⟨ct ++ cb, tagBytes (finalize k0 k1
      ⟨x1 ^^^ ((0x80 : Byte).val <<< (8 * (7 - rem.length))) % 2 ^ 64, s1.x1, s1.x2, s1.x3, s1.x4⟩),
    ?_, tagBytes_length _, ?_, ?_⟩
  · rw [hsplit]; simp [hlen, hcb]
  · intro dst
    unfold Seal
    simp only [hnn, if_false, einit, ok_bind, edata, hseal, hsb, hm, append64_ok, pure_eq_ok,
      tagBytes, List.append_assoc]
  · intro dst2
    have hcbl : cb.length < 8 := by omega
    unfold openCore
    simp only [einit, ok_bind, openData_eq, edata, hopen dst2 cb hcbl, hob, hm2,
      (check_ok _).1, (check_ok _).2, pure_eq_ok, tagBytes, hsplit, List.append_assoc]

/-- With a 16-byte key and a 16-byte nonce the core of `Open` returns on every ciphertext
and every associated data: `dst` followed by one byte per ciphertext byte, and a
16-byte buffer `check`; neither depends on `dst`. -/
theorem openCore_total {key nonce : List Byte} (hk : key.length = 16) (hn : nonce.length = 16)
    (body ad : List Byte) :
    ∃ (out check : List Byte), out.length = body.length ∧ check.length = 16 ∧
      ∀ dst : List Byte, openCore ⟨key⟩ dst nonce body ad = Except.ok (dst ++ out, check) := by
  obtain ⟨k0, k1, s0, einit, hb0⟩ := initState_total hk hn
  obtain ⟨sa, edata, _⟩ := sealData_total hb0 ad
  obtain ⟨s1, out, rem, hrem, hlen, hopen⟩ := openBlocks_total body sa
  obtain ⟨x1, outb, hlenb, hob⟩ := openBytes_total rem s1.x0 0 (by omega)
  have hm : insertByte (0x80 : Byte) rem.length =
      Except.ok (((0x80 : Byte).val <<< (8 * (7 - rem.length))) % 2 ^ 64) :=
    insertByte_ok _ (by omega)
  refine ⟨out ++ outb, tagBytes (finalize k0 k1
      ⟨x1 ^^^ ((0x80 : Byte).val <<< (8 * (7 - rem.length))) % 2 ^ 64, s1.x1, s1.x2, s1.x3, s1.x4⟩),
    ?_, tagBytes_length _, ?_⟩
  · simp [hlenb]; omega
  · intro dst
    unfold openCore
    simp only [einit, ok_bind, openData_eq, edata, hopen, hob, hm,
      (check_ok _).1, (check_ok _).2, pure_eq_ok, tagBytes, List.append_assoc]


theorem New_ok {key : List Byte} {c : AEAD} (h : New key = (some c, none)) :
    key.length = 16 ∧ c = ⟨key⟩ := by
  unfold New at h
  by_cases hk : key.length ≠ KeySize
  · simp [hk] at h
  · simp only [hk, if_false, Prod.mk.injEq, Option.some.injEq, and_true] at h
    exact ⟨by simpa [KeySize] using hk, h.symm⟩

/-- `Open` on a 16-byte nonce and a ciphertext of at least 16 bytes, once its core has
returned: the result is decided by the comparison of the trailing 16 bytes with `check`. -/
theorem open_of_core {nonce : List Byte} (hn : nonce.length = 16) (c : AEAD)
    {dst ct ad out check : List Byte} (hlen : 16 ≤ ct.length)
    (hcore : openCore c dst nonce (ct.take (ct.length - 16)) ad = Except.ok (out, check)) :
    Open c dst nonce ct ad =
      if ct.drop (ct.length - 16) = check then Except.ok (out, none)
      else Except.ok ([], some authError) := by
  have h1 : ¬ (16 : Nat) ≠ 16 := by decide
  have h2 : ¬ ct.length < 16 := by omega
  have h3 : ct.length - 16 ≤ ct.length := by omega
  unfold Open
  simp only [NonceSize, TagSize, hn, h1, h2, if_false, sliceTo, sliceFrom, h3, if_true,
    pure_eq_ok, ok_bind, hcore, ConstantTimeCompare]
  by_cases e : ct.drop (ct.length - 16) = check
  · simp [e]
  · simp [e]

theorem open_of_core_append {nonce : List Byte} (hn : nonce.length = 16) (c : AEAD)
    {dst body tag ad out check : List Byte} (ht : tag.length = 16)
    (hcore : openCore c dst nonce body ad = Except.ok (out, check)) :
    Open c dst nonce (body ++ tag) ad =
      if tag = check then Except.ok (out, none) else Except.ok ([], some authError) := by
  have e1 : (body ++ tag).length - 16 = body.length := by simp [ht]
  have e2 : (body ++ tag).take ((body ++ tag).length - 16) = body := by
    rw [e1]; exact List.take_left' rfl
  have e3 : (body ++ tag).drop ((body ++ tag).length - 16) = tag := by
    rw [e1]; exact List.drop_left' rfl
  have := @open_of_core nonce hn c dst (body ++ tag) ad out check (by simp [ht])
    (by rw [e2]; exact hcore)
  rw [e3] at this
  exact this

/-- Opening what `Seal` returned for an empty `dst`, under the same key, nonce and
associated data, gives the plaintext appended to the `dst` of `Open`, and no error. -/
theorem seal_then_open {key nonce : List Byte} (hk : key.length = 16) (hn : nonce.length = 16)
    (pt ad dst2 : List Byte) :
    (Seal ⟨key⟩ [] nonce pt ad >>= fun ct => Open ⟨key⟩ dst2 nonce ct ad) =
      Except.ok (dst2 ++ pt, none) := by
  obtain ⟨body, tag, _, htag, hseal, hopen⟩ := seal_open_core hk hn pt ad
  rw [hseal [], ok_bind, List.nil_append, open_of_core_append hn ⟨key⟩ htag (hopen dst2)]
  simp


/-! ## The contract of `Seal` and `Open` -/

/-- C1, round trip: for every AEAD built by `New` (so the key has 16 bytes), every 16-byte
nonce, every plaintext and every associated data, of any lengths, `Seal(nil, nonce,
plaintext, data)` returns, and `Open(nil, nonce, ·, data)` on its result returns exactly
the plaintext and no error. -/
theorem seal_open_roundtrip (key nonce plaintext data : List Byte) (c : AEAD)
    (hc : New key = (some c, none)) (hn : nonce.length = 16) :
    (Seal c [] nonce plaintext data >>= fun ct => Open c [] nonce ct data) =
      Except.ok (plaintext, none) := by
  obtain ⟨hk, rfl⟩ := New_ok hc
  have := seal_then_open hk hn plaintext data []
  rwa [List.nil_append] at this

theorem seal_open_roundtrip_witness :
    New vec_key3 = (some ⟨vec_key3⟩, none) ∧ vec_nonce3.length = 16 ∧
    (Seal ⟨vec_key3⟩ [] vec_nonce3 vec_pt3 vec_ad3 >>=
      fun ct => Open ⟨vec_key3⟩ [] vec_nonce3 ct vec_ad3) = Except.ok (vec_pt3, none) :=
  ⟨rfl, rfl, seal_open_roundtrip vec_key3 vec_nonce3 vec_pt3 vec_ad3 ⟨vec_key3⟩ rfl rfl⟩

/-- C2, known-answer vector 2: with key and nonce `000102...0f`, the 11 bytes of
`hello world` as plaintext and the 4 bytes of `data` as associated data, `New` accepts
the key and `Seal(nil, nonce, plaintext, data)` returns exactly the 27 bytes
`018ecdf5e742eefa7e395491bc2a139bc11c8dd2f9165bf9df2631`. -/
theorem seal_vector2 :
    New vec_key2 = (some ⟨vec_key2⟩, none) ∧ vec_pt2.length = 11 ∧ vec_ad2.length = 4 ∧
    vec_ct2.length = 27 ∧
    Seal ⟨vec_key2⟩ [] vec_key2 vec_pt2 vec_ad2 = Except.ok vec_ct2 := by
  decide

/-- C3, known-answer vector 1: with the all-zero 16-byte key and nonce, empty plaintext and
empty associated data, `New` accepts the key and `Seal(nil, nonce, nil, nil)` returns
exactly the 16 bytes `42213f50a811d2d1d7e4092aa2a42ba4`, the tag alone. -/
theorem seal_vector1 :
    New vec_key1 = (some ⟨vec_key1⟩, none) ∧ vec_key1 = List.replicate 16 0 ∧
    vec_ct1.length = 16 ∧
    Seal ⟨vec_key1⟩ [] vec_key1 [] [] = Except.ok vec_ct1 := by
  decide

/-- C4, known-answer vector 3: with the key, nonce, 65-byte plaintext and 65-byte associated
data of the third vector of `TestASCON` (eight full blocks and one byte each), `New`
accepts the key and `Seal(nil, nonce, plaintext, data)` returns exactly the 81 bytes
`18c849bb...12b8b28c` of the test. -/
theorem seal_vector3 :
    New vec_key3 = (some ⟨vec_key3⟩, none) ∧ vec_pt3.length = 65 ∧ vec_ad3.length = 65 ∧
    vec_ct3.length = 81 ∧
    Seal ⟨vec_key3⟩ [] vec_nonce3 vec_pt3 vec_ad3 = Except.ok vec_ct3 := by
  decide

/-- C5, counterexample: with the all-zero key and nonce, empty plaintext and associated data
and the one-byte destination `dst = [0]`, `Seal` returns 17 bytes, not `0 + 16`. -/
theorem seal_length_law_fails :
    ∃ out : List Byte, Seal ⟨vec_key1⟩ [0] vec_key1 [] [] = Except.ok out ∧
      out.length ≠ ([] : List Byte).length + 16 :=
  ⟨0 :: vec_ct1, by decide, by decide⟩

/-- C5, as amended: for every AEAD built by `New`, every `dst`, every 16-byte nonce, every
plaintext and associated data, `Seal` returns a byte string of length
`len(dst) + len(plaintext) + 16`; hence of length `len(plaintext) + 16` when `dst` is
empty. -/
theorem seal_length (key dst nonce plaintext data : List Byte) (c : AEAD)
    (hc : New key = (some c, none)) (hn : nonce.length = 16) :
    (∃ out : List Byte, Seal c dst nonce plaintext data = Except.ok out ∧
      out.length = dst.length + plaintext.length + 16) ∧
    (∃ out : List Byte, Seal c [] nonce plaintext data = Except.ok out ∧
      out.length = plaintext.length + 16) := by
  obtain ⟨hk, rfl⟩ := New_ok hc
  obtain ⟨body, tag, hbody, htag, hseal, _⟩ := seal_open_core hk hn plaintext data
  exact ⟨⟨_, hseal dst, by simp [hbody, htag, Nat.add_assoc]⟩,
    ⟨_, hseal [], by simp [hbody, htag]⟩⟩

theorem seal_length_witness :
    New vec_key2 = (some ⟨vec_key2⟩, none) ∧ vec_key2.length = 16 ∧
    ((∃ out : List Byte, Seal ⟨vec_key2⟩ vec_ad2 vec_key2 vec_pt2 vec_ad2 = Except.ok out ∧
      out.length = vec_ad2.length + vec_pt2.length + 16) ∧
    (∃ out : List Byte, Seal ⟨vec_key2⟩ [] vec_key2 vec_pt2 vec_ad2 = Except.ok out ∧
      out.length = vec_pt2.length + 16)) :=
  ⟨rfl, rfl, seal_length vec_key2 vec_ad2 vec_key2 vec_pt2 vec_ad2 ⟨vec_key2⟩ rfl rfl⟩

/-- C8, undersized ciphertext: for every AEAD (whatever its key, even one on which the
first step of decryption would panic), every `dst`, every 16-byte nonce and every
associated data, a ciphertext shorter than 16 bytes makes `Open` return the nil slice
and the error `message authentication failed`; the result depends on nothing else. -/
theorem open_undersized (c : AEAD) (dst nonce ciphertext data : List Byte)
    (hn : nonce.length = 16) (hlen : ciphertext.length < 16) :
    Open c dst nonce ciphertext data = Except.ok ([], some "message authentication failed") := by
  have h1 : ¬ (16 : Nat) ≠ 16 := by decide
  unfold Open
  simp only [NonceSize, TagSize, hn, h1, hlen, if_false, if_true, pure_eq_ok, authError]

theorem open_undersized_witness :
    vec_key1.length = 16 ∧ vec_pt2.length < 16 ∧
    Open ⟨[]⟩ vec_ad2 vec_key1 vec_pt2 vec_ad2 =
      Except.ok ([], some "message authentication failed") :=
  ⟨rfl, by decide, open_undersized ⟨[]⟩ vec_ad2 vec_key1 vec_pt2 vec_ad2 rfl (by decide)⟩

/-- C10, nonce-length contract: for every AEAD, `dst`, plaintext or ciphertext and
associated data, a nonce whose length is not 16 makes `Seal` panic (`ascon: bad nonce
length`) and `Open` panic (`wrong nonce size`); for `Open` this holds for every
ciphertext, so also for one shorter than 16 bytes. -/
theorem nonce_length_panics (c : AEAD) (dst nonce text data : List Byte)
    (hn : nonce.length ≠ 16) :
    Seal c dst nonce text data = Except.error "ascon: bad nonce length" ∧
    Open c dst nonce text data = Except.error "wrong nonce size" := by
  constructor
  · unfold Seal
    simp only [NonceSize, hn, if_true, throw_eq_error, ne_eq, not_false_eq_true]
  · unfold Open
    simp only [NonceSize, hn, if_true, throw_eq_error, ne_eq, not_false_eq_true]

theorem nonce_length_panics_witness :
    vec_ad2.length ≠ 16 ∧ vec_pt2.length < 16 ∧
    Seal ⟨vec_key2⟩ [] vec_ad2 vec_pt2 vec_ad2 = Except.error "ascon: bad nonce length" ∧
    Open ⟨vec_key2⟩ [] vec_ad2 vec_pt2 vec_ad2 = Except.error "wrong nonce size" :=
  ⟨by decide, by decide,
    nonce_length_panics ⟨vec_key2⟩ [] vec_ad2 vec_pt2 vec_ad2 (by decide)⟩

/-! ## Tampering with the tag -/

theorem flipBit_length (l : List Byte) (pos k : Nat) : (flipBit l pos k).length = l.length := by
  simp [flipBit]

theorem flip_byte_ne (b : Byte) {k : Nat} (hk : k < 8) : toByte (b.val ^^^ (1 <<< k)) ≠ b := by
  intro h
  have hv : (b.val ^^^ (1 <<< k)) % 2 ^ 8 = b.val := by
    rw [← toByte_val, h]
  have hb := congrArg (fun n => Nat.testBit n k) hv
  simp only [Nat.testBit_mod_two_pow, Nat.testBit_xor, Nat.testBit_shiftLeft] at hb
  simp [hk] at hb

theorem flipBit_ne (l : List Byte) {pos k : Nat} (hpos : pos < l.length) (hk : k < 8) :
    flipBit l pos k ≠ l := by
  intro h
  have h1 : (flipBit l pos k).getD pos 0 = l.getD pos 0 := by rw [h]
  have hlen : pos < (l.set pos (toByte ((l.getD pos 0).val ^^^ (1 <<< k)))).length := by
    rw [List.length_set]; exact hpos
  unfold flipBit at h1
  rw [List.getD_eq_getElem _ _ hlen, List.getElem_set_self] at h1
  exact flip_byte_ne _ hk h1

theorem flipBit_append (body tag : List Byte) (i k : Nat) :
    flipBit (body ++ tag) (body.length + i) k = body ++ flipBit tag i k := by
  unfold flipBit
  rw [List.set_append_right _ _ (by omega), List.getD_append_right _ _ _ _ (by omega)]
  simp

/-- C6, tag tamper sensitivity: for every AEAD built by `New`, every 16-byte nonce, every
plaintext and associated data, `Seal(nil, nonce, plaintext, data)` returns some `c`, and
for each of the 128 bit positions `j` of its last 16 bytes, `Open(nil, nonce, ·, data)`
on `c` with that one bit inverted returns the nil slice and the authentication error. -/
theorem tag_bit_flip_rejected (key nonce plaintext data : List Byte) (c : AEAD)
    (hc : New key = (some c, none)) (hn : nonce.length = 16) :
    ∃ ct : List Byte, Seal c [] nonce plaintext data = Except.ok ct ∧
      ∀ j : Nat, j < 128 →
        Open c [] nonce (flipBit ct (ct.length - 16 + j / 8) (j % 8)) data =
          Except.ok ([], some authError) := by
  obtain ⟨hk, rfl⟩ := New_ok hc
  obtain ⟨body, tag, _, htag, hseal, hopen⟩ := seal_open_core hk hn plaintext data
  refine ⟨body ++ tag, by rw [hseal [], List.nil_append], ?_⟩
  intro j hj
  have e1 : (body ++ tag).length - 16 = body.length := by simp [htag]
  have hne : flipBit tag (j / 8) (j % 8) ≠ tag :=
    flipBit_ne tag (by rw [htag]; omega) (Nat.mod_lt _ (by decide))
  rw [e1, flipBit_append, open_of_core_append hn ⟨key⟩
    (by rw [flipBit_length, htag]) (hopen []), if_neg hne]

theorem tag_bit_flip_rejected_witness :
    New vec_key2 = (some ⟨vec_key2⟩, none) ∧ vec_key2.length = 16 ∧
    Seal ⟨vec_key2⟩ [] vec_key2 vec_pt2 vec_ad2 = Except.ok vec_ct2 ∧
    ∃ ct : List Byte, Seal ⟨vec_key2⟩ [] vec_key2 vec_pt2 vec_ad2 = Except.ok ct ∧
      ∀ j : Nat, j < 128 →
        Open ⟨vec_key2⟩ [] vec_key2 (flipBit ct (ct.length - 16 + j / 8) (j % 8)) vec_ad2 =
          Except.ok ([], some authError) :=
  ⟨rfl, rfl, by decide,
    tag_bit_flip_rejected vec_key2 vec_key2 vec_pt2 vec_ad2 ⟨vec_key2⟩ rfl rfl⟩


/-! ## Associated data and the tag -/

/-- Tags collide: there are a 16-byte key and nonce, a plaintext and two different
associated-data strings `ad` and `ad2` for which `Open(nil, nonce, Seal(nil, nonce,
plaintext, ad), ad2)` returns the plaintext and no error.  With the all-zero key and
nonce and the empty plaintext the output of `Seal` is a 16-byte tag, and infinitely many
associated-data strings share finitely many tags; the argument counts and names no pair. -/
theorem tag_collision_exists :
    ∃ (key nonce plaintext ad ad2 : List Byte) (c : AEAD),
      New key = (some c, none) ∧ nonce.length = 16 ∧ ad2 ≠ ad ∧
      (Seal c [] nonce plaintext ad >>= fun ct => Open c [] nonce ct ad2) =
        Except.ok (plaintext, none) := by
  have hk : vec_key1.length = 16 := rfl
  have h := fun ad : List Byte => seal_open_core hk hk [] ad
  choose body tag hbody htag hseal hopen using h
  obtain ⟨a, b, hne, hab⟩ := @Finite.exists_ne_map_eq_of_infinite (List Byte)
    (Mathlib.Vector Byte 16) _ _ (fun ad => ⟨tag ad, htag ad⟩)
  have htab : tag a = tag b := congrArg Subtype.val hab
  have hba : body a = [] := List.eq_nil_of_length_eq_zero (hbody a)
  have hbb : body b = [] := List.eq_nil_of_length_eq_zero (hbody b)
  refine ⟨vec_key1, vec_key1, [], a, b, ⟨vec_key1⟩, rfl, rfl, fun e => hne e.symm, ?_⟩
  have hcore := hopen b []
  rw [hbb] at hcore
  have hopen2 := open_of_core_append hk ⟨vec_key1⟩ (htag b) hcore
  rw [List.nil_append] at hopen2
  rw [hseal a [], hba, ok_bind, List.nil_append, List.nil_append, htab, hopen2, if_pos rfl,
    List.append_nil]

/-! ## Failure of `Open` -/

/-- C9, no plaintext on failure: on every input on which `Open` returns an error, the
slice it returns is nil (neither recovered plaintext nor `dst`) and the error is the
authentication error; and for an AEAD built by `New`, a 16-byte nonce and a ciphertext of
at least 16 bytes, the core of `Open` returns the recomputed tag `check` (`x3` then
`x4`), and `Open` returns an error exactly when the trailing 16 bytes differ from it. -/
theorem open_error_returns_nil :
    (∀ (c : AEAD) (dst nonce ciphertext data out : List Byte) (e : String),
        Open c dst nonce ciphertext data = Except.ok (out, some e) →
          out = [] ∧ e = authError) ∧
    (∀ (key dst nonce ciphertext data : List Byte) (c : AEAD),
        New key = (some c, none) → nonce.length = 16 → 16 ≤ ciphertext.length →
        ∃ out check : List Byte,
          openCore c dst nonce (ciphertext.take (ciphertext.length - 16)) data =
            Except.ok (out, check) ∧
          ((∃ (r : List Byte) (e : String),
              Open c dst nonce ciphertext data = Except.ok (r, some e)) ↔
            ciphertext.drop (ciphertext.length - 16) ≠ check)) := by
  constructor
  · intro c dst nonce ciphertext data out e h
    unfold Open at h
    by_cases h1 : nonce.length ≠ NonceSize
    · simp [h1] at h
    · by_cases h2 : ciphertext.length < TagSize
      · simp only [h1, h2, if_false, if_true, pure_eq_ok, Except.ok.injEq, Prod.mk.injEq,
          Option.some.injEq] at h
        exact ⟨h.1.symm, h.2.symm⟩
      · have h3 : ciphertext.length - TagSize ≤ ciphertext.length := by omega
        simp only [h1, h2, if_false, sliceTo, sliceFrom, h3, if_true, pure_eq_ok, ok_bind] at h
        cases hcore : openCore c dst nonce (List.take (ciphertext.length - TagSize) ciphertext)
            data with
        | error msg => rw [hcore] at h; cases h
        | ok r =>
          obtain ⟨out2, check⟩ := r
          rw [hcore, ok_bind] at h
          dsimp only at h
          by_cases h4 : ConstantTimeCompare (List.drop (ciphertext.length - TagSize) ciphertext)
              check = 0
          · simp only [h4, if_true, Except.ok.injEq, Prod.mk.injEq, Option.some.injEq] at h
            exact ⟨h.1.symm, h.2.symm⟩
          · simp [h4] at h
  · intro key dst nonce ciphertext data c hc hn hlen
    obtain ⟨hk, rfl⟩ := New_ok hc
    obtain ⟨out, check, _, _, hcore⟩ :=
      openCore_total hk hn (ciphertext.take (ciphertext.length - 16)) data
    refine ⟨dst ++ out, check, hcore dst, ?_⟩
    rw [open_of_core hn ⟨key⟩ hlen (hcore dst)]
    by_cases e : ciphertext.drop (ciphertext.length - 16) = check
    · simp [e]
    · simp [e]

theorem open_error_returns_nil_witness :
    Open ⟨vec_key2⟩ vec_ad2 vec_key2 vec_ct2 vec_pt2 = Except.ok ([], some authError) ∧
    (([] : List Byte) = [] ∧ authError = authError) ∧
    New vec_key2 = (some ⟨vec_key2⟩, none) ∧ vec_key2.length = 16 ∧ 16 ≤ vec_ct2.length ∧
    ∃ out check : List Byte,
      openCore ⟨vec_key2⟩ vec_ad2 vec_key2 (vec_ct2.take (vec_ct2.length - 16)) vec_pt2 =
        Except.ok (out, check) ∧
      ((∃ (r : List Byte) (e : String),
          Open ⟨vec_key2⟩ vec_ad2 vec_key2 vec_ct2 vec_pt2 = Except.ok (r, some e)) ↔
        vec_ct2.drop (vec_ct2.length - 16) ≠ check) :=
  ⟨by decide,
    open_error_returns_nil.1 ⟨vec_key2⟩ vec_ad2 vec_key2 vec_ct2 vec_pt2 [] authError
      (by decide),
    rfl, rfl, by decide,
    open_error_returns_nil.2 vec_key2 vec_ad2 vec_key2 vec_ct2 vec_pt2 ⟨vec_key2⟩ rfl rfl
      (by decide)⟩

/-! ## Totality, construction and the append convention -/

/-- C11, totality: for every AEAD built by `New` and every 16-byte nonce, `Seal` and `Open`
return (they do not panic) for `dst`, plaintext or ciphertext and associated data of any
length: no slice expression is out of bounds, every 8-byte read has its 8 bytes, and every
lane index passed to `insertByte` or `extractByte` is at most 7, the only indices on
which these two do not panic. -/
theorem seal_open_never_panic (key dst nonce text data : List Byte) (c : AEAD)
    (hc : New key = (some c, none)) (hn : nonce.length = 16) :
    (∃ out : List Byte, Seal c dst nonce text data = Except.ok out) ∧
    (∃ r : List Byte × Option String, Open c dst nonce text data = Except.ok r) ∧
    (∀ (b : Byte) (u n : Nat), 7 < n →
      insertByte b n = Except.error "negative shift amount" ∧
      extractByte u n = Except.error "negative shift amount") := by
  obtain ⟨hk, rfl⟩ := New_ok hc
  refine ⟨?_, ?_, ?_⟩
  · obtain ⟨body, tag, _, _, hseal, _⟩ := seal_open_core hk hn text data
    exact ⟨_, hseal dst⟩
  · by_cases hlen : text.length < 16
    · have h1 : ¬ (16 : Nat) ≠ 16 := by decide
      refine ⟨([], some authError), ?_⟩
      unfold Open
      simp only [NonceSize, TagSize, hn, h1, hlen, if_false, if_true, pure_eq_ok]
    · obtain ⟨out, check, _, _, hcore⟩ :=
        openCore_total hk hn (text.take (text.length - 16)) data
      rw [open_of_core hn ⟨key⟩ (by omega) (hcore dst)]
      by_cases e : text.drop (text.length - 16) = check
      · exact ⟨_, by rw [if_pos e]⟩
      · exact ⟨_, by rw [if_neg e]⟩
  · intro b u n hn7
    have h : ¬ n ≤ 7 := by omega
    simp only [insertByte, extractByte, h, if_false, throw_eq_error, and_self]

theorem seal_open_never_panic_witness :
    New vec_key3 = (some ⟨vec_key3⟩, none) ∧ vec_nonce3.length = 16 ∧
    ((∃ out : List Byte, Seal ⟨vec_key3⟩ vec_ad2 vec_nonce3 [] [] = Except.ok out) ∧
    (∃ r : List Byte × Option String, Open ⟨vec_key3⟩ vec_ad2 vec_nonce3 [] [] = Except.ok r) ∧
    (∀ (b : Byte) (u n : Nat), 7 < n →
      insertByte b n = Except.error "negative shift amount" ∧
      extractByte u n = Except.error "negative shift amount")) :=
  ⟨rfl, rfl, seal_open_never_panic vec_key3 vec_ad2 vec_nonce3 [] [] ⟨vec_key3⟩ rfl rfl⟩

theorem length_eight {l : List Byte} (h : l.length = 8) :
    ∃ b0 b1 b2 b3 b4 b5 b6 b7 : Byte, l = [b0, b1, b2, b3, b4, b5, b6, b7] := by
  match l, h with
  | [b0, b1, b2, b3, b4, b5, b6, b7], _ => exact ⟨b0, b1, b2, b3, b4, b5, b6, b7, rfl⟩

/-- The word that `extract64` reads from a string of exactly eight bytes has these eight
bytes as its big-endian representation. -/
theorem extract64_eight {l : List Byte} (h : l.length = 8) :
    ∃ w, extract64 l = Except.ok w ∧ w < 2 ^ 64 ∧ be64 w = l := by
  obtain ⟨b0, b1, b2, b3, b4, b5, b6, b7, rfl⟩ := length_eight h
  obtain ⟨w, hw, hlt⟩ := extract64_total b0 b1 b2 b3 b4 b5 b6 b7 []
  exact ⟨w, hw, hlt, be64_extract64 b0 b1 b2 b3 b4 b5 b6 b7 hw⟩

/-- The key words and the initial state: `k0` and `k1` are the big-endian values of the two
halves of the key, and the state is `p12` of `(initX0, k0, k1, n0, n1)` with the key added
to its last two words, `n0` and `n1` being the big-endian values of the halves of the
nonce. -/
theorem initState_eq {key nonce : List Byte} (hk : key.length = 16) (hn : nonce.length = 16) :
    ∃ k0 k1 n0 n1 : Nat,
      k0 < 2 ^ 64 ∧ k1 < 2 ^ 64 ∧ n0 < 2 ^ 64 ∧ n1 < 2 ^ 64 ∧
      be64 k0 = key.take 8 ∧ be64 k1 = key.drop 8 ∧
      be64 n0 = nonce.take 8 ∧ be64 n1 = nonce.drop 8 ∧
      initState ⟨key⟩ nonce = Except.ok (k0, k1,
        ⟨(p12 ⟨initX0, k0, k1, n0, n1⟩).x0, (p12 ⟨initX0, k0, k1, n0, n1⟩).x1,
         (p12 ⟨initX0, k0, k1, n0, n1⟩).x2, (p12 ⟨initX0, k0, k1, n0, n1⟩).x3 ^^^ k0,
         (p12 ⟨initX0, k0, k1, n0, n1⟩).x4 ^^^ k1⟩) := by
  obtain ⟨k0, e0, h0, r0⟩ := extract64_eight (l := key.take 8) (by simp [hk])
  obtain ⟨k1, e1, h1, r1⟩ := extract64_eight (l := key.drop 8) (by simp [hk])
  obtain ⟨n0, e2, h2, r2⟩ := extract64_eight (l := nonce.take 8) (by simp [hn])
  obtain ⟨n1, e3, h3, r3⟩ := extract64_eight (l := nonce.drop 8) (by simp [hn])
  refine ⟨k0, k1, n0, n1, h0, h1, h2, h3, r0, r1, r2, r3, ?_⟩
  simp only [initState, sliceTo, sliceFrom, hk, hn, show (8 : Nat) ≤ 16 by decide, if_true,
    pure_eq_ok, ok_bind, e0, e1, e2, e3]

/-- C12, construction: `New(key)` returns an error, and no instance, exactly when the key
does not have 16 bytes; for a 16-byte key it returns, with no error, the instance holding
exactly these bytes, and the initialization shared by `Seal` and `Open` then uses as `k0`
and `k1` the words whose big-endian bytes are `key[0..8)` and `key[8..16)`. -/
theorem new_key_contract (key : List Byte) :
    ((∃ e : String, (New key).2 = some e) ↔ key.length ≠ 16) ∧
    (key.length ≠ 16 → New key = (none, some "bad key length")) ∧
    (key.length = 16 → New key = (some ⟨key⟩, none) ∧
      ∀ nonce : List Byte, nonce.length = 16 →
        ∃ (k0 k1 : Nat) (s : State), initState ⟨key⟩ nonce = Except.ok (k0, k1, s) ∧
          k0 < 2 ^ 64 ∧ k1 < 2 ^ 64 ∧ be64 k0 = key.take 8 ∧ be64 k1 = key.drop 8) := by
  refine ⟨?_, ?_, ?_⟩
  · by_cases h : key.length = 16
    · simp [New, KeySize, h]
    · simp [New, KeySize, h]
  · intro h
    simp [New, KeySize, h]
  · intro h
    refine ⟨by simp [New, KeySize, h], ?_⟩
    intro nonce hn
    obtain ⟨k0, k1, n0, n1, h0, h1, _, _, r0, r1, _, _, e⟩ := initState_eq h hn
    exact ⟨k0, k1, _, e, h0, h1, r0, r1⟩

theorem new_key_contract_witness :
    New vec_pt2 = (none, some "bad key length") ∧
    New vec_key2 = (some ⟨vec_key2⟩, none) ∧
    ∀ nonce : List Byte, nonce.length = 16 →
      ∃ (k0 k1 : Nat) (s : State), initState ⟨vec_key2⟩ nonce = Except.ok (k0, k1, s) ∧
        k0 < 2 ^ 64 ∧ k1 < 2 ^ 64 ∧ be64 k0 = vec_key2.take 8 ∧ be64 k1 = vec_key2.drop 8 :=
  ⟨(new_key_contract vec_pt2).2.1 (by decide),
    ((new_key_contract vec_key2).2.2 rfl).1, ((new_key_contract vec_key2).2.2 rfl).2⟩

/-- On contents, that is for buffers that share no memory, `Seal` appends: for every AEAD
built by `New`, every 16-byte nonce, plaintext and associated data there is one byte
string `out`, of length `len(plaintext) + 16`, such that `Seal` returns `out` for the
empty `dst` and, for every `dst`, returns `dst` followed by `out`. -/
theorem seal_contents_appends (key nonce plaintext data : List Byte) (c : AEAD)
    (hc : New key = (some c, none)) (hn : nonce.length = 16) :
    ∃ out : List Byte, Seal c [] nonce plaintext data = Except.ok out ∧
      out.length = plaintext.length + 16 ∧
      ∀ dst : List Byte, Seal c dst nonce plaintext data = Except.ok (dst ++ out) ∧
        (dst ++ out).length = dst.length + plaintext.length + 16 := by
  obtain ⟨hk, rfl⟩ := New_ok hc
  obtain ⟨body, tag, hbody, htag, hseal, _⟩ := seal_open_core hk hn plaintext data
  refine ⟨body ++ tag, by rw [hseal [], List.nil_append], by simp [hbody, htag], ?_⟩
  intro dst
  exact ⟨by rw [hseal dst, List.append_assoc], by simp [hbody, htag, Nat.add_assoc]⟩

theorem seal_contents_appends_witness :
    New vec_key2 = (some ⟨vec_key2⟩, none) ∧ vec_key2.length = 16 ∧
    ∃ out : List Byte, Seal ⟨vec_key2⟩ [] vec_key2 vec_pt2 vec_ad2 = Except.ok out ∧
      out.length = vec_pt2.length + 16 ∧
      ∀ dst : List Byte, Seal ⟨vec_key2⟩ dst vec_key2 vec_pt2 vec_ad2 = Except.ok (dst ++ out) ∧
        (dst ++ out).length = dst.length + vec_pt2.length + 16 :=
  ⟨rfl, rfl, seal_contents_appends vec_key2 vec_key2 vec_pt2 vec_ad2 ⟨vec_key2⟩ rfl rfl⟩

/-- On contents, that is for buffers that share no memory, `Open` appends and strips the
tag: for every AEAD built by `New`, every 16-byte nonce, every `dst`, ciphertext and
associated data, `Open` returns without error for `dst` exactly when it does for the
empty `dst`, and when it returns the plaintext `p` for the empty `dst`, it returns `dst`
followed by `p` for `dst`, the ciphertext has at least 16 bytes and
`len(p) = len(ciphertext) - 16`. -/
theorem open_contents_appends (key dst nonce ciphertext data : List Byte) (c : AEAD)
    (hc : New key = (some c, none)) (hn : nonce.length = 16) :
    ((∃ r : List Byte, Open c dst nonce ciphertext data = Except.ok (r, none)) ↔
      (∃ p : List Byte, Open c [] nonce ciphertext data = Except.ok (p, none))) ∧
    (∀ p : List Byte, Open c [] nonce ciphertext data = Except.ok (p, none) →
      Open c dst nonce ciphertext data = Except.ok (dst ++ p, none) ∧
      16 ≤ ciphertext.length ∧ p.length = ciphertext.length - 16) := by
  obtain ⟨hk, rfl⟩ := New_ok hc
  by_cases hlen : ciphertext.length < 16
  · have h1 : ¬ (16 : Nat) ≠ 16 := by decide
    have hu : ∀ d : List Byte,
        Open ⟨key⟩ d nonce ciphertext data = Except.ok ([], some authError) := by
      intro d
      unfold Open
      simp only [NonceSize, TagSize, hn, h1, hlen, if_false, if_true, pure_eq_ok]
    rw [hu dst, hu []]
    simp
  · have hge : 16 ≤ ciphertext.length := by omega
    obtain ⟨out, check, hout, _, hcore⟩ :=
      openCore_total hk hn (ciphertext.take (ciphertext.length - 16)) data
    rw [open_of_core hn ⟨key⟩ hge (hcore dst), open_of_core hn ⟨key⟩ hge (hcore [])]
    by_cases e : ciphertext.drop (ciphertext.length - 16) = check
    · rw [if_pos e, if_pos e, List.nil_append]
      refine ⟨⟨fun _ => ⟨out, rfl⟩, fun _ => ⟨dst ++ out, rfl⟩⟩, ?_⟩
      intro p hp
      have hp2 : out = p := by
        have := congrArg Prod.fst (Except.ok.inj hp)
        exact this
      subst hp2
      refine ⟨rfl, hge, ?_⟩
      rw [hout, List.length_take]
      omega
    · simp [if_neg e]

theorem open_contents_appends_witness :
    New vec_key2 = (some ⟨vec_key2⟩, none) ∧ vec_key2.length = 16 ∧
    Open ⟨vec_key2⟩ [] vec_key2 vec_ct2 vec_ad2 = Except.ok (vec_pt2, none) ∧
    Open ⟨vec_key2⟩ vec_ad2 vec_key2 vec_ct2 vec_ad2 = Except.ok (vec_ad2 ++ vec_pt2, none) ∧
    16 ≤ vec_ct2.length ∧ vec_pt2.length = vec_ct2.length - 16 :=
  ⟨rfl, rfl, by decide,
    ((open_contents_appends vec_key2 vec_ad2 vec_key2 vec_ct2 vec_ad2 ⟨vec_key2⟩ rfl rfl).2 vec_pt2
      (by decide))⟩

/-! ## Round constants and the initialization word -/

/-- C19, permutation depths: the twelve constants `((15 - i) << 4) | i`, `i = 0..11`, are
`0xF0, 0xE1, 0xD2, 0xC3, 0xB4, 0xA5, 0x96, 0x87, 0x78, 0x69, 0x5A, 0x4B`; for every state
`p12` is `round` applied with these twelve in this order, `p6` is `round` applied with the
last six of them in the same order, and so `p12` is `p6` after the first six rounds. -/
theorem permutation_depths (s : State) :
    roundConstants =
      [0xF0, 0xE1, 0xD2, 0xC3, 0xB4, 0xA5, 0x96, 0x87, 0x78, 0x69, 0x5A, 0x4B] ∧
    roundConstants.take 6 = [0xF0, 0xE1, 0xD2, 0xC3, 0xB4, 0xA5] ∧
    roundConstants.drop 6 = [0x96, 0x87, 0x78, 0x69, 0x5A, 0x4B] ∧
    p12 s = applyRounds roundConstants s ∧
    p6 s = applyRounds (roundConstants.drop 6) s ∧
    p12 s = p6 (applyRounds (roundConstants.take 6) s) := by
  have h : roundConstants =
      [0xF0, 0xE1, 0xD2, 0xC3, 0xB4, 0xA5, 0x96, 0x87, 0x78, 0x69, 0x5A, 0x4B] := by decide
  refine ⟨h, ?_, ?_, ?_, ?_, ?_⟩
  · rw [h]; rfl
  · rw [h]; rfl
  · rw [h]; rfl
  · rw [h]; rfl
  · rw [h]; rfl

/-- C20, initialization word: `initX0` is `0x80400C0600000000`, that is
`128 << 24 | 64 << 16 | 12 << 8 | 6` (128 the key size in bits, 64 the rate in bits) in
the high 32 bits and zero in the low 32 bits; the inner expression is below `2 ^ 32` and
its shift by 32 below `2 ^ 64`, so nothing is truncated; and it is the first word of the
state that the initialization shared by `Seal` and `Open` passes to `p12`. -/
theorem initX0_value :
    initX0 = 0x80400C0600000000 ∧
    KeySize * 8 = 128 ∧ rate * 8 = 64 ∧ paRounds = 12 ∧ pbRounds = 6 ∧
    initX0 / 2 ^ 32 = ((128 <<< 24) ||| (64 <<< 16) ||| (12 <<< 8) ||| 6) ∧
    initX0 % 2 ^ 32 = 0 ∧
    (((KeySize * 8) <<< 24) ||| ((rate * 8) <<< 16) ||| (paRounds <<< 8) ||| (pbRounds <<< 0))
      < 2 ^ 32 ∧
    ((((KeySize * 8) <<< 24) ||| ((rate * 8) <<< 16) ||| (paRounds <<< 8) ||| (pbRounds <<< 0))
      <<< 32) < 2 ^ 64 ∧
    initX0 = ((((KeySize * 8) <<< 24) ||| ((rate * 8) <<< 16) ||| (paRounds <<< 8) |||
      (pbRounds <<< 0)) <<< 32) ∧
    (∀ (c : AEAD) (nonce : List Byte), initState c nonce =
      (sliceTo c.key 8 >>= extract64) >>= fun k0 =>
      (sliceFrom c.key 8 >>= extract64) >>= fun k1 =>
      (sliceTo nonce 8 >>= extract64) >>= fun n0 =>
      (sliceFrom nonce 8 >>= extract64) >>= fun n1 =>
        Except.ok (k0, k1,
          ⟨(p12 ⟨0x80400C0600000000, k0, k1, n0, n1⟩).x0,
           (p12 ⟨0x80400C0600000000, k0, k1, n0, n1⟩).x1,
           (p12 ⟨0x80400C0600000000, k0, k1, n0, n1⟩).x2,
           (p12 ⟨0x80400C0600000000, k0, k1, n0, n1⟩).x3 ^^^ k0,
           (p12 ⟨0x80400C0600000000, k0, k1, n0, n1⟩).x4 ^^^ k1⟩)) := by
  have h : initX0 = 0x80400C0600000000 := by decide
  refine ⟨h, by decide, by decide, by decide, by decide, by decide, by decide, by decide,
    by decide, by decide, ?_⟩
  intro c nonce
  unfold initState
  rw [h]
  rfl

/-! ## The round function against the three-step reference round -/

theorem rotr_eq (u : Nat) {n : Nat} (h0 : 0 < n) (h1 : n < 64) :
    rotr u n = ((u <<< (64 - n)) % 2 ^ 64) ||| (u >>> n) := by
  have e1 : (64 - n % 64) % 64 = 64 - n := by omega
  have e2 : 64 - (64 - n) = n := by omega
  unfold rotr
  simp only [e1, e2]

theorem testBit_rotr {u : Nat} (hu : u < 2 ^ 64) {n : Nat} (h0 : 0 < n) (h1 : n < 64)
    (j : Nat) :
    (rotr u n).testBit j = (decide (j < 64) && u.testBit ((j + n) % 64)) := by
  rw [rotr_eq u h0 h1]
  simp only [Nat.testBit_or, Nat.testBit_mod_two_pow, Nat.testBit_shiftLeft,
    Nat.testBit_shiftRight]
  by_cases hj : j < 64
  · by_cases hw : j + n < 64
    · have e1 : ¬ (j ≥ 64 - n) := by omega
      have e2 : (j + n) % 64 = n + j := by omega
      simp [hj, e1, e2]
    · have e1 : j ≥ 64 - n := by omega
      have e2 : (j + n) % 64 = j - (64 - n) := by omega
      have e3 : u.testBit (n + j) = false := testBit_high hu (by omega)
      simp [hj, e1, e2, e3]
  · have e3 : u.testBit (n + j) = false := testBit_high hu (by omega)
    simp [hj, e3]

theorem testBit_rotateRight64 {u : Nat} (hu : u < 2 ^ 64) {n : Nat} (h0 : 0 < n) (h1 : n < 64)
    (j : Nat) :
    (rotateRight64 u n).testBit j = (decide (j < 64) && u.testBit ((j + n) % 64)) := by
  unfold rotateRight64
  simp only [Nat.testBit_or, Nat.testBit_mod_two_pow, Nat.testBit_shiftLeft,
    Nat.testBit_shiftRight]
  by_cases hj : j < 64
  · by_cases hw : j + n < 64
    · have e1 : ¬ (j ≥ 64 - n) := by omega
      have e2 : (j + n) % 64 = n + j := by omega
      simp [hj, e1, e2]
    · have e1 : j ≥ 64 - n := by omega
      have e2 : (j + n) % 64 = j - (64 - n) := by omega
      have e3 : u.testBit (n + j) = false := testBit_high hu (by omega)
      simp [hj, e1, e2, e3]
  · simp [hj]

/-- The rotation of the code, `bits.RotateLeft64(u, -n)`, is the rotation to the right. -/
theorem rotr_eq_rotateRight64 {u : Nat} (hu : u < 2 ^ 64) {n : Nat} (h0 : 0 < n)
    (h1 : n < 64) : rotr u n = rotateRight64 u n :=
  Nat.eq_of_testBit_eq fun j => by
    rw [testBit_rotr hu h0 h1, testBit_rotateRight64 hu h0 h1]

/-- Two rotations of the code in a row are the rotation by the sum. -/
theorem rotr_rotr {u : Nat} (hu : u < 2 ^ 64) {a b : Nat} (ha : 0 < a) (hb : 0 < b)
    (hab : a + b < 64) : rotr (rotr u a) b = rotr u (a + b) :=
  Nat.eq_of_testBit_eq fun j => by
    have e : ((j + b) % 64 + a) % 64 = (j + (a + b)) % 64 := by omega
    have hlt : (j + b) % 64 < 64 := Nat.mod_lt _ (by decide)
    rw [testBit_rotr (rotr_lt a hu) hb (by omega), testBit_rotr hu ha (by omega),
      testBit_rotr hu (by omega) hab, e]
    simp [hlt]

theorem testBit_lt_64 {u : Nat} (hu : u < 2 ^ 64) (j : Nat) :
    (decide (j < 64) && u.testBit j) = u.testBit j := by
  by_cases hj : j < 64
  · simp [hj]
  · simp [hj, testBit_high hu (show 64 ≤ j by omega)]

/-- The NOT of the code, exclusive or with the all-ones word, is the complement. -/
theorem not64_eq_complement64 {u : Nat} (hu : u < 2 ^ 64) : not64 u = complement64 u :=
  Nat.eq_of_testBit_eq fun j => by
    have e : 2 ^ 64 - 1 - u = 2 ^ 64 - (u + 1) := by omega
    unfold not64 complement64
    rw [e, Nat.testBit_two_pow_sub_succ hu, Nat.testBit_mod_two_pow, Nat.testBit_xor,
      Nat.testBit_two_pow_sub_one]
    by_cases hj : j < 64
    · simp [hj]
    · simp [hj]

theorem testBit_not64 (u j : Nat) :
    (not64 u).testBit j = (decide (j < 64) && !u.testBit j) := by
  unfold not64
  rw [Nat.testBit_mod_two_pow, Nat.testBit_xor, Nat.testBit_two_pow_sub_one]
  by_cases hj : j < 64
  · simp [hj]
  · simp [hj]

/-- The code rotates first and inverts afterwards; the reference inverts first. -/
theorem rotr_not64 {u : Nat} (hu : u < 2 ^ 64) {n : Nat} (h0 : 0 < n) (h1 : n < 64) :
    rotr (not64 u) n = not64 (rotr u n) :=
  Nat.eq_of_testBit_eq fun j => by
    have hlt : (j + n) % 64 < 64 := Nat.mod_lt _ (by decide)
    rw [testBit_rotr (not64_lt u) h0 h1, testBit_not64, testBit_not64, testBit_rotr hu h0 h1]
    by_cases hj : j < 64
    · simp [hj, hlt]
    · simp [hj]

theorem not64_xor3 {a b c : Nat} (ha : a < 2 ^ 64) (hb : b < 2 ^ 64) (hc : c < 2 ^ 64) :
    not64 a ^^^ not64 b ^^^ not64 c = not64 (a ^^^ b ^^^ c) :=
  Nat.eq_of_testBit_eq fun j => by
    simp only [Nat.testBit_xor, testBit_not64]
    by_cases hj : j < 64
    · simp [hj]
    · simp [hj, testBit_high ha (show 64 ≤ j by omega), testBit_high hb (show 64 ≤ j by omega),
        testBit_high hc (show 64 ≤ j by omega)]

/-- One word of the linear layer: the interleaved computation of the code (rotate by `a`,
keep the exclusive or, rotate by `b` more, combine) against the reference formula. -/
theorem diffusion_word {y : Nat} (hy : y < 2 ^ 64) {a b : Nat} (ha : 0 < a) (hb : 0 < b)
    (hab : a + b < 64) :
    rotr (rotr y a) b ^^^ (y ^^^ rotr y a) =
      y ^^^ rotateRight64 y a ^^^ rotateRight64 y (a + b) := by
  rw [rotr_rotr hy ha hb hab, rotr_eq_rotateRight64 hy ha (by omega),
    rotr_eq_rotateRight64 hy (by omega) hab]
  ac_rfl

/-- C16, the round function: for every round constant `c` and every state of 64-bit
words, the interleaved `round` of the code equals the three-step reference round
`L (S (C x))`, with the rotations and the NOT of the reference defined independently of
the code. -/
theorem round_eq_refRound (c : Nat) (x : State) (hc : c < 2 ^ 64) (hx : x.Bounded) :
    round c x = refRound c x := by
  obtain ⟨h0, h1, h2, h3, h4⟩ := hx
  have e2 : x.x2 ^^^ c ^^^ x.x1 = x.x2 ^^^ x.x1 ^^^ c := by ac_rfl
  have ht0 : x.x0 ^^^ x.x4 < 2 ^ 64 := Nat.xor_lt_two_pow h0 h4
  have ht2 : x.x2 ^^^ x.x1 ^^^ c < 2 ^ 64 := Nat.xor_lt_two_pow (Nat.xor_lt_two_pow h2 h1) hc
  have ht4 : x.x4 ^^^ x.x3 < 2 ^ 64 := Nat.xor_lt_two_pow h4 h3
  unfold refRound refDiffusion refSubstitution refConstant round
  simp only [e2, ← not64_eq_complement64 h1, ← not64_eq_complement64 h3,
    ← not64_eq_complement64 ht0, ← not64_eq_complement64 ht2, ← not64_eq_complement64 ht4]
  simp only [andNot]
  have hS0 : x.x0 ^^^ x.x4 ^^^ (x.x2 ^^^ x.x1 ^^^ c) &&& not64 x.x1 < 2 ^ 64 :=
    Nat.xor_lt_two_pow ht0 (Nat.and_lt_two_pow _ (not64_lt _))
  have hS1 : x.x1 ^^^ x.x3 &&& not64 (x.x2 ^^^ x.x1 ^^^ c) < 2 ^ 64 :=
    Nat.xor_lt_two_pow h1 (Nat.and_lt_two_pow _ (not64_lt _))
  have hS2 : x.x2 ^^^ x.x1 ^^^ c ^^^ (x.x4 ^^^ x.x3) &&& not64 x.x3 < 2 ^ 64 :=
    Nat.xor_lt_two_pow ht2 (Nat.and_lt_two_pow _ (not64_lt _))
  have hS3 : x.x3 ^^^ (x.x0 ^^^ x.x4) &&& not64 (x.x4 ^^^ x.x3) < 2 ^ 64 :=
    Nat.xor_lt_two_pow h3 (Nat.and_lt_two_pow _ (not64_lt _))
  have hS4 : x.x4 ^^^ x.x3 ^^^ x.x1 &&& not64 (x.x0 ^^^ x.x4) < 2 ^ 64 :=
    Nat.xor_lt_two_pow ht4 (Nat.and_lt_two_pow _ (not64_lt _))
  rw [← not64_eq_complement64 hS2]
  generalize x.x0 ^^^ x.x4 ^^^ (x.x2 ^^^ x.x1 ^^^ c) &&& not64 x.x1 = S0 at hS0 ⊢
  generalize x.x1 ^^^ x.x3 &&& not64 (x.x2 ^^^ x.x1 ^^^ c) = S1 at hS1 ⊢
  generalize x.x2 ^^^ x.x1 ^^^ c ^^^ (x.x4 ^^^ x.x3) &&& not64 x.x3 = S2 at hS2 ⊢
  generalize x.x3 ^^^ (x.x0 ^^^ x.x4) &&& not64 (x.x4 ^^^ x.x3) = S3 at hS3 ⊢
  generalize x.x4 ^^^ x.x3 ^^^ x.x1 &&& not64 (x.x0 ^^^ x.x4) = S4 at hS4 ⊢
  have hY0 : S0 ^^^ S4 < 2 ^ 64 := Nat.xor_lt_two_pow hS0 hS4
  have hY1 : S1 ^^^ S0 < 2 ^ 64 := Nat.xor_lt_two_pow hS1 hS0
  have hY3 : S3 ^^^ S2 < 2 ^ 64 := Nat.xor_lt_two_pow hS3 hS2
  have w0 : rotr (rotr (S0 ^^^ S4) 19) 9 ^^^ (S0 ^^^ S4 ^^^ rotr (S0 ^^^ S4) 19) =
      S0 ^^^ S4 ^^^ rotateRight64 (S0 ^^^ S4) 19 ^^^ rotateRight64 (S0 ^^^ S4) 28 :=
    diffusion_word hY0 (show 0 < 19 by decide) (show 0 < 9 by decide) (by decide)
  have w1 : rotr (rotr (S1 ^^^ S0) 39) 22 ^^^ (S1 ^^^ S0 ^^^ rotr (S1 ^^^ S0) 39) =
      S1 ^^^ S0 ^^^ rotateRight64 (S1 ^^^ S0) 61 ^^^ rotateRight64 (S1 ^^^ S0) 39 := by
    have h : rotr (rotr (S1 ^^^ S0) 39) 22 ^^^ (S1 ^^^ S0 ^^^ rotr (S1 ^^^ S0) 39) =
        S1 ^^^ S0 ^^^ rotateRight64 (S1 ^^^ S0) 39 ^^^ rotateRight64 (S1 ^^^ S0) 61 :=
      diffusion_word hY1 (show 0 < 39 by decide) (show 0 < 22 by decide) (by decide)
    rw [h]
    ac_rfl
  have w3 : rotr (rotr (S3 ^^^ S2) 10) 7 ^^^ (S3 ^^^ S2 ^^^ rotr (S3 ^^^ S2) 10) =
      S3 ^^^ S2 ^^^ rotateRight64 (S3 ^^^ S2) 10 ^^^ rotateRight64 (S3 ^^^ S2) 17 :=
    diffusion_word hY3 (show 0 < 10 by decide) (show 0 < 7 by decide) (by decide)
  have w4 : rotr (rotr S4 7) 34 ^^^ (S4 ^^^ rotr S4 7) =
      S4 ^^^ rotateRight64 S4 7 ^^^ rotateRight64 S4 41 :=
    diffusion_word hS4 (show 0 < 7 by decide) (show 0 < 34 by decide) (by decide)
  have w2 : not64 (rotr (rotr S2 1) 5 ^^^ (S2 ^^^ rotr S2 1)) =
      not64 S2 ^^^ rotateRight64 (not64 S2) 1 ^^^ rotateRight64 (not64 S2) 6 := by
    have r6 : rotr (rotr S2 1) 5 = rotr S2 6 :=
      rotr_rotr hS2 (show 0 < 1 by decide) (show 0 < 5 by decide) (by decide)
    have e : rotr S2 6 ^^^ (S2 ^^^ rotr S2 1) = S2 ^^^ rotr S2 1 ^^^ rotr S2 6 := by ac_rfl
    rw [r6, e, ← not64_xor3 hS2 (rotr_lt 1 hS2) (rotr_lt 6 hS2),
      ← rotr_not64 hS2 (show 0 < 1 by decide) (by decide),
      ← rotr_not64 hS2 (show 0 < 6 by decide) (by decide),
      rotr_eq_rotateRight64 (not64_lt S2) (show 0 < 1 by decide) (by decide),
      rotr_eq_rotateRight64 (not64_lt S2) (show 0 < 6 by decide) (by decide)]
  rw [w0, w1, w2, w3, w4]

theorem round_eq_refRound_witness :
    (0xF0 : Nat) < 2 ^ 64 ∧ (⟨initX0, 1, 2, 3, 4⟩ : State).Bounded ∧
    round 0xF0 ⟨initX0, 1, 2, 3, 4⟩ = refRound 0xF0 ⟨initX0, 1, 2, 3, 4⟩ :=
  ⟨by decide, ⟨by decide, by decide, by decide, by decide, by decide⟩,
    round_eq_refRound 0xF0 ⟨initX0, 1, 2, 3, 4⟩ (by decide)
      ⟨by decide, by decide, by decide, by decide, by decide⟩⟩

/-! ## From `Open` back to `Seal` -/

/-- Encryption of one byte lane after decryption: when `Open` has turned the ciphertext
byte `b` into a plaintext byte, `Seal` on that plaintext byte extracts `b` again. -/
theorem lane_cipher (x : Nat) (b : Byte) {i : Nat} (hi : i ≤ 7) :
    toByte ((x ^^^ ((toByte ((toByte (x >>> (8 * (7 - i)))).val ^^^ b.val)).val
      <<< (8 * (7 - i))) % 2 ^ 64) >>> (8 * (7 - i))) = b := by
  apply Fin.ext
  rw [toByte_val]
  apply Nat.eq_of_testBit_eq
  intro j
  simp only [toByte_val, Nat.testBit_xor, Nat.testBit_shiftLeft, Nat.testBit_mod_two_pow,
    Nat.testBit_shiftRight]
  by_cases h8 : 8 ≤ j
  · have hj : ¬ j < 8 := by omega
    rw [testBit_byte b h8]
    simp [hj]
  · have hj : j < 8 := by omega
    have h1 : 8 * (7 - i) + j < 64 := by omega
    have h3 : 8 * (7 - i) + j - 8 * (7 - i) = j := by omega
    simp [hj, h1, h3]

/-- The last, short block, from `Open` to `Seal`: `Open` emits one plaintext byte per
ciphertext byte; `Seal`, started on the same word on these plaintext bytes, emits the
ciphertext bytes and ends on the same word. -/
theorem bytes_duplex_conv (l : List Byte) :
    ∀ (x0 : Nat) (i : Nat), x0 < 2 ^ 64 → i + l.length ≤ 8 →
      ∃ (x1 : Nat) (out : List Byte), out.length = l.length ∧ x1 < 2 ^ 64 ∧
        (∀ dst : List Byte, openBytes x0 dst i l = Except.ok (x1, dst ++ out)) ∧
        ∀ dst2 : List Byte, sealBytes x0 dst2 i out = Except.ok (x1, dst2 ++ l) := by
  induction l with
  | nil =>
    intro x0 i hx _
    exact ⟨x0, [], rfl, hx, fun dst => by rw [List.append_nil]; rfl,
      fun dst2 => by rw [List.append_nil]; rfl⟩
  | cons b rest ih =>
    intro x0 i hx hi
    simp only [List.length_cons] at hi
    have hi7 : i ≤ 7 := by omega
    have hc := lane_cipher x0 b hi7
    have hst := lane_state hx (toByte ((toByte (x0 >>> (8 * (7 - i)))).val ^^^ b.val)) i
    rw [hc] at hst
    have hx1 : x0 ^^^ ((toByte ((toByte (x0 >>> (8 * (7 - i)))).val ^^^ b.val)).val
        <<< (8 * (7 - i))) % 2 ^ 64 < 2 ^ 64 := xor_insert_lt hx _
    obtain ⟨x1, out, hlen, hlt, hopen, hseal⟩ :=
      ih (x0 ^^^ ((toByte ((toByte (x0 >>> (8 * (7 - i)))).val ^^^ b.val)).val
        <<< (8 * (7 - i))) % 2 ^ 64) (i + 1) hx1 (by omega)
    refine ⟨x1, toByte ((toByte (x0 >>> (8 * (7 - i)))).val ^^^ b.val) :: out,
      by simp [hlen], hlt, ?_, ?_⟩
    · intro dst
      unfold openBytes
      simp only [insertByte_ok _ hi7, ok_bind, extractByte_ok _ hi7, hst, hopen,
        List.append_assoc, List.singleton_append]
    · intro dst2
      unfold sealBytes
      simp only [insertByte_ok _ hi7, ok_bind, extractByte_ok _ hi7, hc, hseal,
        List.append_assoc, List.singleton_append]

/-- Full blocks, from `Open` to `Seal`: `Open` consumes the ciphertext in blocks of eight;
`Seal`, started in the same state on the recovered plaintext blocks (followed by any
short tail), emits the consumed ciphertext and reaches the same state. -/
theorem blocks_duplex_conv (ct : List Byte) :
    ∀ (s : State), s.Bounded →
      ∃ (s1 : State) (out full rem : List Byte),
        ct = full ++ rem ∧ rem.length < 8 ∧ out.length = full.length ∧ s1.Bounded ∧
        (∀ dst : List Byte, openBlocks s dst ct = Except.ok (s1, dst ++ out, rem)) ∧
        ∀ (dst2 tail : List Byte), tail.length < 8 →
          sealBlocks s dst2 (out ++ tail) = Except.ok (s1, dst2 ++ full, tail) := by
  induction ct using blocks_induction with
  | short l h =>
    intro s hs
    refine ⟨s, [], [], l, rfl, h, rfl, hs, ?_, ?_⟩
    · intro dst
      rw [openBlocks_short s dst h, List.append_nil]
    · intro dst2 tail ht
      rw [List.nil_append, sealBlocks_short s dst2 ht, List.append_nil]
  | step b0 b1 b2 b3 b4 b5 b6 b7 rest ih =>
    intro s hs
    obtain ⟨c, hc, hclt⟩ := extract64_total b0 b1 b2 b3 b4 b5 b6 b7 []
    have hx : s.x0 ^^^ c < 2 ^ 64 := Nat.xor_lt_two_pow hs.1 hclt
    have hb : (p6 ⟨c, s.x1, s.x2, s.x3, s.x4⟩).Bounded :=
      p6_bounded ⟨hclt, hs.2.1, hs.2.2.1, hs.2.2.2.1, hs.2.2.2.2⟩
    obtain ⟨s1, out, full, rem, hsplit, hrem, hlen, hb1, hopen, hseal⟩ := ih _ hb
    refine ⟨s1, be64 (s.x0 ^^^ c) ++ out, [b0, b1, b2, b3, b4, b5, b6, b7] ++ full, rem,
      ?_, hrem, ?_, hb1, ?_, ?_⟩
    · rw [hsplit]; rfl
    · simp [be64_length, hlen]; omega
    · intro dst
      rw [openBlocks_step s dst b0 b1 b2 b3 b4 b5 b6 b7 rest hc, hopen, List.append_assoc]
    · intro dst2 tail ht
      have hw : extract64 (be64 (s.x0 ^^^ c)) = Except.ok (s.x0 ^^^ c) := by
        have := extract64_be64 hx []
        rwa [List.append_nil] at this
      have e : be64 (s.x0 ^^^ c) ++ out ++ tail =
          toByte ((s.x0 ^^^ c) >>> 56) :: toByte ((s.x0 ^^^ c) >>> 48) ::
          toByte ((s.x0 ^^^ c) >>> 40) :: toByte ((s.x0 ^^^ c) >>> 32) ::
          toByte ((s.x0 ^^^ c) >>> 24) :: toByte ((s.x0 ^^^ c) >>> 16) ::
          toByte ((s.x0 ^^^ c) >>> 8) :: toByte (s.x0 ^^^ c) :: (out ++ tail) := rfl
      rw [e, sealBlocks_step s dst2 _ _ _ _ _ _ _ _ (out ++ tail) hw, xor_cancel_left,
        be64_extract64 b0 b1 b2 b3 b4 b5 b6 b7 hc, hseal _ tail ht, List.append_assoc]

/-- With a 16-byte key and a 16-byte nonce, on every ciphertext body and associated data
the core of `Open` returns a plaintext and a recomputed tag, and `Seal` on that plaintext
returns the same body followed by that tag. -/
theorem open_seal_core {key nonce : List Byte} (hk : key.length = 16) (hn : nonce.length = 16)
    (body ad : List Byte) :
    ∃ (out check : List Byte), out.length = body.length ∧ check.length = 16 ∧
      (∀ dst : List Byte, openCore ⟨key⟩ dst nonce body ad = Except.ok (dst ++ out, check)) ∧
      ∀ dst2 : List Byte, Seal ⟨key⟩ dst2 nonce out ad = Except.ok (dst2 ++ body ++ check) := by
  obtain ⟨k0, k1, s0, einit, hb0⟩ := initState_total hk hn
  obtain ⟨sa, edata, hba⟩ := sealData_total hb0 ad
  obtain ⟨s1, out, full, rem, hsplit, hrem, hlen, hb1, hopen, hseal⟩ :=
    blocks_duplex_conv body sa hba
  obtain ⟨x1, outb, hlenb, _, hob, hsb⟩ := bytes_duplex_conv rem s1.x0 0 hb1.1 (by omega)
  have hm : insertByte (0x80 : Byte) rem.length =
      Except.ok (((0x80 : Byte).val <<< (8 * (7 - rem.length))) % 2 ^ 64) :=
    insertByte_ok _ (by omega)
  have hm2 : insertByte (0x80 : Byte) outb.length =
      Except.ok (((0x80 : Byte).val <<< (8 * (7 - rem.length))) % 2 ^ 64) := by
    rw [hlenb]; exact hm
  have hnn : ¬ nonce.length ≠ NonceSize := by simp [hn, NonceSize]
  refine ⟨out ++ outb, tagBytes (finalize k0 k1
      ⟨x1 ^^^ ((0x80 : Byte).val <<< (8 * (7 - rem.length))) % 2 ^ 64, s1.x1, s1.x2, s1.x3, s1.x4⟩),
    ?_, tagBytes_length _, ?_, ?_⟩
  · rw [hsplit]; simp [hlen, hlenb]
  · intro dst
    unfold openCore
    simp only [einit, ok_bind, openData_eq, edata, hopen, hob, hm,
      (check_ok _).1, (check_ok _).2, pure_eq_ok, tagBytes, List.append_assoc]
  · intro dst2
    have hobl : outb.length < 8 := by omega
    unfold Seal
    simp only [hnn, if_false, einit, ok_bind, edata, hseal dst2 outb hobl, hsb, hm2,
      append64_ok, pure_eq_ok, tagBytes, hsplit, List.append_assoc]

/-- C18, `Open` accepts only outputs of `Seal`: for every AEAD built by `New`, every
16-byte nonce, every byte string `ciphertext`, every associated data and every plaintext
`p`, if `Open(nil, nonce, ciphertext, data)` returns `p` and no error, then
`Seal(nil, nonce, p, data)` returns `ciphertext`. -/
theorem open_only_sealed (key nonce ciphertext data p : List Byte) (c : AEAD)
    (hc : New key = (some c, none)) (hn : nonce.length = 16)
    (ho : Open c [] nonce ciphertext data = Except.ok (p, none)) :
    Seal c [] nonce p data = Except.ok ciphertext := by
  obtain ⟨hk, rfl⟩ := New_ok hc
  by_cases hlen : ciphertext.length < 16
  · have h1 : ¬ (16 : Nat) ≠ 16 := by decide
    unfold Open at ho
    simp only [NonceSize, TagSize, hn, h1, hlen, if_false, if_true, pure_eq_ok,
      Except.ok.injEq, Prod.mk.injEq] at ho
    exact absurd ho.2 (by simp)
  · have hge : 16 ≤ ciphertext.length := by omega
    obtain ⟨out, check, _, _, hcore, hseal⟩ :=
      open_seal_core hk hn (ciphertext.take (ciphertext.length - 16)) data
    rw [open_of_core hn ⟨key⟩ hge (hcore [])] at ho
    by_cases e : ciphertext.drop (ciphertext.length - 16) = check
    · rw [if_pos e, List.nil_append] at ho
      have hp : out = p := congrArg Prod.fst (Except.ok.inj ho)
      rw [← hp, hseal [], ← e, List.nil_append, List.take_append_drop]
    · rw [if_neg e] at ho
      have := congrArg Prod.snd (Except.ok.inj ho)
      exact absurd this (by simp)

theorem open_only_sealed_witness :
    New vec_key2 = (some ⟨vec_key2⟩, none) ∧ vec_key2.length = 16 ∧
    Open ⟨vec_key2⟩ [] vec_key2 vec_ct2 vec_ad2 = Except.ok (vec_pt2, none) ∧
    Seal ⟨vec_key2⟩ [] vec_key2 vec_pt2 vec_ad2 = Except.ok vec_ct2 :=
  ⟨rfl, rfl, by decide,
    open_only_sealed vec_key2 vec_key2 vec_ct2 vec_ad2 vec_pt2 ⟨vec_key2⟩ rfl rfl (by decide)⟩

/-! ## `Seal` against the duplex over padded blocks -/

theorem or_shl_byte {acc k : Nat} (b : Byte) (h : acc < 2 ^ k) :
    acc ||| (b.val <<< k) = acc + b.val * 2 ^ k ∧ acc + b.val * 2 ^ k < 2 ^ (k + 8) := by
  constructor
  · rw [Nat.or_comm, Nat.shiftLeft_eq, Nat.mul_comm, ← Nat.mul_add_lt_is_or h, Nat.add_comm]
  · have hb : b.val < 2 ^ 8 := b.isLt
    have e : 2 ^ (k + 8) = 2 ^ k * 2 ^ 8 := Nat.pow_add 2 k 8
    have hk : 0 < 2 ^ k := Nat.two_pow_pos k
    rw [e]
    calc acc + b.val * 2 ^ k < 2 ^ k + b.val * 2 ^ k := by omega
      _ = (b.val + 1) * 2 ^ k := by ring
      _ ≤ 2 ^ 8 * 2 ^ k := Nat.mul_le_mul_right _ (by omega)
      _ = 2 ^ k * 2 ^ 8 := Nat.mul_comm _ _

/-- The word that `extract64` reads is the big-endian value of the eight bytes. -/
theorem extract64_eq_refWord (b0 b1 b2 b3 b4 b5 b6 b7 : Byte) (rest : List Byte) :
    extract64 (b0 :: b1 :: b2 :: b3 :: b4 :: b5 :: b6 :: b7 :: rest) =
      Except.ok (refWord [b0, b1, b2, b3, b4, b5, b6, b7]) := by
  show Except.ok _ = Except.ok _
  congr 1
  have s1 := or_shl_byte b6 (show b7.val < 2 ^ 8 from b7.isLt)
  have s2 := or_shl_byte b5 s1.2
  have s3 := or_shl_byte b4 s2.2
  have s4 := or_shl_byte b3 s3.2
  have s5 := or_shl_byte b2 s4.2
  have s6 := or_shl_byte b1 s5.2
  have s7 := or_shl_byte b0 s6.2
  rw [s1.1, s2.1, s3.1, s4.1, s5.1, s6.1, s7.1]
  simp only [refWord, List.foldl_cons, List.foldl_nil]
  ring

theorem refBytes_eq_be64 (w : Nat) : refBytes w = be64 w := by
  have e : ∀ k : Nat, w / 2 ^ k = w >>> k := fun k => (Nat.shiftRight_eq_div_pow w k).symm
  have h7 : (256 : Nat) ^ 7 = 2 ^ 56 := by decide
  have h6 : (256 : Nat) ^ 6 = 2 ^ 48 := by decide
  have h5 : (256 : Nat) ^ 5 = 2 ^ 40 := by decide
  have h4 : (256 : Nat) ^ 4 = 2 ^ 32 := by decide
  have h3 : (256 : Nat) ^ 3 = 2 ^ 24 := by decide
  have h2 : (256 : Nat) ^ 2 = 2 ^ 16 := by decide
  have h1 : (256 : Nat) ^ 1 = 2 ^ 8 := by decide
  have h0 : w / 256 ^ 0 = w := by simp
  show [toByte (w / 256 ^ 7), toByte (w / 256 ^ 6), toByte (w / 256 ^ 5), toByte (w / 256 ^ 4),
    toByte (w / 256 ^ 3), toByte (w / 256 ^ 2), toByte (w / 256 ^ 1), toByte (w / 256 ^ 0)] = _
  rw [h7, h6, h5, h4, h3, h2, h1, h0, e, e, e, e, e, e, e]
  rfl

theorem refWord_eq_or (b0 b1 b2 b3 b4 b5 b6 b7 : Byte) :
    refWord [b0, b1, b2, b3, b4, b5, b6, b7] =
      (b7.val ||| (b6.val <<< 8) ||| (b5.val <<< 16) ||| (b4.val <<< 24) |||
        (b3.val <<< 32) ||| (b2.val <<< 40) ||| (b1.val <<< 48) ||| (b0.val <<< 56)) :=
  (Except.ok.inj (extract64_eq_refWord b0 b1 b2 b3 b4 b5 b6 b7 [])).symm

theorem zero_lane (k : Nat) : ((0 : Byte).val <<< k) % 2 ^ 64 = 0 := by simp

/-- Eight bytes inserted into the eight lanes by exclusive or give the word that
`extract64` reads from them. -/
theorem xor_lanes (b0 b1 b2 b3 b4 b5 b6 b7 : Byte) :
    (b0.val <<< 56) % 2 ^ 64 ^^^ (b1.val <<< 48) % 2 ^ 64 ^^^ (b2.val <<< 40) % 2 ^ 64 ^^^
      (b3.val <<< 32) % 2 ^ 64 ^^^ (b4.val <<< 24) % 2 ^ 64 ^^^ (b5.val <<< 16) % 2 ^ 64 ^^^
      (b6.val <<< 8) % 2 ^ 64 ^^^ (b7.val <<< 0) % 2 ^ 64 =
    (b7.val ||| (b6.val <<< 8) ||| (b5.val <<< 16) ||| (b4.val <<< 24) |||
      (b3.val <<< 32) ||| (b2.val <<< 40) ||| (b1.val <<< 48) ||| (b0.val <<< 56)) := by
  have hb : ∀ (b : Byte) (j : Nat), 8 ≤ j → b.val.testBit j = false :=
    fun b j hj => testBit_byte b hj
  apply Nat.eq_of_testBit_eq
  intro j
  simp only [Nat.testBit_xor, Nat.testBit_or, Nat.testBit_shiftLeft, Nat.testBit_mod_two_pow]
  by_cases h64 : 64 ≤ j
  · have hj : ¬ j < 64 := by omega
    simp [hj, hb b7 j (by omega), hb b6 (j - 8) (by omega), hb b5 (j - 16) (by omega),
      hb b4 (j - 24) (by omega), hb b3 (j - 32) (by omega), hb b2 (j - 40) (by omega),
      hb b1 (j - 48) (by omega), hb b0 (j - 56) (by omega)]
  · have hj : j < 64 := by omega
    clear h64
    interval_cases j <;> simp [hb]

theorem lanes_refWord (b0 b1 b2 b3 b4 b5 b6 b7 : Byte) :
    (b0.val <<< 56) % 2 ^ 64 ^^^ (b1.val <<< 48) % 2 ^ 64 ^^^ (b2.val <<< 40) % 2 ^ 64 ^^^
      (b3.val <<< 32) % 2 ^ 64 ^^^ (b4.val <<< 24) % 2 ^ 64 ^^^ (b5.val <<< 16) % 2 ^ 64 ^^^
      (b6.val <<< 8) % 2 ^ 64 ^^^ (b7.val <<< 0) % 2 ^ 64 =
    refWord [b0, b1, b2, b3, b4, b5, b6, b7] := by
  rw [refWord_eq_or, xor_lanes]

/-- The last, short block as a padded block: the bytes inserted one by one, followed by
the marker `0x80`, change the word by the big-endian value of the padded block; and the
padded block is a single block. -/
theorem padded_short_block (r : List Byte) (h : r.length < 8) :
    ∀ x0 : Nat, ∃ X m : Nat, dataBytes x0 0 r = Except.ok X ∧
      insertByte (0x80 : Byte) r.length = Except.ok m ∧
      X ^^^ m = x0 ^^^ refWord (refPad r) ∧
      refBlocks (refPad r) = [refWord (refPad r)] := by
  match r, h with
  | [], _ =>
    intro x0
    have h := lanes_refWord 0x80 0 0 0 0 0 0 0
    simp only [zero_lane, Nat.xor_zero] at h
    refine ⟨x0,
      ((0x80 : Byte).val <<< 56) % 2 ^ 64, rfl, rfl, ?_, rfl⟩
    show _ = x0 ^^^ refWord [0x80, 0, 0, 0, 0, 0, 0, 0]
    rw [← h]
    try simp only [Nat.xor_assoc]
  | [a0], _ =>
    intro x0
    have h := lanes_refWord a0 0x80 0 0 0 0 0 0
    simp only [zero_lane, Nat.xor_zero] at h
    refine ⟨x0 ^^^ (a0.val <<< 56) % 2 ^ 64,
      ((0x80 : Byte).val <<< 48) % 2 ^ 64, rfl, rfl, ?_, rfl⟩
    show _ = x0 ^^^ refWord [a0, 0x80, 0, 0, 0, 0, 0, 0]
    rw [← h]
    try simp only [Nat.xor_assoc]
  | [a0, a1], _ =>
    intro x0
    have h := lanes_refWord a0 a1 0x80 0 0 0 0 0
    simp only [zero_lane, Nat.xor_zero] at h
    refine ⟨x0 ^^^ (a0.val <<< 56) % 2 ^ 64 ^^^ (a1.val <<< 48) % 2 ^ 64,
      ((0x80 : Byte).val <<< 40) % 2 ^ 64, rfl, rfl, ?_, rfl⟩
    show _ = x0 ^^^ refWord [a0, a1, 0x80, 0, 0, 0, 0, 0]
    rw [← h]
    try simp only [Nat.xor_assoc]
  | [a0, a1, a2], _ =>
    intro x0
    have h := lanes_refWord a0 a1 a2 0x80 0 0 0 0
    simp only [zero_lane, Nat.xor_zero] at h
    refine ⟨x0 ^^^ (a0.val <<< 56) % 2 ^ 64 ^^^ (a1.val <<< 48) % 2 ^ 64 ^^^ (a2.val <<< 40) % 2 ^ 64,
      ((0x80 : Byte).val <<< 32) % 2 ^ 64, rfl, rfl, ?_, rfl⟩
    show _ = x0 ^^^ refWord [a0, a1, a2, 0x80, 0, 0, 0, 0]
    rw [← h]
    try simp only [Nat.xor_assoc]
  | [a0, a1, a2, a3], _ =>
    intro x0
    have h := lanes_refWord a0 a1 a2 a3 0x80 0 0 0
    simp only [zero_lane, Nat.xor_zero] at h
    refine ⟨x0 ^^^ (a0.val <<< 56) % 2 ^ 64 ^^^ (a1.val <<< 48) % 2 ^ 64 ^^^ (a2.val <<< 40) % 2 ^ 64 ^^^ (a3.val <<< 32) % 2 ^ 64,
      ((0x80 : Byte).val <<< 24) % 2 ^ 64, rfl, rfl, ?_, rfl⟩
    show _ = x0 ^^^ refWord [a0, a1, a2, a3, 0x80, 0, 0, 0]
    rw [← h]
    try simp only [Nat.xor_assoc]
  | [a0, a1, a2, a3, a4], _ =>
    intro x0
    have h := lanes_refWord a0 a1 a2 a3 a4 0x80 0 0
    simp only [zero_lane, Nat.xor_zero] at h
    refine ⟨x0 ^^^ (a0.val <<< 56) % 2 ^ 64 ^^^ (a1.val <<< 48) % 2 ^ 64 ^^^ (a2.val <<< 40) % 2 ^ 64 ^^^ (a3.val <<< 32) % 2 ^ 64 ^^^ (a4.val <<< 24) % 2 ^ 64,
      ((0x80 : Byte).val <<< 16) % 2 ^ 64, rfl, rfl, ?_, rfl⟩
    show _ = x0 ^^^ refWord [a0, a1, a2, a3, a4, 0x80, 0, 0]
    rw [← h]
    try simp only [Nat.xor_assoc]
  | [a0, a1, a2, a3, a4, a5], _ =>
    intro x0
    have h := lanes_refWord a0 a1 a2 a3 a4 a5 0x80 0
    simp only [zero_lane, Nat.xor_zero] at h
    refine ⟨x0 ^^^ (a0.val <<< 56) % 2 ^ 64 ^^^ (a1.val <<< 48) % 2 ^ 64 ^^^ (a2.val <<< 40) % 2 ^ 64 ^^^ (a3.val <<< 32) % 2 ^ 64 ^^^ (a4.val <<< 24) % 2 ^ 64 ^^^ (a5.val <<< 16) % 2 ^ 64,
      ((0x80 : Byte).val <<< 8) % 2 ^ 64, rfl, rfl, ?_, rfl⟩
    show _ = x0 ^^^ refWord [a0, a1, a2, a3, a4, a5, 0x80, 0]
    rw [← h]
    try simp only [Nat.xor_assoc]
  | [a0, a1, a2, a3, a4, a5, a6], _ =>
    intro x0
    have h := lanes_refWord a0 a1 a2 a3 a4 a5 a6 0x80
    simp only [zero_lane, Nat.xor_zero] at h
    refine ⟨x0 ^^^ (a0.val <<< 56) % 2 ^ 64 ^^^ (a1.val <<< 48) % 2 ^ 64 ^^^ (a2.val <<< 40) % 2 ^ 64 ^^^ (a3.val <<< 32) % 2 ^ 64 ^^^ (a4.val <<< 24) % 2 ^ 64 ^^^ (a5.val <<< 16) % 2 ^ 64 ^^^ (a6.val <<< 8) % 2 ^ 64,
      ((0x80 : Byte).val <<< 0) % 2 ^ 64, rfl, rfl, ?_, rfl⟩
    show _ = x0 ^^^ refWord [a0, a1, a2, a3, a4, a5, a6, 0x80]
    rw [← h]
    try simp only [Nat.xor_assoc]
  | _ :: _ :: _ :: _ :: _ :: _ :: _ :: _ :: _, h => simp at h; omega

/-- An exclusive or into byte lane `j` leaves every other byte lane as it is. -/
theorem lane_other (x : Nat) (b : Byte) {i j : Nat} (hi : i ≤ 7) (hj : j ≤ 7) (hij : i ≠ j) :
    toByte ((x ^^^ (b.val <<< (8 * (7 - j))) % 2 ^ 64) >>> (8 * (7 - i))) =
      toByte (x >>> (8 * (7 - i))) := by
  apply Fin.ext
  rw [toByte_val, toByte_val]
  apply Nat.eq_of_testBit_eq
  intro t
  simp only [Nat.testBit_xor, Nat.testBit_shiftLeft, Nat.testBit_mod_two_pow,
    Nat.testBit_shiftRight]
  by_cases ht : t < 8
  · by_cases hlt : i < j
    · have hb : b.val.testBit (8 * (7 - i) + t - 8 * (7 - j)) = false :=
        testBit_byte b (by omega)
      simp [ht, hb]
    · have hge : ¬ (8 * (7 - i) + t ≥ 8 * (7 - j)) := by omega
      simp [ht, hge]
  · simp [ht]

/-- The byte loop of `Seal` on a short block: the word evolves as in the byte loop of the
associated data, and the emitted bytes are the byte lanes of the final word. -/
theorem sealBytes_lanes (l : List Byte) :
    ∀ (x0 i : Nat), i + l.length ≤ 8 →
      ∃ X : Nat, dataBytes x0 i l = Except.ok X ∧
        (∀ dst : List Byte, sealBytes x0 dst i l = Except.ok (X,
          dst ++ (List.range' i l.length).map (fun j => toByte (X >>> (8 * (7 - j)))))) ∧
        ∀ j : Nat, j < i →
          toByte (X >>> (8 * (7 - j))) = toByte (x0 >>> (8 * (7 - j))) := by
  induction l with
  | nil =>
    intro x0 i _
    refine ⟨x0, rfl, ?_, fun _ _ => rfl⟩
    intro dst
    rw [List.length_nil, List.range'_zero, List.map_nil, List.append_nil]
    rfl
  | cons b rest ih =>
    intro x0 i hi
    simp only [List.length_cons] at hi
    have hi7 : i ≤ 7 := by omega
    obtain ⟨X, hd, hs, hinv⟩ := ih (x0 ^^^ (b.val <<< (8 * (7 - i))) % 2 ^ 64) (i + 1) (by omega)
    refine ⟨X, ?_, ?_, ?_⟩
    · unfold dataBytes
      rw [insertByte_ok b hi7, ok_bind, hd]
    · intro dst
      unfold sealBytes
      simp only [insertByte_ok b hi7, ok_bind, extractByte_ok _ hi7, hs, List.length_cons,
        List.range'_succ, List.map_cons, hinv i (by omega), List.append_assoc,
        List.singleton_append]
    · intro j hj
      rw [hinv j (by omega), lane_other x0 b (by omega) hi7 (by omega)]

theorem be64_eq_map (Y : Nat) :
    be64 Y = (List.range' 0 8).map (fun j => toByte (Y >>> (8 * (7 - j)))) := rfl

/-- The bytes that `Seal` emits for the last, short block are the first bytes of the
big-endian representation of the padded block XORed into the word. -/
theorem short_block_cipher (r : List Byte) (h : r.length < 8) (x0 : Nat) :
    ∃ X m : Nat, insertByte (0x80 : Byte) r.length = Except.ok m ∧
      X ^^^ m = x0 ^^^ refWord (refPad r) ∧
      refBlocks (refPad r) = [refWord (refPad r)] ∧
      ∀ dst : List Byte, sealBytes x0 dst 0 r =
        Except.ok (X, dst ++ (be64 (x0 ^^^ refWord (refPad r))).take r.length) := by
  obtain ⟨X, m, hd, hm, hxm, hblocks⟩ := padded_short_block r h x0
  obtain ⟨X2, hd2, hs, _⟩ := sealBytes_lanes r x0 0 (by omega)
  have hX : X2 = X := Except.ok.inj (hd2.symm.trans hd)
  subst hX
  refine ⟨X2, m, hm, hxm, hblocks, ?_⟩
  intro dst
  have hmv : m = ((0x80 : Byte).val <<< (8 * (7 - r.length))) % 2 ^ 64 := by
    rw [insertByte_ok _ (by omega)] at hm
    exact (Except.ok.inj hm).symm
  have htake : (List.range' 0 8).take r.length = List.range' 0 r.length := by
    generalize r.length = k at h
    interval_cases k <;> rfl
  rw [hs dst, ← hxm, be64_eq_map, ← List.map_take, htake]
  have hmap : List.map (fun j => toByte ((X2 ^^^ m) >>> (8 * (7 - j)))) (List.range' 0 r.length) =
      List.map (fun j => toByte (X2 >>> (8 * (7 - j)))) (List.range' 0 r.length) := by
    apply List.map_congr_left
    intro j hj
    rw [List.mem_range'_1] at hj
    rw [hmv, lane_other X2 (0x80 : Byte) (by omega) (by omega) (by omega)]
  rw [hmap]

theorem refPad_cons8 (b0 b1 b2 b3 b4 b5 b6 b7 : Byte) (rest : List Byte) :
    refPad (b0 :: b1 :: b2 :: b3 :: b4 :: b5 :: b6 :: b7 :: rest) =
      b0 :: b1 :: b2 :: b3 :: b4 :: b5 :: b6 :: b7 :: refPad rest := by
  have e : (b0 :: b1 :: b2 :: b3 :: b4 :: b5 :: b6 :: b7 :: rest).length % 8 =
      rest.length % 8 := by
    simp only [List.length_cons]
    omega
  unfold refPad
  rw [e]
  rfl

theorem refBlocks_cons8 (b0 b1 b2 b3 b4 b5 b6 b7 : Byte) (rest : List Byte) :
    refBlocks (b0 :: b1 :: b2 :: b3 :: b4 :: b5 :: b6 :: b7 :: rest) =
      refWord [b0, b1, b2, b3, b4, b5, b6, b7] :: refBlocks rest := rfl

/-- A padded byte string has at least one block. -/
theorem refBlocks_refPad_cons (l : List Byte) :
    ∃ (w : Nat) (ws : List Nat), refBlocks (refPad l) = w :: ws := by
  induction l using blocks_induction with
  | short l h =>
    obtain ⟨_, _, _, _, _, hb⟩ := padded_short_block l h 0
    exact ⟨_, _, hb⟩
  | step b0 b1 b2 b3 b4 b5 b6 b7 rest _ =>
    rw [refPad_cons8, refBlocks_cons8]
    exact ⟨_, _, rfl⟩

theorem sealDataBlocks_step (s : State) (b0 b1 b2 b3 b4 b5 b6 b7 : Byte) (rest : List Byte) :
    sealDataBlocks s (b0 :: b1 :: b2 :: b3 :: b4 :: b5 :: b6 :: b7 :: rest) =
      sealDataBlocks (p6 ⟨s.x0 ^^^ refWord [b0, b1, b2, b3, b4, b5, b6, b7],
        s.x1, s.x2, s.x3, s.x4⟩) rest := by
  have h : ∀ w : Nat, extract64 [b0, b1, b2, b3, b4, b5, b6, b7] = Except.ok w →
      sealDataBlocks s (b0 :: b1 :: b2 :: b3 :: b4 :: b5 :: b6 :: b7 :: rest) =
        sealDataBlocks (p6 ⟨s.x0 ^^^ w, s.x1, s.x2, s.x3, s.x4⟩) rest := by
    intro w hw
    cases hw
    rfl
  exact h _ (extract64_eq_refWord b0 b1 b2 b3 b4 b5 b6 b7 [])

/-- Associated data: the block loop, the byte loop, the marker and the last `p6` of the
code absorb exactly the blocks of the padded associated data. -/
theorem absorb_refines (A : List Byte) :
    ∀ s : State, ∃ (s1 : State) (rem : List Byte) (X m : Nat),
      sealDataBlocks s A = Except.ok (s1, rem) ∧
      dataBytes s1.x0 0 rem = Except.ok X ∧
      insertByte (0x80 : Byte) rem.length = Except.ok m ∧
      p6 ⟨X ^^^ m, s1.x1, s1.x2, s1.x3, s1.x4⟩ = refAbsorb s (refBlocks (refPad A)) := by
  induction A using blocks_induction with
  | short l h =>
    intro s
    obtain ⟨X, m, hd, hm, hxm, hb⟩ := padded_short_block l h s.x0
    refine ⟨s, l, X, m, sealDataBlocks_short s h, hd, hm, ?_⟩
    rw [hb, hxm]
    rfl
  | step b0 b1 b2 b3 b4 b5 b6 b7 rest ih =>
    intro s
    obtain ⟨s1, rem, X, m, h1, h2, h3, h4⟩ :=
      ih (p6 ⟨s.x0 ^^^ refWord [b0, b1, b2, b3, b4, b5, b6, b7], s.x1, s.x2, s.x3, s.x4⟩)
    refine ⟨s1, rem, X, m, ?_, h2, h3, ?_⟩
    · rw [sealDataBlocks_step, h1]
    · rw [h4, refPad_cons8, refBlocks_cons8]
      rfl

theorem sealData_refines (s : State) (A : List Byte) :
    sealData s A = Except.ok
      ⟨(if A = [] then s else refAbsorb s (refBlocks (refPad A))).x0,
       (if A = [] then s else refAbsorb s (refBlocks (refPad A))).x1,
       (if A = [] then s else refAbsorb s (refBlocks (refPad A))).x2,
       (if A = [] then s else refAbsorb s (refBlocks (refPad A))).x3,
       (if A = [] then s else refAbsorb s (refBlocks (refPad A))).x4 ^^^ 1⟩ := by
  unfold sealData
  by_cases hA : A = []
  · subst hA
    simp only [List.length_nil, gt_iff_lt, Nat.lt_irrefl, if_false, if_true, pure_eq_ok, ok_bind]
  · have hlen : A.length > 0 := List.length_pos.mpr hA
    obtain ⟨s1, rem, X, m, h1, h2, h3, h4⟩ := absorb_refines A s
    simp only [hlen, hA, if_true, if_false, h1, ok_bind, h2, h3, pure_eq_ok, h4]

/-- Plaintext: the block loop, the byte loop and the marker of the code encrypt exactly the
blocks of the padded plaintext, with `p6` after every block except the last, and emit the
first `len(P)` bytes of the recorded words. -/
theorem encrypt_refines (P : List Byte) :
    ∀ s : State, ∃ (s1 : State) (rem : List Byte) (X m : Nat) (ct cb : List Byte),
      (∀ dst : List Byte, sealBlocks s dst P = Except.ok (s1, dst ++ ct, rem)) ∧
      insertByte (0x80 : Byte) rem.length = Except.ok m ∧
      (∀ dst : List Byte, sealBytes s1.x0 dst 0 rem = Except.ok (X, dst ++ cb)) ∧
      (refEncrypt s (refBlocks (refPad P))).1 = ⟨X ^^^ m, s1.x1, s1.x2, s1.x3, s1.x4⟩ ∧
      ct ++ cb = (refWordsBytes (refEncrypt s (refBlocks (refPad P))).2).take P.length := by
  induction P using blocks_induction with
  | short l h =>
    intro s
    obtain ⟨X, m, hm, hxm, hb, hs⟩ := short_block_cipher l h s.x0
    refine ⟨s, l, X, m, [], (be64 (s.x0 ^^^ refWord (refPad l))).take l.length,
      fun dst => by rw [sealBlocks_short s dst h, List.append_nil], hm, hs, ?_, ?_⟩
    · rw [hb, hxm]
      rfl
    · rw [hb, List.nil_append]
      show _ = List.take l.length (refBytes (s.x0 ^^^ refWord (refPad l)) ++ [])
      rw [List.append_nil, refBytes_eq_be64]
  | step b0 b1 b2 b3 b4 b5 b6 b7 rest ih =>
    intro s
    have hw := extract64_eq_refWord b0 b1 b2 b3 b4 b5 b6 b7 []
    obtain ⟨s1, rem, X, m, ct, cb, h1, h2, h3, h4, h5⟩ :=
      ih (p6 ⟨s.x0 ^^^ refWord [b0, b1, b2, b3, b4, b5, b6, b7], s.x1, s.x2, s.x3, s.x4⟩)
    obtain ⟨w2, ws, hne⟩ := refBlocks_refPad_cons rest
    rw [hne] at h4 h5
    refine ⟨s1, rem, X, m, be64 (s.x0 ^^^ refWord [b0, b1, b2, b3, b4, b5, b6, b7]) ++ ct, cb,
      ?_, h2, h3, ?_, ?_⟩
    · intro dst
      rw [sealBlocks_step s dst b0 b1 b2 b3 b4 b5 b6 b7 rest hw, h1, List.append_assoc]
    · rw [refPad_cons8, refBlocks_cons8, hne]
      exact h4
    · rw [refPad_cons8, refBlocks_cons8, hne, List.append_assoc, h5]
      show _ = List.take (rest.length + 8)
        (refBytes (s.x0 ^^^ refWord [b0, b1, b2, b3, b4, b5, b6, b7]) ++ refWordsBytes _)
      rw [refBytes_eq_be64, Nat.add_comm, ← be64_length (s.x0 ^^^ refWord [b0, b1, b2, b3, b4, b5, b6, b7]),
        List.take_append]

theorem extract64_refWord_of_length {l : List Byte} (h : l.length = 8) :
    extract64 l = Except.ok (refWord l) := by
  obtain ⟨b0, b1, b2, b3, b4, b5, b6, b7, rfl⟩ := length_eight h
  exact extract64_eq_refWord b0 b1 b2 b3 b4 b5 b6 b7 []

theorem initState_refines {key nonce : List Byte} (hk : key.length = 16)
    (hn : nonce.length = 16) :
    initState ⟨key⟩ nonce = Except.ok (refWord (key.take 8), refWord (key.drop 8),
      ⟨(p12 ⟨refIV, refWord (key.take 8), refWord (key.drop 8), refWord (nonce.take 8),
          refWord (nonce.drop 8)⟩).x0,
       (p12 ⟨refIV, refWord (key.take 8), refWord (key.drop 8), refWord (nonce.take 8),
          refWord (nonce.drop 8)⟩).x1,
       (p12 ⟨refIV, refWord (key.take 8), refWord (key.drop 8), refWord (nonce.take 8),
          refWord (nonce.drop 8)⟩).x2,
       (p12 ⟨refIV, refWord (key.take 8), refWord (key.drop 8), refWord (nonce.take 8),
          refWord (nonce.drop 8)⟩).x3 ^^^ refWord (key.take 8),
       (p12 ⟨refIV, refWord (key.take 8), refWord (key.drop 8), refWord (nonce.take 8),
          refWord (nonce.drop 8)⟩).x4 ^^^ refWord (key.drop 8)⟩) := by
  have e0 := extract64_refWord_of_length (l := key.take 8) (by simp [hk])
  have e1 := extract64_refWord_of_length (l := key.drop 8) (by simp [hk])
  have e2 := extract64_refWord_of_length (l := nonce.take 8) (by simp [hn])
  have e3 := extract64_refWord_of_length (l := nonce.drop 8) (by simp [hn])
  have hiv : initX0 = refIV := by decide
  simp only [initState, sliceTo, sliceFrom, hk, hn, show (8 : Nat) ≤ 16 by decide, if_true,
    pure_eq_ok, ok_bind, e0, e1, e2, e3, hiv]

/-- C17, `Seal` as a duplex over padded blocks: for every AEAD built by `New`, every
16-byte nonce, every plaintext `P` and associated data `A`, `Seal(nil, nonce, P, A)`
returns exactly the output of the reference: initialization with `IV`, absorption of the
blocks of `A || 0x80 || 0^j` (nothing when `A` is empty), the bit 1 XORed into `x4`,
encryption of the blocks of `P || 0x80 || 0^j` with `P6` after every block except the
last and the ciphertext cut to `len(P)` bytes, finalization, and the tag `x3`, `x4`. -/
theorem seal_refines_duplex (key nonce P A : List Byte) (c : AEAD)
    (hc : New key = (some c, none)) (hn : nonce.length = 16) :
    Seal c [] nonce P A = Except.ok (refSeal key nonce P A) := by
  obtain ⟨hk, rfl⟩ := New_ok hc
  have hnn : ¬ nonce.length ≠ NonceSize := by simp [hn, NonceSize]
  have einit := initState_refines hk hn
  unfold Seal refSeal
  simp only [hnn, if_false, einit, ok_bind, sealData_refines]
  generalize refWord (key.take 8) = k0
  generalize refWord (key.drop 8) = k1
  generalize p12 ⟨refIV, k0, k1, refWord (nonce.take 8), refWord (nonce.drop 8)⟩ = T
  generalize (if A = [] then (⟨T.x0, T.x1, T.x2, T.x3 ^^^ k0, T.x4 ^^^ k1⟩ : State)
    else refAbsorb ⟨T.x0, T.x1, T.x2, T.x3 ^^^ k0, T.x4 ^^^ k1⟩ (refBlocks (refPad A))) = sA
  obtain ⟨s1, rem, X, m, ct, cb, h1, h2, h3, h4, h5⟩ :=
    encrypt_refines P ⟨sA.x0, sA.x1, sA.x2, sA.x3, sA.x4 ^^^ 1⟩
  rw [h4, ← h5]
  simp only [h1, ok_bind, h3, h2, append64_ok, pure_eq_ok, finalize, refBytes_eq_be64,
    List.nil_append, List.append_assoc]

theorem seal_refines_duplex_witness :
    New vec_key3 = (some ⟨vec_key3⟩, none) ∧ vec_nonce3.length = 16 ∧
    refSeal vec_key3 vec_nonce3 vec_pt3 vec_ad3 = vec_ct3 ∧
    Seal ⟨vec_key3⟩ [] vec_nonce3 vec_pt3 vec_ad3 =
      Except.ok (refSeal vec_key3 vec_nonce3 vec_pt3 vec_ad3) :=
  ⟨rfl, rfl, by decide,
    seal_refines_duplex vec_key3 vec_nonce3 vec_pt3 vec_ad3 ⟨vec_key3⟩ rfl rfl⟩

/-! ## The heap: reading, storing and `append` -/

theorem memRead_length (m : Mem) (a n : Nat) : (memRead m a n).length = n := by
  simp [memRead]

theorem memRead_zero (m : Mem) (a : Nat) : memRead m a 0 = [] := rfl

theorem memRead_succ (m : Mem) (a n : Nat) :
    memRead m a (n + 1) = m.data a :: memRead m (a + 1) n := rfl

theorem memRead_add (m : Mem) (a n k : Nat) :
    memRead m a (n + k) = memRead m a n ++ memRead m (a + n) k := by
  unfold memRead
  rw [Nat.add_comm n k, ← List.range'_append_1, List.map_append]

theorem memRead_congr {m1 m2 : Mem} {a n : Nat}
    (h : ∀ i, a ≤ i → i < a + n → m1.data i = m2.data i) : memRead m1 a n = memRead m2 a n := by
  unfold memRead
  apply List.map_congr_left
  intro i hi
  rw [List.mem_range'_1] at hi
  exact h i hi.1 hi.2

theorem memRead_write_same (m : Mem) (a : Nat) (bs : List Byte) :
    memRead (memWrite m a bs) a bs.length = bs := by
  apply List.ext_getElem
  · rw [memRead_length]
  · intro n h1 h2
    have hn : a ≤ a + n ∧ a + n < a + bs.length := ⟨by omega, by omega⟩
    have e : a + n - a = n := by omega
    simp only [memRead, memWrite, List.getElem_map, List.getElem_range'_1, hn, and_self,
      if_true, e]
    exact List.getD_eq_getElem bs 0 h2

theorem memWrite_outside (m : Mem) (a : Nat) (bs : List Byte) {i : Nat}
    (h : ¬ (a ≤ i ∧ i < a + bs.length)) : (memWrite m a bs).data i = m.data i := by
  simp only [memWrite, h, if_false]

theorem memWrite_size (m : Mem) (a : Nat) (bs : List Byte) : (memWrite m a bs).size = m.size :=
  rfl

theorem memMake_below (m : Mem) (n : Nat) {i : Nat} (h : i < m.size) :
    (memMake m n).1.data i = m.data i := by
  have h2 : ¬ m.size ≤ i := by omega
  simp only [memMake, h2, if_false]

/-- What `append` does, whichever branch it takes: the returned slice holds the old
contents followed by the new bytes and lies in allocated memory; the heap does not
shrink; allocated bytes outside the place where the new bytes would go in place are as
they were; and the next place to store is right behind the new bytes, in the old array or
in a new one behind everything allocated before. -/
theorem memAppend_spec (grow : Nat → Nat → Nat) (m : Mem) (dst : Slice) (bs : List Byte)
    (hv : dst.Valid m) :
    memBytes (memAppend grow m dst bs).1 (memAppend grow m dst bs).2 = memBytes m dst ++ bs ∧
    (memAppend grow m dst bs).2.Valid (memAppend grow m dst bs).1 ∧
    m.size ≤ (memAppend grow m dst bs).1.size ∧
    (memAppend grow m dst bs).2.len = dst.len + bs.length ∧
    (∀ i, i < m.size → ¬ (dst.ptr + dst.len ≤ i ∧ i < dst.ptr + dst.len + bs.length) →
      (memAppend grow m dst bs).1.data i = m.data i) ∧
    ((memAppend grow m dst bs).2.ptr + (memAppend grow m dst bs).2.len =
        dst.ptr + dst.len + bs.length ∨
      m.size ≤ (memAppend grow m dst bs).2.ptr + (memAppend grow m dst bs).2.len) := by
  obtain ⟨hlc, hcs⟩ := hv
  unfold memAppend
  by_cases hfit : dst.len + bs.length ≤ dst.cap
  · simp only [hfit, if_true]
    refine ⟨?_, ⟨hfit, hcs⟩, Nat.le_refl _, trivial, ?_, Or.inl (by omega)⟩
    · show memRead _ dst.ptr (dst.len + bs.length) = memRead m dst.ptr dst.len ++ bs
      rw [memRead_add, memRead_write_same]
      congr 1
      apply memRead_congr
      intro i _ h2
      exact memWrite_outside m _ bs (by omega)
    · intro i _ hi
      exact memWrite_outside m _ bs hi
  · simp only [hfit, if_false]
    have hlen : (memBytes m dst ++ bs).length = dst.len + bs.length := by
      simp [memBytes, memRead_length]
    refine ⟨?_, ⟨Nat.le_max_left _ _, ?_⟩, ?_, trivial, ?_, Or.inr (by omega)⟩
    · show memRead _ m.size (dst.len + bs.length) = memBytes m dst ++ bs
      rw [← hlen, memRead_write_same]
    · show m.size + _ ≤ m.size + _
      exact Nat.le_refl _
    · show m.size ≤ m.size + _
      omega
    · intro i hi _
      rw [memWrite_outside _ _ _ (by omega), memMake_below m _ hi]

/-! ## `Seal` in memory against `Seal` on contents -/

/-- One `append` inside a loop that reads its input in step with what it appends: the
input still to be read stays as it was, and the next place to store stays clear of it. -/
theorem memAppend_step (grow : Nat → Nat → Nat) (m : Mem) (dst : Slice) (bs : List Byte) (u e : Nat)
    (hv : dst.Valid m) (he : e ≤ m.size) (hc : Clear (dst.ptr + dst.len) u e) :
    ∃ (m1 : Mem) (dst1 : Slice), memAppend grow m dst bs = (m1, dst1) ∧
      memBytes m1 dst1 = memBytes m dst ++ bs ∧ dst1.Valid m1 ∧ e ≤ m1.size ∧
      Clear (dst1.ptr + dst1.len) (u + bs.length) e ∧
      ∀ i, u + bs.length ≤ i → i < e → m1.data i = m.data i := by
  obtain ⟨h1, h2, h3, _, h5, h6⟩ := memAppend_spec grow m dst bs hv
  refine ⟨(memAppend grow m dst bs).1, (memAppend grow m dst bs).2, rfl, h1, h2, by omega,
    ?_, ?_⟩
  · rcases h6 with h6 | h6
    · rw [h6]
      rcases hc with hc | hc
      · exact Or.inl (by omega)
      · exact Or.inr (by omega)
    · exact Or.inr (by omega)
  · intro i hi1 hi2
    apply h5 i (by omega)
    rcases hc with hc | hc
    · omega
    · omega

theorem memAppend64_eq (grow : Nat → Nat → Nat) (m : Mem) (dst : Slice) (u : Nat) :
    memAppend64 grow m dst u = Except.ok (memAppend grow m dst (be64 u)) := by
  unfold memAppend64
  rw [insert64_ok u (by simp)]
  rfl

theorem memRead_eight (m : Mem) (a : Nat) :
    memRead m a 8 = [m.data a, m.data (a + 1), m.data (a + 2), m.data (a + 3), m.data (a + 4),
      m.data (a + 5), m.data (a + 6), m.data (a + 7)] := rfl

/-- The block loop of `Seal` on the heap against the block loop on contents: when the
place where `dst` grows is clear of the plaintext still to be read, the heap loop reaches
the state, appends the ciphertext blocks and leaves the rest that the loop on the
contents of the plaintext gives; the input from there up to `e` is untouched. -/
theorem memSealBlocks_spec (grow : Nat → Nat → Nat) :
    ∀ (fuel : Nat) (m : Mem) (s : State) (dst pt : Slice) (e : Nat),
      pt.len ≤ fuel → dst.Valid m → pt.ptr + pt.len ≤ e → e ≤ m.size →
      Clear (dst.ptr + dst.len) pt.ptr e →
      ∃ (m1 : Mem) (s1 : State) (dst1 : Slice) (ct rem : List Byte) (c1 : Nat),
        (∀ d : List Byte,
          sealBlocks s d (memRead m pt.ptr pt.len) = Except.ok (s1, d ++ ct, rem)) ∧
        memSealBlocks grow fuel m s dst pt =
          Except.ok (m1, s1, dst1, ⟨pt.ptr + ct.length, rem.length, c1⟩) ∧
        memBytes m1 dst1 = memBytes m dst ++ ct ∧ dst1.Valid m1 ∧ e ≤ m1.size ∧
        Clear (dst1.ptr + dst1.len) (pt.ptr + ct.length) e ∧
        (∀ i, pt.ptr + ct.length ≤ i → i < e → m1.data i = m.data i) ∧
        ct.length + rem.length = pt.len ∧ rem.length < 8 ∧
        rem = memRead m (pt.ptr + ct.length) rem.length := by
  intro fuel
  induction fuel with
  | zero =>
    intro m s dst pt e hf hv hb he hc
    have h0 : pt.len = 0 := by omega
    have hg : ¬ pt.len ≥ 8 := by omega
    refine ⟨m, s, dst, [], [], pt.cap, ?_, ?_, by rw [List.append_nil], hv, he, hc,
      fun _ _ _ => rfl, by simp [h0], by simp, rfl⟩
    · intro d
      rw [h0, memRead_zero, List.append_nil]
      rfl
    · unfold memSealBlocks
      simp only [hg, if_false, pure_eq_ok, List.length_nil, Nat.add_zero]
      rw [← h0]
  | succ fuel ih =>
    intro m s dst pt e hf hv hb he hc
    by_cases hg : pt.len ≥ 8
    · obtain ⟨w, hw, _⟩ := extract64_total (m.data pt.ptr) (m.data (pt.ptr + 1))
        (m.data (pt.ptr + 2)) (m.data (pt.ptr + 3)) (m.data (pt.ptr + 4)) (m.data (pt.ptr + 5))
        (m.data (pt.ptr + 6)) (m.data (pt.ptr + 7)) []
      obtain ⟨m1, dst1, ha, hbytes, hv1, he1, hc1, hfr⟩ :=
        memAppend_step grow m dst (be64 (s.x0 ^^^ w)) pt.ptr e hv he hc
      rw [be64_length] at hc1 hfr
      obtain ⟨m2, s2, dst2, ct, rem, c2, hval, hmem, hb2, hv2, he2, hc2, hfr2, hlen, hrem, hrd⟩ :=
        ih m1 (p6 ⟨s.x0 ^^^ w, s.x1, s.x2, s.x3, s.x4⟩) dst1
          ⟨pt.ptr + 8, pt.len - 8, pt.cap - 8⟩ e (by show pt.len - 8 ≤ fuel; omega) hv1
          (by show pt.ptr + 8 + (pt.len - 8) ≤ e; omega) he1 hc1
      have hrest : memRead m1 (pt.ptr + 8) (pt.len - 8) = memRead m (pt.ptr + 8) (pt.len - 8) :=
        memRead_congr (fun i h1 h2 => hfr i h1 (by omega))
      have hP : memRead m pt.ptr pt.len =
          m.data pt.ptr :: m.data (pt.ptr + 1) :: m.data (pt.ptr + 2) :: m.data (pt.ptr + 3) ::
          m.data (pt.ptr + 4) :: m.data (pt.ptr + 5) :: m.data (pt.ptr + 6) ::
          m.data (pt.ptr + 7) :: memRead m (pt.ptr + 8) (pt.len - 8) := by
        have e8 : pt.len = 8 + (pt.len - 8) := by omega
        rw [e8, memRead_add, memRead_eight]
        simp
      refine ⟨m2, s2, dst2, be64 (s.x0 ^^^ w) ++ ct, rem, c2, ?_, ?_, ?_, hv2, he2, ?_, ?_, ?_,
        hrem, ?_⟩
      · intro d
        rw [hP, sealBlocks_step s d _ _ _ _ _ _ _ _ _ hw, ← hrest]
        have := hval (d ++ be64 (s.x0 ^^^ w))
        simp only at this
        rw [this, List.append_assoc]
      · unfold memSealBlocks
        simp only [hg, if_true, memRead_eight, hw, ok_bind, memAppend64_eq, ha]
        have e1 : pt.ptr + (be64 (s.x0 ^^^ w) ++ ct).length = pt.ptr + 8 + ct.length := by
          rw [List.length_append, be64_length]; omega
        rw [e1]
        exact hmem
      · rw [hb2, hbytes, List.append_assoc]
      · have e1 : pt.ptr + (be64 (s.x0 ^^^ w) ++ ct).length = pt.ptr + 8 + ct.length := by
          rw [List.length_append, be64_length]; omega
        rw [e1]
        exact hc2
      · intro i hi1 hi2
        have e1 : (be64 (s.x0 ^^^ w) ++ ct).length = 8 + ct.length := by
          rw [List.length_append, be64_length]
        rw [e1] at hi1
        rw [hfr2 i (by show pt.ptr + 8 + ct.length ≤ i; omega) hi2, hfr i (by omega) hi2]
      · have e1 : (be64 (s.x0 ^^^ w) ++ ct).length = 8 + ct.length := by
          rw [List.length_append, be64_length]
        rw [e1]
        have : ct.length + rem.length = pt.len - 8 := hlen
        omega
      · have e1 : pt.ptr + (be64 (s.x0 ^^^ w) ++ ct).length = pt.ptr + 8 + ct.length := by
          rw [List.length_append, be64_length]; omega
        have hl : ct.length + rem.length = pt.len - 8 := hlen
        rw [e1, hrd]
        simp only [memRead_length]
        exact memRead_congr (fun i h1 h2 => hfr i (by omega) (by omega))
    · have hlt : pt.len < 8 := by omega
      refine ⟨m, s, dst, [], memRead m pt.ptr pt.len, pt.cap, ?_, ?_, by rw [List.append_nil],
        hv, he, hc, fun _ _ _ => rfl, by simp [memRead_length],
        by rw [memRead_length]; exact hlt, by simp [memRead_length]⟩
      · intro d
        rw [sealBlocks_short s d (by rw [memRead_length]; exact hlt), List.append_nil]
      · unfold memSealBlocks
        simp only [hg, if_false, pure_eq_ok, List.length_nil, Nat.add_zero, memRead_length]


/-- The byte loop of `Seal` on the heap against the byte loop on contents. -/
theorem memSealBytes_spec (grow : Nat → Nat → Nat) :
    ∀ (n : Nat) (m : Mem) (x0 : Nat) (dst : Slice) (i : Nat) (pt : Slice) (e : Nat),
      i + n ≤ 8 → dst.Valid m → pt.ptr + i + n ≤ e → e ≤ m.size →
      Clear (dst.ptr + dst.len) (pt.ptr + i) e →
      ∃ (m1 : Mem) (X : Nat) (dst1 : Slice) (cb : List Byte),
        (∀ d : List Byte,
          sealBytes x0 d i (memRead m (pt.ptr + i) n) = Except.ok (X, d ++ cb)) ∧
        memSealBytes grow n m x0 dst i pt = Except.ok (m1, X, dst1) ∧
        memBytes m1 dst1 = memBytes m dst ++ cb ∧ dst1.Valid m1 ∧ e ≤ m1.size ∧
        cb.length = n ∧
        Clear (dst1.ptr + dst1.len) (pt.ptr + i + n) e ∧
        ∀ j, pt.ptr + i + n ≤ j → j < e → m1.data j = m.data j := by
  intro n
  induction n with
  | zero =>
    intro m x0 dst i pt e _ hv _ he hc
    exact ⟨m, x0, dst, [], fun d => by rw [memRead_zero, List.append_nil]; rfl, rfl,
      by rw [List.append_nil], hv, he, rfl, hc, fun _ _ _ => rfl⟩
  | succ n ih =>
    intro m x0 dst i pt e hi hv hb he hc
    have hi7 : i ≤ 7 := by omega
    obtain ⟨m1, dst1, ha, hbytes, hv1, he1, hc1, hfr⟩ :=
      memAppend_step grow m dst
        [toByte ((x0 ^^^ ((m.data (pt.ptr + i)).val <<< (8 * (7 - i))) % 2 ^ 64) >>> (8 * (7 - i)))]
        (pt.ptr + i) e hv he hc
    simp only [List.length_singleton] at hc1 hfr
    obtain ⟨m2, X, dst2, cb, hval, hmem, hb2, hv2, he2, hlen, hc2, hfr2⟩ :=
      ih m1 (x0 ^^^ ((m.data (pt.ptr + i)).val <<< (8 * (7 - i))) % 2 ^ 64) dst1 (i + 1) pt e
        (by omega) hv1 (by omega) he1 (by rw [← Nat.add_assoc]; exact hc1)
    have hrest : memRead m1 (pt.ptr + (i + 1)) n = memRead m (pt.ptr + i + 1) n := by
      rw [← Nat.add_assoc]
      exact memRead_congr (fun j h1 h2 => hfr j h1 (by omega))
    refine ⟨m2, X, dst2,
      toByte ((x0 ^^^ ((m.data (pt.ptr + i)).val <<< (8 * (7 - i))) % 2 ^ 64) >>> (8 * (7 - i)))
        :: cb, ?_, ?_, ?_, hv2, he2, by simp [hlen], ?_, ?_⟩
    · intro d
      rw [memRead_succ]
      unfold sealBytes
      simp only [insertByte_ok _ hi7, ok_bind, extractByte_ok _ hi7]
      rw [← hrest, hval, List.append_assoc, List.singleton_append]
    · unfold memSealBytes
      simp only [insertByte_ok _ hi7, ok_bind, extractByte_ok _ hi7, ha]
      exact hmem
    · rw [hb2, hbytes, List.append_assoc, List.singleton_append]
    · have e1 : pt.ptr + i + (n + 1) = pt.ptr + (i + 1) + n := by omega
      rw [e1]
      exact hc2
    · intro j hj1 hj2
      rw [hfr2 j (by omega) hj2, hfr j (by omega) hj2]

/-- `Seal` on the heap when the capacity of `dst` suffices: if the place where `dst` grows
is clear of the plaintext, the returned slice holds the contents of `dst` followed by what
`Seal` on contents returns for the empty `dst`. -/
theorem memSeal_fits (grow : Nat → Nat → Nat) (m : Mem) (c : MemAEAD) (dst nonce pt data : Slice)
    (hk : c.key.len = 16) (hn : nonce.len = 16) (hpb : pt.ptr + pt.len ≤ m.size)
    (hv : dst.Valid m) (hcap : ¬ dst.cap < dst.len + pt.len + TagSize)
    (hc : Clear (dst.ptr + dst.len) pt.ptr (pt.ptr + pt.len)) :
    ∃ (out : List Byte) (m1 : Mem) (dst1 : Slice),
      Seal ⟨memBytes m c.key⟩ [] (memBytes m nonce) (memBytes m pt) (memBytes m data) =
        Except.ok out ∧
      memSeal grow m c dst nonce pt data = Except.ok (m1, dst1) ∧
      memBytes m1 dst1 = memBytes m dst ++ out ∧ out.length = pt.len + 16 := by
  have hkl : (memBytes m c.key).length = 16 := by rw [memBytes, memRead_length, hk]
  have hnl : (memBytes m nonce).length = 16 := by rw [memBytes, memRead_length, hn]
  have hnn : ¬ nonce.len ≠ NonceSize := by simp [hn, NonceSize]
  have hnn2 : ¬ (memBytes m nonce).length ≠ NonceSize := by simp [hnl, NonceSize]
  obtain ⟨k0, k1, s0, einit, hb0⟩ := initState_total hkl hnl
  obtain ⟨sa, edata, _⟩ := sealData_total hb0 (memBytes m data)
  obtain ⟨m1, s1, dst1, ct, rem, c1, hval, hmem, hb1, hv1, he1, hc1, hfr1, hlen1, hrem1, hrd⟩ :=
    memSealBlocks_spec grow pt.len m sa dst pt (pt.ptr + pt.len) (Nat.le_refl _) hv
      (Nat.le_refl _) hpb hc
  obtain ⟨m2, X, dst2, cb, hval2, hmem2, hb2, hv2, he2, hlen2, _, _⟩ :=
    memSealBytes_spec grow rem.length m1 s1.x0 dst1 0
      ⟨pt.ptr + ct.length, rem.length, c1⟩ (pt.ptr + pt.len) (by omega) hv1
      (by show pt.ptr + ct.length + 0 + rem.length ≤ pt.ptr + pt.len; omega) he1
      (by show Clear _ (pt.ptr + ct.length + 0) _; rw [Nat.add_zero]; exact hc1)
  have hrem2 : memRead m1 (pt.ptr + ct.length + 0) rem.length = rem := by
    rw [Nat.add_zero, hrd]
    simp only [memRead_length]
    exact memRead_congr (fun i h1 h2 => hfr1 i h1 (by omega))
  have hval2b : ∀ d : List Byte, sealBytes s1.x0 d 0 rem = Except.ok (X, d ++ cb) := by
    intro d
    have := hval2 d
    rw [show (⟨pt.ptr + ct.length, rem.length, c1⟩ : Slice).ptr = pt.ptr + ct.length from rfl,
      hrem2] at this
    exact this
  have hm : insertByte (0x80 : Byte) rem.length =
      Except.ok (((0x80 : Byte).val <<< (8 * (7 - rem.length))) % 2 ^ 64) :=
    insertByte_ok _ (by omega)
  obtain ⟨F, hF⟩ : ∃ F : State, F = finalize k0 k1
      ⟨X ^^^ ((0x80 : Byte).val <<< (8 * (7 - rem.length))) % 2 ^ 64, s1.x1, s1.x2, s1.x3,
        s1.x4⟩ := ⟨_, rfl⟩
  obtain ⟨t1, t2, _, _, _, _⟩ := memAppend_spec grow m2 dst2 (be64 F.x3) hv2
  obtain ⟨u1, _, _, _, _, _⟩ := memAppend_spec grow (memAppend grow m2 dst2 (be64 F.x3)).1
    (memAppend grow m2 dst2 (be64 F.x3)).2 (be64 F.x4) t2
  refine ⟨ct ++ cb ++ tagBytes F,
    (memAppend grow (memAppend grow m2 dst2 (be64 F.x3)).1
      (memAppend grow m2 dst2 (be64 F.x3)).2 (be64 F.x4)).1,
    (memAppend grow (memAppend grow m2 dst2 (be64 F.x3)).1
      (memAppend grow m2 dst2 (be64 F.x3)).2 (be64 F.x4)).2, ?_, ?_, ?_, ?_⟩
  · have hval1 : ∀ d : List Byte,
        sealBlocks sa d (memBytes m pt) = Except.ok (s1, d ++ ct, rem) := hval
    unfold Seal
    simp only [hnn2, if_false, einit, ok_bind, edata, hval1, hval2b, hm, append64_ok,
      pure_eq_ok, ← hF, tagBytes, List.nil_append, List.append_assoc]
  · unfold memSeal
    simp only [hnn, hcap, if_false, einit, ok_bind, edata, hmem, hmem2, hm, memAppend64_eq,
      pure_eq_ok, ← hF]
  · rw [u1, t1, hb2, hb1]
    simp only [tagBytes, List.append_assoc]
  · simp only [List.length_append, tagBytes_length, hlen2]
    omega

theorem memBytes_congr {m1 m2 : Mem} (s : Slice)
    (h : ∀ i, s.ptr ≤ i → i < s.ptr + s.len → m1.data i = m2.data i) :
    memBytes m1 s = memBytes m2 s :=
  memRead_congr h

/-- `Seal` on the heap: with all slices in allocated memory, a 16-byte key and a 16-byte
nonce, and either too little capacity in `dst` (so that a new array is made) or the place
where `dst` grows clear of the plaintext, the call returns, and the returned slice holds
the contents of `dst` followed by what `Seal` on contents returns for the empty `dst`. -/
theorem memSeal_spec (grow : Nat → Nat → Nat) (m : Mem) (c : MemAEAD) (dst nonce pt data : Slice)
    (hk : c.key.len = 16) (hkb : c.key.ptr + c.key.len ≤ m.size)
    (hn : nonce.len = 16) (hnb : nonce.ptr + nonce.len ≤ m.size)
    (hab : data.ptr + data.len ≤ m.size) (hpb : pt.ptr + pt.len ≤ m.size)
    (hv : dst.Valid m)
    (hc : dst.cap < dst.len + pt.len + TagSize ∨
      Clear (dst.ptr + dst.len) pt.ptr (pt.ptr + pt.len)) :
    ∃ (out : List Byte) (m1 : Mem) (dst1 : Slice),
      Seal ⟨memBytes m c.key⟩ [] (memBytes m nonce) (memBytes m pt) (memBytes m data) =
        Except.ok out ∧
      memSeal grow m c dst nonce pt data = Except.ok (m1, dst1) ∧
      memBytes m1 dst1 = memBytes m dst ++ out ∧ out.length = pt.len + 16 := by
  by_cases hcap : dst.cap < dst.len + pt.len + TagSize
  · have hDl : (memBytes m dst).length = dst.len := by rw [memBytes, memRead_length]
    have hfit : (0 : Nat) + (memBytes m dst).length ≤ dst.len + pt.len + TagSize := by
      rw [hDl]; omega
    have hnn : ¬ nonce.len ≠ NonceSize := by simp [hn, NonceSize]
    obtain ⟨m0, hm0⟩ : ∃ m0 : Mem, m0 =
        memWrite (memMake m (dst.len + pt.len + TagSize)).1 (m.size + 0) (memBytes m dst) :=
      ⟨_, rfl⟩
    have hfr : ∀ i, i < m.size → m0.data i = m.data i := by
      intro i hi
      rw [hm0, memWrite_outside _ _ _ (by omega), memMake_below m _ hi]
    have hsize : m0.size = m.size + (dst.len + pt.len + TagSize) := by rw [hm0]; rfl
    have hD : memBytes m0 ⟨m.size, 0 + (memBytes m dst).length, dst.len + pt.len + TagSize⟩ =
        memBytes m dst := by
      show memRead m0 m.size (0 + (memBytes m dst).length) = _
      rw [hm0, Nat.zero_add, Nat.add_zero, memRead_write_same]
    have hcap0 : ¬ (dst.len + pt.len + TagSize) < 0 + (memBytes m dst).length + pt.len + TagSize := by
      rw [hDl]; omega
    have hstep : memSeal grow m c dst nonce pt data =
        memSeal grow m0 c ⟨m.size, 0 + (memBytes m dst).length, dst.len + pt.len + TagSize⟩
          nonce pt data := by
      have hap : memAppend grow (memMake m (dst.len + pt.len + TagSize)).1
          (memMake m (dst.len + pt.len + TagSize)).2 (memBytes m dst) =
          (m0, ⟨m.size, 0 + (memBytes m dst).length, dst.len + pt.len + TagSize⟩) := by
        rw [hm0]
        show (if 0 + (memBytes m dst).length ≤ dst.len + pt.len + TagSize then _ else _) = _
        rw [if_pos hfit]
        rfl
      unfold memSeal
      simp only [hnn, if_false, hcap, if_true, hcap0, hap]
    obtain ⟨out, m1, dst1, hs, hmem, hb, hl⟩ := memSeal_fits grow m0 c
      ⟨m.size, 0 + (memBytes m dst).length, dst.len + pt.len + TagSize⟩ nonce pt data hk hn
      (by rw [hsize]; omega)
      ⟨by show 0 + (memBytes m dst).length ≤ _; exact hfit, by rw [hsize]⟩
      hcap0 (Or.inr (by show pt.ptr + pt.len ≤ m.size + (0 + (memBytes m dst).length); omega))
    rw [memBytes_congr c.key (fun i _ h2 => hfr i (by omega)),
      memBytes_congr nonce (fun i _ h2 => hfr i (by omega)),
      memBytes_congr pt (fun i _ h2 => hfr i (by omega)),
      memBytes_congr data (fun i _ h2 => hfr i (by omega))] at hs
    exact ⟨out, m1, dst1, hs, by rw [hstep]; exact hmem, by rw [hb, hD], hl⟩
  · rcases hc with hc | hc
    · exact absurd hc hcap
    · exact memSeal_fits grow m c dst nonce pt data hk hn hpb hv hcap hc

/-! ## `Open` in memory against `Open` on contents -/

/-- The block loop of `Open` on the heap against the block loop on contents: when the
place where `dst` grows is clear of the ciphertext still to be read, the heap loop reaches
the state, appends the plaintext blocks and leaves the rest that the loop on the contents
of the ciphertext gives; the input from there up to `e` is untouched. -/
theorem memOpenBlocks_spec (grow : Nat → Nat → Nat) :
    ∀ (fuel : Nat) (m : Mem) (s : State) (dst ct : Slice) (e : Nat),
      ct.len ≤ fuel → dst.Valid m → ct.ptr + ct.len ≤ e → e ≤ m.size →
      Clear (dst.ptr + dst.len) ct.ptr e →
      ∃ (m1 : Mem) (s1 : State) (dst1 : Slice) (out rem : List Byte) (c1 : Nat),
        (∀ d : List Byte,
          openBlocks s d (memRead m ct.ptr ct.len) = Except.ok (s1, d ++ out, rem)) ∧
        memOpenBlocks grow fuel m s dst ct =
          Except.ok (m1, s1, dst1, ⟨ct.ptr + out.length, rem.length, c1⟩) ∧
        memBytes m1 dst1 = memBytes m dst ++ out ∧ dst1.Valid m1 ∧ e ≤ m1.size ∧
        Clear (dst1.ptr + dst1.len) (ct.ptr + out.length) e ∧
        (∀ i, ct.ptr + out.length ≤ i → i < e → m1.data i = m.data i) ∧
        out.length + rem.length = ct.len ∧ rem.length < 8 ∧
        rem = memRead m (ct.ptr + out.length) rem.length := by
  intro fuel
  induction fuel with
  | zero =>
    intro m s dst ct e hf hv hb he hc
    have h0 : ct.len = 0 := by omega
    have hg : ¬ ct.len ≥ rate := by rw [h0]; decide
    refine ⟨m, s, dst, [], [], ct.cap, ?_, ?_, by rw [List.append_nil], hv, he, hc,
      fun _ _ _ => rfl, by simp [h0], by simp, rfl⟩
    · intro d
      rw [h0, memRead_zero, List.append_nil]
      rfl
    · unfold memOpenBlocks
      simp only [hg, if_false, pure_eq_ok, List.length_nil, Nat.add_zero]
      rw [← h0]
  | succ fuel ih =>
    intro m s dst ct e hf hv hb he hc
    by_cases hg : ct.len ≥ rate
    · have hg8 : ct.len ≥ 8 := hg
      obtain ⟨w, hw, _⟩ := extract64_total (m.data ct.ptr) (m.data (ct.ptr + 1))
        (m.data (ct.ptr + 2)) (m.data (ct.ptr + 3)) (m.data (ct.ptr + 4)) (m.data (ct.ptr + 5))
        (m.data (ct.ptr + 6)) (m.data (ct.ptr + 7)) []
      obtain ⟨m1, dst1, ha, hbytes, hv1, he1, hc1, hfr⟩ :=
        memAppend_step grow m dst (be64 (s.x0 ^^^ w)) ct.ptr e hv he hc
      rw [be64_length] at hc1 hfr
      obtain ⟨m2, s2, dst2, out, rem, c2, hval, hmem, hb2, hv2, he2, hc2, hfr2, hlen, hrem, hrd⟩ :=
        ih m1 (p6 ⟨w, s.x1, s.x2, s.x3, s.x4⟩) dst1
          ⟨ct.ptr + 8, ct.len - 8, ct.cap - 8⟩ e (by show ct.len - 8 ≤ fuel; omega) hv1
          (by show ct.ptr + 8 + (ct.len - 8) ≤ e; omega) he1 hc1
      have hrest : memRead m1 (ct.ptr + 8) (ct.len - 8) = memRead m (ct.ptr + 8) (ct.len - 8) :=
        memRead_congr (fun i h1 h2 => hfr i h1 (by omega))
      have hP : memRead m ct.ptr ct.len =
          m.data ct.ptr :: m.data (ct.ptr + 1) :: m.data (ct.ptr + 2) :: m.data (ct.ptr + 3) ::
          m.data (ct.ptr + 4) :: m.data (ct.ptr + 5) :: m.data (ct.ptr + 6) ::
          m.data (ct.ptr + 7) :: memRead m (ct.ptr + 8) (ct.len - 8) := by
        have e8 : ct.len = 8 + (ct.len - 8) := by omega
        rw [e8, memRead_add, memRead_eight]
        simp
      refine ⟨m2, s2, dst2, be64 (s.x0 ^^^ w) ++ out, rem, c2, ?_, ?_, ?_, hv2, he2, ?_, ?_, ?_,
        hrem, ?_⟩
      · intro d
        rw [hP, openBlocks_step s d _ _ _ _ _ _ _ _ _ hw, ← hrest]
        have := hval (d ++ be64 (s.x0 ^^^ w))
        simp only at this
        rw [this, List.append_assoc]
      · unfold memOpenBlocks
        simp only [hg, if_true, memRead_eight, hw, ok_bind, memAppend64_eq, ha]
        have e1 : ct.ptr + (be64 (s.x0 ^^^ w) ++ out).length = ct.ptr + 8 + out.length := by
          rw [List.length_append, be64_length]; omega
        rw [e1]
        exact hmem
      · rw [hb2, hbytes, List.append_assoc]
      · have e1 : ct.ptr + (be64 (s.x0 ^^^ w) ++ out).length = ct.ptr + 8 + out.length := by
          rw [List.length_append, be64_length]; omega
        rw [e1]
        exact hc2
      · intro i hi1 hi2
        have e1 : (be64 (s.x0 ^^^ w) ++ out).length = 8 + out.length := by
          rw [List.length_append, be64_length]
        rw [e1] at hi1
        rw [hfr2 i (by show ct.ptr + 8 + out.length ≤ i; omega) hi2, hfr i (by omega) hi2]
      · have e1 : (be64 (s.x0 ^^^ w) ++ out).length = 8 + out.length := by
          rw [List.length_append, be64_length]
        rw [e1]
        have : out.length + rem.length = ct.len - 8 := hlen
        omega
      · have e1 : ct.ptr + (be64 (s.x0 ^^^ w) ++ out).length = ct.ptr + 8 + out.length := by
          rw [List.length_append, be64_length]; omega
        have hl : out.length + rem.length = ct.len - 8 := hlen
        rw [e1, hrd]
        simp only [memRead_length]
        exact memRead_congr (fun i h1 h2 => hfr i (by omega) (by omega))
    · have hlt : ct.len < 8 := by
        have : ¬ ct.len ≥ 8 := hg
        omega
      refine ⟨m, s, dst, [], memRead m ct.ptr ct.len, ct.cap, ?_, ?_, by rw [List.append_nil],
        hv, he, hc, fun _ _ _ => rfl, by simp [memRead_length],
        by rw [memRead_length]; exact hlt, by simp [memRead_length]⟩
      · intro d
        rw [openBlocks_short s d (by rw [memRead_length]; exact hlt), List.append_nil]
      · unfold memOpenBlocks
        simp only [hg, if_false, pure_eq_ok, List.length_nil, Nat.add_zero, memRead_length]

/-- The byte loop of `Open` on the heap against the byte loop on contents. -/
theorem memOpenBytes_spec (grow : Nat → Nat → Nat) :
    ∀ (n : Nat) (m : Mem) (x0 : Nat) (dst : Slice) (i : Nat) (ct : Slice) (e : Nat),
      i + n ≤ 8 → dst.Valid m → ct.ptr + i + n ≤ e → e ≤ m.size →
      Clear (dst.ptr + dst.len) (ct.ptr + i) e →
      ∃ (m1 : Mem) (X : Nat) (dst1 : Slice) (ob : List Byte),
        (∀ d : List Byte,
          openBytes x0 d i (memRead m (ct.ptr + i) n) = Except.ok (X, d ++ ob)) ∧
        memOpenBytes grow n m x0 dst i ct = Except.ok (m1, X, dst1) ∧
        memBytes m1 dst1 = memBytes m dst ++ ob ∧ dst1.Valid m1 ∧ e ≤ m1.size ∧
        ob.length = n ∧
        Clear (dst1.ptr + dst1.len) (ct.ptr + i + n) e ∧
        ∀ j, ct.ptr + i + n ≤ j → j < e → m1.data j = m.data j := by
  intro n
  induction n with
  | zero =>
    intro m x0 dst i ct e _ hv _ he hc
    exact ⟨m, x0, dst, [], fun d => by rw [memRead_zero, List.append_nil]; rfl, rfl,
      by rw [List.append_nil], hv, he, rfl, hc, fun _ _ _ => rfl⟩
  | succ n ih =>
    intro m x0 dst i ct e hi hv hb he hc
    have hi7 : i ≤ 7 := by omega
    obtain ⟨m1, dst1, ha, hbytes, hv1, he1, hc1, hfr⟩ :=
      memAppend_step grow m dst
        [toByte ((toByte (x0 >>> (8 * (7 - i)))).val ^^^ (m.data (ct.ptr + i)).val)]
        (ct.ptr + i) e hv he hc
    simp only [List.length_singleton] at hc1 hfr
    obtain ⟨m2, X, dst2, ob, hval, hmem, hb2, hv2, he2, hlen, hc2, hfr2⟩ :=
      ih m1 (andNot x0 (((0xFF : Byte).val <<< (8 * (7 - i))) % 2 ^ 64) |||
          ((m.data (ct.ptr + i)).val <<< (8 * (7 - i))) % 2 ^ 64) dst1 (i + 1) ct e
        (by omega) hv1 (by omega) he1 (by rw [← Nat.add_assoc]; exact hc1)
    have hrest : memRead m1 (ct.ptr + (i + 1)) n = memRead m (ct.ptr + i + 1) n := by
      rw [← Nat.add_assoc]
      exact memRead_congr (fun j h1 h2 => hfr j h1 (by omega))
    refine ⟨m2, X, dst2,
      toByte ((toByte (x0 >>> (8 * (7 - i)))).val ^^^ (m.data (ct.ptr + i)).val) :: ob,
      ?_, ?_, ?_, hv2, he2, by simp [hlen], ?_, ?_⟩
    · intro d
      rw [memRead_succ]
      unfold openBytes
      simp only [insertByte_ok _ hi7, ok_bind, extractByte_ok _ hi7]
      rw [← hrest, hval, List.append_assoc, List.singleton_append]
    · unfold memOpenBytes
      simp only [insertByte_ok _ hi7, ok_bind, extractByte_ok _ hi7, ha]
      exact hmem
    · rw [hb2, hbytes, List.append_assoc, List.singleton_append]
    · have e1 : ct.ptr + i + (n + 1) = ct.ptr + (i + 1) + n := by omega
      rw [e1]
      exact hc2
    · intro j hj1 hj2
      rw [hfr2 j (by omega) hj2, hfr j (by omega) hj2]

theorem memRead_take (m : Mem) (a n k : Nat) (h : k ≤ n) :
    (memRead m a n).take k = memRead m a k := by
  have e : n = k + (n - k) := by omega
  rw [e, memRead_add]
  exact List.take_left' (memRead_length m a k)

theorem memRead_drop (m : Mem) (a n k : Nat) (h : k ≤ n) :
    (memRead m a n).drop k = memRead m (a + k) (n - k) := by
  have e : n = k + (n - k) := by omega
  rw [e, memRead_add, Nat.add_sub_cancel_left]
  exact List.drop_left' (memRead_length m a k)

/-- `Open` on the heap: with a 16-byte key, a 16-byte nonce, the ciphertext and `dst` in
allocated memory and the place where `dst` grows clear of the ciphertext and its tag, the
call returns with the error that `Open` on contents returns for the empty `dst`; without
error the returned slice holds the contents of `dst` followed by the plaintext, and with
the error it is the nil slice. -/
theorem memOpen_spec (grow : Nat → Nat → Nat) (m : Mem) (c : MemAEAD) (dst nonce ct data : Slice)
    (hk : c.key.len = 16) (hn : nonce.len = 16) (hcb : ct.ptr + ct.len ≤ m.size)
    (hv : dst.Valid m) (hc : Clear (dst.ptr + dst.len) ct.ptr (ct.ptr + ct.len)) :
    ∃ (out : List Byte) (err : Option String) (m1 : Mem) (dst1 : Slice),
      Open ⟨memBytes m c.key⟩ [] (memBytes m nonce) (memBytes m ct) (memBytes m data) =
        Except.ok (out, err) ∧
      memOpen grow m c dst nonce ct data = Except.ok (m1, dst1, err) ∧
      (err = none →
        memBytes m1 dst1 = memBytes m dst ++ out ∧ out.length = ct.len - 16 ∧ 16 ≤ ct.len) ∧
      (err ≠ none → dst1 = nilSlice ∧ out = []) := by
  have hkl : (memBytes m c.key).length = 16 := by rw [memBytes, memRead_length, hk]
  have hnl : (memBytes m nonce).length = 16 := by rw [memBytes, memRead_length, hn]
  have hcl : (memBytes m ct).length = ct.len := by rw [memBytes, memRead_length]
  have hnn : ¬ nonce.len ≠ NonceSize := by simp [hn, NonceSize]
  have hnn2 : ¬ (memBytes m nonce).length ≠ NonceSize := by simp [hnl, NonceSize]
  by_cases hshort : ct.len < TagSize
  · have hshort2 : (memBytes m ct).length < TagSize := by rw [hcl]; exact hshort
    refine ⟨[], some authError, m, nilSlice, ?_, ?_, ?_, ?_⟩
    · unfold Open
      simp only [hnn2, if_false, hshort2, if_true, pure_eq_ok]
    · unfold memOpen
      simp only [hnn, if_false, hshort, if_true, pure_eq_ok]
    · intro h
      cases h
    · intro _
      exact ⟨rfl, rfl⟩
  · have h16 : 16 ≤ ct.len := by
      have : ¬ ct.len < 16 := hshort
      omega
    obtain ⟨k0, k1, s0, einit, hb0⟩ := initState_total hkl hnl
    obtain ⟨sa, edata, _⟩ := sealData_total hb0 (memBytes m data)
    obtain ⟨m1, s1, dst1, out, rem, c1, hval, hmem, hb1, hv1, he1, hc1, hfr1, hlen1, hrem1, hrd⟩ :=
      memOpenBlocks_spec grow (ct.len - 16) m sa dst ⟨ct.ptr, ct.len - 16, ct.cap⟩
        (ct.ptr + ct.len) (Nat.le_refl _) hv (by show ct.ptr + (ct.len - 16) ≤ _; omega) hcb hc
    dsimp only at hval hmem hc1 hfr1 hlen1 hrd
    obtain ⟨m2, X, dst2, ob, hval2, hmem2, hb2, hv2, he2, hlen2, _, hfr2⟩ :=
      memOpenBytes_spec grow rem.length m1 s1.x0 dst1 0
        ⟨ct.ptr + out.length, rem.length, c1⟩ (ct.ptr + ct.len) (by omega) hv1
        (by show ct.ptr + out.length + 0 + rem.length ≤ ct.ptr + ct.len; omega) he1
        (by show Clear _ (ct.ptr + out.length + 0) _; rw [Nat.add_zero]; exact hc1)
    dsimp only at hval2 hmem2 hfr2
    have hrem2 : memRead m1 (ct.ptr + out.length + 0) rem.length = rem := by
      rw [Nat.add_zero, hrd]
      simp only [memRead_length]
      exact memRead_congr (fun i h1 h2 => hfr1 i h1 (by omega))
    have hval2b : ∀ d : List Byte, openBytes s1.x0 d 0 rem = Except.ok (X, d ++ ob) := by
      intro d
      have := hval2 d
      rw [hrem2] at this
      exact this
    have hm : insertByte (0x80 : Byte) rem.length =
        Except.ok (((0x80 : Byte).val <<< (8 * (7 - rem.length))) % 2 ^ 64) :=
      insertByte_ok _ (by omega)
    obtain ⟨F, hF⟩ : ∃ F : State, F = finalize k0 k1
        ⟨X ^^^ ((0x80 : Byte).val <<< (8 * (7 - rem.length))) % 2 ^ 64, s1.x1, s1.x2, s1.x3,
          s1.x4⟩ := ⟨_, rfl⟩
    have hbody : (memBytes m ct).take ((memBytes m ct).length - 16) =
        memRead m ct.ptr (ct.len - 16) := by
      rw [hcl]
      exact memRead_take m ct.ptr ct.len (ct.len - 16) (by omega)
    have htag : (memBytes m ct).drop ((memBytes m ct).length - 16) =
        memRead m (ct.ptr + (ct.len - 16)) 16 := by
      rw [hcl, memBytes, memRead_drop m ct.ptr ct.len (ct.len - 16) (by omega)]
      have : ct.len - (ct.len - 16) = 16 := by omega
      rw [this]
    have htag2 : memBytes m2 ⟨ct.ptr + (ct.len - TagSize), TagSize,
        ct.cap - (ct.len - TagSize)⟩ = memRead m (ct.ptr + (ct.len - 16)) 16 := by
      show memRead m2 (ct.ptr + (ct.len - 16)) 16 = _
      apply memRead_congr
      intro i h1 h2
      rw [hfr2 i (by omega) (by omega), hfr1 i (by omega) (by omega)]
    have hcore : openCore ⟨memBytes m c.key⟩ [] (memBytes m nonce)
        ((memBytes m ct).take ((memBytes m ct).length - 16)) (memBytes m data) =
        Except.ok (out ++ ob, tagBytes F) := by
      rw [hbody]
      unfold openCore
      simp only [einit, ok_bind, openData_eq, edata, hval, hval2b, hm,
        (check_ok _).1, (check_ok _).2, pure_eq_ok, tagBytes, ← hF, List.nil_append,
        List.append_assoc]
    have hopen := @open_of_core (memBytes m nonce) hnl ⟨memBytes m c.key⟩ []
      (memBytes m ct) (memBytes m data) (out ++ ob) (tagBytes F) (by rw [hcl]; exact h16) hcore
    rw [htag] at hopen
    have hheap : memOpen grow m c dst nonce ct data =
        if ConstantTimeCompare (memRead m (ct.ptr + (ct.len - 16)) 16) (tagBytes F) = 0 then
          Except.ok (m2, nilSlice, some authError)
        else Except.ok (m2, dst2, none) := by
      have hmem0 : memOpenBlocks grow (ct.len - TagSize) m sa dst
          ⟨ct.ptr, ct.len - TagSize, ct.cap⟩ =
          Except.ok (m1, s1, dst1, ⟨ct.ptr + out.length, rem.length, c1⟩) := hmem
      unfold memOpen
      simp only [hnn, if_false, hshort, einit, ok_bind, openData_eq, edata, hmem0, hmem2, hm,
        (check_ok _).1, (check_ok _).2, pure_eq_ok, ← hF, htag2, tagBytes]
    by_cases heq : memRead m (ct.ptr + (ct.len - 16)) 16 = tagBytes F
    · refine ⟨out ++ ob, none, m2, dst2, ?_, ?_, ?_, ?_⟩
      · rw [hopen, if_pos heq]
      · rw [hheap, ConstantTimeCompare, if_pos heq]
        rfl
      · intro _
        refine ⟨?_, ?_, h16⟩
        · rw [hb2, hb1, List.append_assoc]
        · rw [List.length_append, hlen2]
          exact hlen1
      · intro h
        exact absurd rfl h
    · refine ⟨[], some authError, m2, nilSlice, ?_, ?_, ?_, ?_⟩
      · rw [hopen, if_neg heq]
      · rw [hheap, ConstantTimeCompare, if_neg heq]
        rfl
      · intro h
        cases h
      · intro _
        exact ⟨rfl, rfl⟩

theorem memNew_ok {key : Slice} {c : MemAEAD} (h : memNew key = (some c, none)) :
    key.len = 16 ∧ c = ⟨key⟩ := by
  unfold memNew at h
  by_cases hk : key.len ≠ KeySize
  · simp [hk] at h
  · simp only [hk, if_false, Prod.mk.injEq, Option.some.injEq, and_true] at h
    exact ⟨by simpa [KeySize] using hk, h.symm⟩

theorem nilSlice_valid (m : Mem) : nilSlice.Valid m := ⟨Nat.le_refl _, Nat.zero_le _⟩

theorem memBytes_nil (m : Mem) : memBytes m nilSlice = [] := rfl

theorem memBytes_length (m : Mem) (s : Slice) : (memBytes m s).length = s.len :=
  memRead_length m s.ptr s.len

/-! ## `Seal` and `Open` append to `dst`, in memory -/

/-- C13, counterexample: on the heap `sealHeap`, with key and nonce `000102...0f` and the
associated data `data`, let `buf` be the array of 64 bytes at address 36 that begins with
`hello world`, the plaintext be `buf[:11]` and `dst` be `buf[:4]`, of capacity 64.
`Seal(nil, ...)` returns the 27 bytes of test vector 2; `Seal(dst, ...)` has capacity
enough, stores its first block at `buf[4:12]` before the loop over the last three
plaintext bytes reads `buf[8:11]`, and returns `hell` followed by 27 bytes that differ from
those from the ninth on: the result is not `dst` followed by `Seal(nil, ...)`. -/
theorem memSeal_overlap_fails :
    memNew ⟨0, 16, 16⟩ = (some ⟨⟨0, 16, 16⟩⟩, none) ∧
    memBytes sealHeap ⟨36, 4, 64⟩ = [0x68, 0x65, 0x6c, 0x6c] ∧
    memBytes sealHeap ⟨36, 11, 11⟩ = vec_pt2 ∧
    sealResult (memSeal growExact sealHeap ⟨⟨0, 16, 16⟩⟩ nilSlice ⟨16, 16, 16⟩ ⟨36, 11, 11⟩
      ⟨32, 4, 4⟩) = Except.ok vec_ct2 ∧
    sealResult (memSeal growExact sealHeap ⟨⟨0, 16, 16⟩⟩ ⟨36, 4, 64⟩ ⟨16, 16, 16⟩ ⟨36, 11, 11⟩
      ⟨32, 4, 4⟩) =
      Except.ok [0x68, 0x65, 0x6c, 0x6c, 0x01, 0x8e, 0xcd, 0xf5, 0xe7, 0x42, 0xee, 0xfa, 0xeb,
        0x17, 0xde, 0xce, 0x83, 0x09, 0xf8, 0x4f, 0x06, 0x8d, 0x24, 0xb3, 0xb7, 0x8e, 0x76,
        0x59, 0xf9, 0xdd, 0xbc] ∧
    sealResult (memSeal growExact sealHeap ⟨⟨0, 16, 16⟩⟩ ⟨36, 4, 64⟩ ⟨16, 16, 16⟩ ⟨36, 11, 11⟩
      ⟨32, 4, 4⟩) ≠ Except.ok (memBytes sealHeap ⟨36, 4, 64⟩ ++ vec_ct2) := by
  decide

/-- C13, as amended: for every AEAD built by `New`, every 16-byte nonce and every growth
policy of `append`, with key, nonce, plaintext, associated data and `dst` in allocated
memory, if the capacity of `dst` is below `len(dst) + len(pt) + 16` (the capacity branch
reallocates) or the place where `dst` grows, `dst[len(dst):]`, begins at or before the
first plaintext byte or behind the last one, then `Seal(dst, nonce, pt, ad)` returns the
bytes of `dst` at the call followed by what `Seal(nil, nonce, pt, ad)` returns, which is
what `Seal` on the contents returns for the empty `dst`; the appended part has length
`len(pt) + 16` and the result has length `len(dst) + len(pt) + 16`. -/
theorem memSeal_appends (grow : Nat → Nat → Nat) (m : Mem) (key : Slice) (c : MemAEAD)
    (dst nonce pt data : Slice)
    (hnew : memNew key = (some c, none)) (hn : nonce.len = 16)
    (hkb : key.ptr + key.len ≤ m.size) (hnb : nonce.ptr + nonce.len ≤ m.size)
    (hab : data.ptr + data.len ≤ m.size) (hpb : pt.ptr + pt.len ≤ m.size)
    (hv : dst.Valid m)
    (hc : dst.cap < dst.len + pt.len + TagSize ∨
      Clear (dst.ptr + dst.len) pt.ptr (pt.ptr + pt.len)) :
    ∃ out : List Byte,
      Seal ⟨memBytes m key⟩ [] (memBytes m nonce) (memBytes m pt) (memBytes m data) =
        Except.ok out ∧
      sealResult (memSeal grow m c nilSlice nonce pt data) = Except.ok out ∧
      sealResult (memSeal grow m c dst nonce pt data) = Except.ok (memBytes m dst ++ out) ∧
      out.length = pt.len + 16 ∧
      (memBytes m dst ++ out).length = dst.len + pt.len + 16 := by
  obtain ⟨hk, rfl⟩ := memNew_ok hnew
  obtain ⟨out, m1, d1, hs, hm, hb, hl⟩ :=
    memSeal_spec grow m ⟨key⟩ dst nonce pt data hk hkb hn hnb hab hpb hv hc
  obtain ⟨out0, m0, d0, hs0, hm0, hb0, _⟩ :=
    memSeal_spec grow m ⟨key⟩ nilSlice nonce pt data hk hkb hn hnb hab hpb (nilSlice_valid m)
      (Or.inl (by show 0 < 0 + pt.len + 16; omega))
  have e : out0 = out := by
    rw [hs] at hs0
    exact (Except.ok.inj hs0).symm
  refine ⟨out, hs, ?_, ?_, hl, ?_⟩
  · rw [hm0]
    show Except.ok (memBytes m0 d0) = _
    rw [hb0, memBytes_nil, List.nil_append, e]
  · rw [hm]
    show Except.ok (memBytes m1 d1) = _
    rw [hb]
  · rw [List.length_append, memBytes_length, hl, Nat.add_assoc]

theorem memSeal_appends_witness :
    memNew ⟨0, 16, 16⟩ = (some ⟨⟨0, 16, 16⟩⟩, none) ∧
    Slice.Valid sealHeap ⟨36, 0, 64⟩ ∧ Clear (36 + 0) 36 (36 + 11) ∧
    sealResult (memSeal growExact sealHeap ⟨⟨0, 16, 16⟩⟩ ⟨36, 0, 64⟩ ⟨16, 16, 16⟩ ⟨36, 11, 11⟩
      ⟨32, 4, 4⟩) = Except.ok vec_ct2 ∧
    ∃ out : List Byte,
      Seal ⟨memBytes sealHeap ⟨0, 16, 16⟩⟩ [] (memBytes sealHeap ⟨16, 16, 16⟩)
        (memBytes sealHeap ⟨36, 11, 11⟩) (memBytes sealHeap ⟨32, 4, 4⟩) = Except.ok out ∧
      sealResult (memSeal growExact sealHeap ⟨⟨0, 16, 16⟩⟩ nilSlice ⟨16, 16, 16⟩ ⟨36, 11, 11⟩
        ⟨32, 4, 4⟩) = Except.ok out ∧
      sealResult (memSeal growExact sealHeap ⟨⟨0, 16, 16⟩⟩ ⟨36, 0, 64⟩ ⟨16, 16, 16⟩
        ⟨36, 11, 11⟩ ⟨32, 4, 4⟩) = Except.ok (memBytes sealHeap ⟨36, 0, 64⟩ ++ out) ∧
      out.length = 11 + 16 ∧
      (memBytes sealHeap ⟨36, 0, 64⟩ ++ out).length = 0 + 11 + 16 :=
  ⟨rfl, ⟨by decide, by decide⟩, Or.inl (by decide), by decide,
    memSeal_appends growExact sealHeap ⟨0, 16, 16⟩ ⟨⟨0, 16, 16⟩⟩ ⟨36, 0, 64⟩ ⟨16, 16, 16⟩
      ⟨36, 11, 11⟩ ⟨32, 4, 4⟩ rfl rfl (by decide) (by decide) (by decide) (by decide)
      ⟨by decide, by decide⟩ (Or.inr (Or.inl (by decide)))⟩

/-- C14, counterexample: on the heap `openHeap`, with key and nonce `000102...0f` and the
associated data `data`, let `buf` at address 64 hold the 27 bytes that `Seal` returned for
`hello world`, the ciphertext be `buf` and `dst` be `buf[:4]`, of capacity 27.
`Open(nil, ...)` returns `hello world` and no error; `Open(dst, ...)` stores its first
block at `buf[4:12]`, over ciphertext bytes not yet read and over the first byte of the
tag, and returns nil and the authentication error. -/
theorem memOpen_overlap_fails :
    memNew ⟨0, 16, 16⟩ = (some ⟨⟨0, 16, 16⟩⟩, none) ∧
    memBytes openHeap ⟨64, 27, 27⟩ = vec_ct2 ∧
    openResult (memOpen growExact openHeap ⟨⟨0, 16, 16⟩⟩ nilSlice ⟨16, 16, 16⟩ ⟨64, 27, 27⟩
      ⟨32, 4, 4⟩) = Except.ok (vec_pt2, none) ∧
    openResult (memOpen growExact openHeap ⟨⟨0, 16, 16⟩⟩ ⟨64, 4, 27⟩ ⟨16, 16, 16⟩ ⟨64, 27, 27⟩
      ⟨32, 4, 4⟩) = Except.ok ([], some authError) := by
  decide

/-- C14, as amended: for every AEAD built by `New`, every 16-byte nonce and every growth
policy of `append`, with the ciphertext and `dst` in allocated memory, if the place where
`dst` grows, `dst[len(dst):]`, begins at or before the first byte of the ciphertext or
behind the last byte of its tag, then `Open(dst, ...)` returns the error that
`Open(nil, ...)` returns, which is the one `Open` on the contents returns; without error
the result is the bytes of `dst` at the call followed by the plaintext `p` that
`Open(nil, ...)` returns, where `len(p) = len(ciphertext) - 16`, and with the error it is
nil. -/
theorem memOpen_appends (grow : Nat → Nat → Nat) (m : Mem) (key : Slice) (c : MemAEAD)
    (dst nonce ct data : Slice)
    (hnew : memNew key = (some c, none)) (hn : nonce.len = 16)
    (hcb : ct.ptr + ct.len ≤ m.size) (hv : dst.Valid m)
    (hc : Clear (dst.ptr + dst.len) ct.ptr (ct.ptr + ct.len)) :
    ∃ (p : List Byte) (err : Option String),
      Open ⟨memBytes m key⟩ [] (memBytes m nonce) (memBytes m ct) (memBytes m data) =
        Except.ok (p, err) ∧
      openResult (memOpen grow m c nilSlice nonce ct data) = Except.ok (p, err) ∧
      openResult (memOpen grow m c dst nonce ct data) =
        Except.ok (if err = none then memBytes m dst ++ p else [], err) ∧
      (err = none → p.length = ct.len - 16 ∧ 16 ≤ ct.len) := by
  obtain ⟨hk, rfl⟩ := memNew_ok hnew
  obtain ⟨p, err, m1, d1, hs, hm, hok, herr⟩ :=
    memOpen_spec grow m ⟨key⟩ dst nonce ct data hk hn hcb hv hc
  obtain ⟨p0, err0, m0, d0, hs0, hm0, hok0, herr0⟩ :=
    memOpen_spec grow m ⟨key⟩ nilSlice nonce ct data hk hn hcb (nilSlice_valid m)
      (Or.inl (Nat.zero_le _))
  have e : p0 = p ∧ err0 = err := by
    rw [hs] at hs0
    have := Except.ok.inj hs0
    exact ⟨(congrArg Prod.fst this).symm, (congrArg Prod.snd this).symm⟩
  obtain ⟨rfl, rfl⟩ := e
  refine ⟨p0, err0, hs, ?_, ?_, ?_⟩
  · rw [hm0]
    show Except.ok (memBytes m0 d0, err0) = _
    by_cases h : err0 = none
    · rw [(hok0 h).1, memBytes_nil, List.nil_append]
    · rw [(herr0 h).1, (herr0 h).2, memBytes_nil]
  · rw [hm]
    show Except.ok (memBytes m1 d1, err0) = _
    by_cases h : err0 = none
    · rw [(hok h).1, if_pos h]
    · rw [(herr h).1, if_neg h, memBytes_nil]
  · intro h
    exact (hok h).2

theorem memOpen_appends_witness :
    memNew ⟨0, 16, 16⟩ = (some ⟨⟨0, 16, 16⟩⟩, none) ∧
    Slice.Valid openHeap ⟨64, 0, 27⟩ ∧ Clear (64 + 0) 64 (64 + 27) ∧
    openResult (memOpen growExact openHeap ⟨⟨0, 16, 16⟩⟩ ⟨64, 0, 27⟩ ⟨16, 16, 16⟩ ⟨64, 27, 27⟩
      ⟨32, 4, 4⟩) = Except.ok (vec_pt2, none) ∧
    ∃ (p : List Byte) (err : Option String),
      Open ⟨memBytes openHeap ⟨0, 16, 16⟩⟩ [] (memBytes openHeap ⟨16, 16, 16⟩)
        (memBytes openHeap ⟨64, 27, 27⟩) (memBytes openHeap ⟨32, 4, 4⟩) = Except.ok (p, err) ∧
      openResult (memOpen growExact openHeap ⟨⟨0, 16, 16⟩⟩ nilSlice ⟨16, 16, 16⟩ ⟨64, 27, 27⟩
        ⟨32, 4, 4⟩) = Except.ok (p, err) ∧
      openResult (memOpen growExact openHeap ⟨⟨0, 16, 16⟩⟩ ⟨64, 0, 27⟩ ⟨16, 16, 16⟩
        ⟨64, 27, 27⟩ ⟨32, 4, 4⟩) =
        Except.ok (if err = none then memBytes openHeap ⟨64, 0, 27⟩ ++ p else [], err) ∧
      (err = none → p.length = 27 - 16 ∧ 16 ≤ 27) :=
  ⟨rfl, ⟨by decide, by decide⟩, Or.inl (by decide), by decide,
    memOpen_appends growExact openHeap ⟨0, 16, 16⟩ ⟨⟨0, 16, 16⟩⟩ ⟨64, 0, 27⟩ ⟨16, 16, 16⟩
      ⟨64, 27, 27⟩ ⟨32, 4, 4⟩ rfl rfl (by decide) ⟨by decide, by decide⟩ (Or.inl (by decide))⟩

/-! ## Determinism, in memory -/

/-- C15, counterexample: on the heap `keyHeap`, let `buf` be the array of 64 bytes at
address 0 that begins with the key `000102...0f`, and let two instances be built by `New`,
one from `buf[:16]` and one from a second array with the same 16 bytes.  With the same
nonce, the empty plaintext, no associated data and `dst = nil` the two return the same 16
bytes.  After one call `Seal(buf[:0], nonce, nil, nil)` on the first instance, which
stores its 16-byte tag over the key the instance holds, the same two calls return
different bytes: the first instance `28f626bd...`, the second `e355159f...` as before. -/
theorem memSeal_key_overwritten :
    memNew ⟨0, 16, 64⟩ = (some ⟨⟨0, 16, 64⟩⟩, none) ∧
    memNew ⟨64, 16, 16⟩ = (some ⟨⟨64, 16, 16⟩⟩, none) ∧
    memBytes keyHeap ⟨0, 16, 64⟩ = memBytes keyHeap ⟨64, 16, 16⟩ ∧
    sealResult (memSeal growExact keyHeap ⟨⟨0, 16, 64⟩⟩ nilSlice ⟨80, 16, 16⟩ nilSlice
      nilSlice) =
      Except.ok [0xe3, 0x55, 0x15, 0x9f, 0x29, 0x29, 0x11, 0xf7, 0x94, 0xcb, 0x14, 0x32, 0xa0,
        0x10, 0x3a, 0x8a] ∧
    sealResult (memSeal growExact keyHeap ⟨⟨64, 16, 16⟩⟩ nilSlice ⟨80, 16, 16⟩ nilSlice
      nilSlice) =
      Except.ok [0xe3, 0x55, 0x15, 0x9f, 0x29, 0x29, 0x11, 0xf7, 0x94, 0xcb, 0x14, 0x32, 0xa0,
        0x10, 0x3a, 0x8a] ∧
    (memSeal growExact keyHeap ⟨⟨0, 16, 64⟩⟩ ⟨0, 0, 64⟩ ⟨80, 16, 16⟩ nilSlice nilSlice >>=
      fun r => sealResult (memSeal growExact r.1 ⟨⟨0, 16, 64⟩⟩ nilSlice ⟨80, 16, 16⟩ nilSlice
        nilSlice)) =
      Except.ok [0x28, 0xf6, 0x26, 0xbd, 0x4e, 0xe5, 0xcb, 0xb2, 0xcb, 0xf7, 0x55, 0x0d, 0x26,
        0xc2, 0x16, 0x18] ∧
    (memSeal growExact keyHeap ⟨⟨0, 16, 64⟩⟩ ⟨0, 0, 64⟩ ⟨80, 16, 16⟩ nilSlice nilSlice >>=
      fun r => sealResult (memSeal growExact r.1 ⟨⟨64, 16, 16⟩⟩ nilSlice ⟨80, 16, 16⟩ nilSlice
        nilSlice)) =
      Except.ok [0xe3, 0x55, 0x15, 0x9f, 0x29, 0x29, 0x11, 0xf7, 0x94, 0xcb, 0x14, 0x32, 0xa0,
        0x10, 0x3a, 0x8a] := by
  decide

/-- C15, as amended: the output of `Seal` is a function of the bytes that the key array
held by the instance, `dst`, the nonce, the plaintext and the associated data hold at the
call.  For two instances built by `New`, on two heaps and under two growth policies of
`append`, with all slices in allocated memory and, for each call, either the capacity
branch reallocating or the place where `dst` grows beginning at or before the first
plaintext byte or behind the last one: if the two key
arrays, the two `dst`, nonces, plaintexts and associated data hold equal bytes, the two
calls of `Seal` return equal results, and with a 16-byte nonce both return the same
bytes. -/
theorem memSeal_deterministic (grow1 grow2 : Nat → Nat → Nat) (m1 m2 : Mem)
    (key1 key2 : Slice) (c1 c2 : MemAEAD) (dst1 dst2 nonce1 nonce2 pt1 pt2 data1 data2 : Slice)
    (h1 : memNew key1 = (some c1, none)) (h2 : memNew key2 = (some c2, none))
    (hkb1 : key1.ptr + key1.len ≤ m1.size) (hkb2 : key2.ptr + key2.len ≤ m2.size)
    (hnb1 : nonce1.ptr + nonce1.len ≤ m1.size) (hnb2 : nonce2.ptr + nonce2.len ≤ m2.size)
    (hab1 : data1.ptr + data1.len ≤ m1.size) (hab2 : data2.ptr + data2.len ≤ m2.size)
    (hpb1 : pt1.ptr + pt1.len ≤ m1.size) (hpb2 : pt2.ptr + pt2.len ≤ m2.size)
    (hv1 : dst1.Valid m1) (hv2 : dst2.Valid m2)
    (hc1 : dst1.cap < dst1.len + pt1.len + TagSize ∨
      Clear (dst1.ptr + dst1.len) pt1.ptr (pt1.ptr + pt1.len))
    (hc2 : dst2.cap < dst2.len + pt2.len + TagSize ∨
      Clear (dst2.ptr + dst2.len) pt2.ptr (pt2.ptr + pt2.len))
    (hk : memBytes m1 key1 = memBytes m2 key2) (hd : memBytes m1 dst1 = memBytes m2 dst2)
    (hn : memBytes m1 nonce1 = memBytes m2 nonce2) (hp : memBytes m1 pt1 = memBytes m2 pt2)
    (ha : memBytes m1 data1 = memBytes m2 data2) :
    sealResult (memSeal grow1 m1 c1 dst1 nonce1 pt1 data1) =
      sealResult (memSeal grow2 m2 c2 dst2 nonce2 pt2 data2) ∧
    (nonce1.len = 16 → ∃ out : List Byte,
      sealResult (memSeal grow1 m1 c1 dst1 nonce1 pt1 data1) = Except.ok out ∧
      sealResult (memSeal grow2 m2 c2 dst2 nonce2 pt2 data2) = Except.ok out) := by
  obtain ⟨hk1, rfl⟩ := memNew_ok h1
  obtain ⟨hk2, rfl⟩ := memNew_ok h2
  have hnl : nonce1.len = nonce2.len := by
    rw [← memBytes_length m1 nonce1, ← memBytes_length m2 nonce2, hn]
  have key : nonce1.len = 16 → ∃ out : List Byte,
      sealResult (memSeal grow1 m1 ⟨key1⟩ dst1 nonce1 pt1 data1) = Except.ok out ∧
      sealResult (memSeal grow2 m2 ⟨key2⟩ dst2 nonce2 pt2 data2) = Except.ok out := by
    intro hn16
    obtain ⟨o1, a1, d1, hs1, hm1, hb1, _⟩ :=
      memSeal_spec grow1 m1 ⟨key1⟩ dst1 nonce1 pt1 data1 hk1 hkb1 hn16 hnb1 hab1 hpb1 hv1 hc1
    obtain ⟨o2, a2, d2, hs2, hm2, hb2, _⟩ :=
      memSeal_spec grow2 m2 ⟨key2⟩ dst2 nonce2 pt2 data2 hk2 hkb2 (by rw [← hnl]; exact hn16)
        hnb2 hab2 hpb2 hv2 hc2
    have e : o1 = o2 := by
      have hs1b : Seal ⟨memBytes m1 key1⟩ [] (memBytes m1 nonce1) (memBytes m1 pt1)
          (memBytes m1 data1) = Except.ok o1 := hs1
      have hs2b : Seal ⟨memBytes m2 key2⟩ [] (memBytes m2 nonce2) (memBytes m2 pt2)
          (memBytes m2 data2) = Except.ok o2 := hs2
      rw [hk, hn, hp, ha, hs2b] at hs1b
      exact (Except.ok.inj hs1b).symm
    refine ⟨memBytes m1 dst1 ++ o1, ?_, ?_⟩
    · rw [hm1]
      show Except.ok (memBytes a1 d1) = _
      rw [hb1]
    · rw [hm2]
      show Except.ok (memBytes a2 d2) = _
      rw [hb2, hd, e]
  refine ⟨?_, key⟩
  by_cases hn16 : nonce1.len = 16
  · obtain ⟨out, e1, e2⟩ := key hn16
    rw [e1, e2]
  · have b1 : nonce1.len ≠ NonceSize := hn16
    have b2 : nonce2.len ≠ NonceSize := by rw [← hnl]; exact hn16
    unfold memSeal
    rw [if_pos b1, if_pos b2]

theorem memSeal_deterministic_witness :
    memNew ⟨0, 16, 64⟩ = (some ⟨⟨0, 16, 64⟩⟩, none) ∧
    memNew ⟨64, 16, 16⟩ = (some ⟨⟨64, 16, 16⟩⟩, none) ∧
    memBytes keyHeap ⟨0, 16, 64⟩ = memBytes keyHeap ⟨64, 16, 16⟩ ∧
    Slice.Valid keyHeap ⟨16, 0, 48⟩ ∧
    sealResult (memSeal growExact keyHeap ⟨⟨0, 16, 64⟩⟩ nilSlice ⟨80, 16, 16⟩ nilSlice
        nilSlice) =
      sealResult (memSeal growExact keyHeap ⟨⟨64, 16, 16⟩⟩ ⟨16, 0, 48⟩ ⟨80, 16, 16⟩ nilSlice
        nilSlice) ∧
    ((⟨80, 16, 16⟩ : Slice).len = 16 → ∃ out : List Byte,
      sealResult (memSeal growExact keyHeap ⟨⟨0, 16, 64⟩⟩ nilSlice ⟨80, 16, 16⟩ nilSlice
        nilSlice) = Except.ok out ∧
      sealResult (memSeal growExact keyHeap ⟨⟨64, 16, 16⟩⟩ ⟨16, 0, 48⟩ ⟨80, 16, 16⟩ nilSlice
        nilSlice) = Except.ok out) :=
  ⟨rfl, rfl, by decide, ⟨by decide, by decide⟩,
    memSeal_deterministic growExact growExact keyHeap keyHeap ⟨0, 16, 64⟩ ⟨64, 16, 16⟩
      ⟨⟨0, 16, 64⟩⟩ ⟨⟨64, 16, 16⟩⟩ nilSlice ⟨16, 0, 48⟩ ⟨80, 16, 16⟩ ⟨80, 16, 16⟩ nilSlice
      nilSlice nilSlice nilSlice rfl rfl (by decide) (by decide) (by decide) (by decide)
      (by decide) (by decide) (by decide) (by decide) ⟨by decide, by decide⟩
      ⟨by decide, by decide⟩ (Or.inl (by decide)) (Or.inr (Or.inr (by decide))) (by decide)
      (by decide) rfl rfl rfl⟩

end Ascon
